import Mathlib

/-!
# lexy-vdf: a shallow embedding of the KeyValues grammar and tree

The development follows the repository file by file:

* `KeyValues.hpp` / `KeyValues.cpp`: the value variant, the key-value tree,
  `emplace`, `AppendKeyValues`, `MergeWith`, `trim`, `insenitive_trim_eq` and
  the accessors `GetInt`, `GetFloat`, `GetString`, `GetBool`;
* `detail/Warnings.hpp`: `merge_check`;
* `Grammar.hpp`: the productions `PlainValue`, `StringValue`, `FloatValue`,
  `IntegerValue`, `IncludeStatement`, `ListValue`, `ConditionalExpression`,
  `ConditionalAttribute`, `KeyExpression`, `ValueExpression`,
  `KeyValueStatement`, `File`, each with its `rule` and its `value` callbacks;
* `Parser.cpp`, `detail/`: the session (the loads, `parse`, the diagnostics,
  the condition set), sequences of calls on it, and the factories
  `Parser::from_*` and `KeyValues::from_*`.

Texts are described by syntax trees with the layout after each token:
numerals (`literal`), quoted strings (`quoted`), conditional expressions
(`condition`) and documents of key-value statements (`document`); the theorems
on whole inputs say what the rules compute on the text of such a tree.

The input of a parse is the sequence of code points of the buffer.  Every
token of the grammar is followed by automatic whitespace skipping, as the
parsing library does for a root production that declares `whitespace`, and an
error that the library reports makes the parse fail as a whole (`Parser::parse`
tests `!result`).  Within one buffer every recursion of the grammar and every
round of a list or of an operator loop consumes input, so these are driven by
a budget taken from the length of the input; the nesting limits of the parsing
library are not part of the embedding.  Includes recurse into other files
without any bound in the source; their depth is driven by an explicit budget.
A run has no result (`Parsed.fuel`) when that budget was too small, and when
an exception leaves it: `std::stod` throws `std::out_of_range` for a float
numeral beyond the range of `double`, and nothing in the repository catches
it.

A float is a `std::float_t` in the IEEE 754 binary32 format, given by the
fields of its encoding; `std::stod` is the correctly rounded conversion of the
C library into `double`, with the range errors of the GNU C library, and the
conversion from `double` rounds to nearest.  The accessors work on the bytes
of a string, its UTF-8 encoding, with `std::isspace` and `std::tolower` of the
"C" locale.  An accessor that dereferences the iterator of `find` without a
comparison with `end()` has no result (`none`) for an absent key.
-/

set_option exponentiation.threshold 4096

namespace lexy_vdf

/-! ## Code point classes -/

/-- Classification of the code points from U+0080 upwards by the Unicode
character database, which the grammar consults through `lexy::dsl::unicode`.
The ASCII range is fixed by the definitions below. -/
structure UnicodeData where
  blank : Char → Bool
  newline : Char → Bool
  control : Char → Bool
  xid_start : Char → Bool
  xid_continue : Char → Bool

namespace dsl

/-- Decimal digit, `lexy::dsl::digits<>`. -/
def is_digit (c : Char) : Bool := decide (48 ≤ c.toNat ∧ c.toNat ≤ 57)

/-- Hexadecimal digit in either case, `lexy::dsl::hex`. -/
def is_hex (c : Char) : Bool :=
  is_digit c || decide (97 ≤ c.toNat ∧ c.toNat ≤ 102) || decide (65 ≤ c.toNat ∧ c.toNat ≤ 70)

/-- ASCII letter. -/
def ascii_alpha (c : Char) : Bool :=
  decide (97 ≤ c.toNat ∧ c.toNat ≤ 122) || decide (65 ≤ c.toNat ∧ c.toNat ≤ 90)

/-- The class `lexy::dsl::unicode::blank`: space and tab in ASCII. -/
def unicode_blank (ucd : UnicodeData) (c : Char) : Bool :=
  if c.toNat < 128 then decide (c.toNat = 32 ∨ c.toNat = 9) else ucd.blank c

/-- The class `lexy::dsl::unicode::newline`: line feed and carriage return in ASCII. -/
def unicode_newline (ucd : UnicodeData) (c : Char) : Bool :=
  if c.toNat < 128 then decide (c.toNat = 10 ∨ c.toNat = 13) else ucd.newline c

/-- The class `lexy::dsl::unicode::control`: U+0000..U+001F and U+007F in ASCII. -/
def unicode_control (ucd : UnicodeData) (c : Char) : Bool :=
  if c.toNat < 128 then decide (c.toNat < 32 ∨ c.toNat = 127) else ucd.control c

/-- The class `lexy::dsl::unicode::xid_start_underscore`: letters and underscore in ASCII. -/
def xid_start_underscore (ucd : UnicodeData) (c : Char) : Bool :=
  if c.toNat < 128 then ascii_alpha c || decide (c.toNat = 95) else ucd.xid_start c

/-- The class `lexy::dsl::unicode::xid_continue`: letters, digits and underscore in ASCII. -/
def xid_continue (ucd : UnicodeData) (c : Char) : Bool :=
  if c.toNat < 128 then ascii_alpha c || is_digit c || decide (c.toNat = 95)
  else ucd.xid_continue c

end dsl

/-! ## Parse results -/

/-- Outcome of running a rule on an input: a value with the remaining input,
a reported error (the parse as a whole fails), or no result (`fuel`): the
recursion budget is exhausted, or an exception leaves the run.  A branch rule
returns `Option (Parsed ε α)`, where `none` means the branch condition did not
match and nothing was consumed. -/
inductive Parsed (ε α : Type) where
  | value (a : α) (rest : List Char)
  | error (e : ε)
  | fuel

/-! ## The C++ library: `double`, `std::float_t` and `std::stod` -/

/-- Models `double` in the IEEE 754 binary64 format, by the three fields of the
encoding: the sign bit, the biased exponent (below 2048) and the fraction
(below `2 ^ 52`). -/
structure double where
  sign : Bool
  exponent : Nat
  fraction : Nat
deriving DecidableEq

/-- Models `std::float_t` where it is `float` in the IEEE 754 binary32 format, by the
three fields of the encoding: the sign bit, the biased exponent (below 256)
and the fraction (below `2 ^ 23`). -/
structure std.float_t where
  sign : Bool
  exponent : Nat
  fraction : Nat
deriving DecidableEq

/-- The significand of a `std::float_t` in units of the last place: the fraction, with
the implicit leading bit unless the exponent field is zero. -/
def std.float_t.significand (x : std.float_t) : Nat :=
  if x.exponent = 0 then x.fraction else 2 ^ 23 + x.fraction

/-- The number that a finite `std::float_t` denotes; `none` for an infinity and for a
NaN. -/
def std.float_t.value (x : std.float_t) : Option ℚ :=
  if x.exponent = 255 then none
  else some ((if x.sign then -1 else 1) * x.significand * 2 ^ (max x.exponent 1) / 2 ^ 150)

/-- Models the conversion of a `std::float_t` to `bool`: `false` for a zero of either
sign, `true` for every other value. -/
def std.float_t.to_bool (x : std.float_t) : Bool :=
  !(x.exponent == 0 && x.fraction == 0)

/-- The least `k`, from the given one on and at most `fuel` above it, with
`n < 2 ^ 2 ^ k`. -/
def std.bit_width.order : Nat → Nat → Nat → Nat
  | 0, k, _ => k
  | fuel + 1, k, n => if n < 2 ^ 2 ^ k then k else std.bit_width.order fuel (k + 1) n

/-- For `2 ^ lo ≤ n < 2 ^ (lo + 2 ^ k)`, the `d` with `2 ^ d ≤ n < 2 ^ (d + 1)`, by
bisection. -/
def std.bit_width.search : Nat → Nat → Nat → Nat
  | 0, _, lo => lo
  | k + 1, n, lo =>
    if n < 2 ^ (lo + 2 ^ k) then std.bit_width.search k n lo
    else std.bit_width.search k n (lo + 2 ^ k)

/-- Models `std::bit_width`: the number of binary digits of `n`, zero for zero. -/
def std.bit_width (n : Nat) : Nat :=
  if n = 0 then 0 else std.bit_width.search (std.bit_width.order n 0 n) n 0 + 1

/-- The integer nearest to `a / b`, the even one of two that are equally near. -/
def std.round_half_even (a b : Nat) : Nat :=
  if 2 * (a % b) < b then a / b
  else if b < 2 * (a % b) then a / b + 1
  else if a / b % 2 = 0 then a / b
  else a / b + 1

/-- Rounding of `a / b` to `p` binary digits, to nearest and ties to even: the
pair `(m, s)` stands for `m * 2 ^ s` with `m < 2 ^ p`, and `s` is zero as long
as `a / b` is below `2 ^ p`. -/
def std.round_binary (p a b : Nat) : Nat × Nat :=
  if std.round_half_even a (b * 2 ^ (std.bit_width (a / b) - p)) = 2 ^ p then
    (2 ^ (p - 1), std.bit_width (a / b) - p + 1)
  else
    (std.round_half_even a (b * 2 ^ (std.bit_width (a / b) - p)),
      std.bit_width (a / b) - p)

/-- The optional sign of a numeral of `strtod`: whether it is a minus, and the
rest. -/
def std.strtod.sign : List Char → Bool × List Char
  | '-' :: cs => (true, cs)
  | '+' :: cs => (false, cs)
  | cs => (false, cs)

/-- The decimal digits at the head of a text, and the rest. -/
def std.strtod.digits (cs : List Char) : List Char × List Char :=
  (cs.takeWhile Char.isDigit, cs.dropWhile Char.isDigit)

/-- The number that a sequence of decimal digits denotes. -/
def std.strtod.number (ds : List Char) : Nat :=
  ds.foldl (fun n c => 10 * n + (c.toNat - 48)) 0

/-- The exponent part of a numeral of `strtod`: `e` or `E`, an optional sign
and digits, and zero where the text has none. -/
def std.strtod.exponent : List Char → Int
  | [] => 0
  | c :: cs =>
    if (c = 'e' ∨ c = 'E') ∧ (std.strtod.digits (std.strtod.sign cs).2).1 ≠ [] then
      if (std.strtod.sign cs).1 then
        -(std.strtod.number (std.strtod.digits (std.strtod.sign cs).2).1 : Int)
      else std.strtod.number (std.strtod.digits (std.strtod.sign cs).2).1
    else 0

/-- Models `std::stod` on a text that starts with a decimal numeral: an optional
sign, digits with an optional fraction, and an optional exponent.  (Leading
blanks, the hexadecimal form, infinities and NaNs, which `strtod` accepts as
well, are not taken up: no lexeme of the grammar has them.)  The numeral
`n * 10 ^ e` is rounded to the nearest `double`, ties to even.  The result is
`none` where `std::stod` throws: `std::invalid_argument` for a text without a
digit, and `std::out_of_range` when `strtod` sets `errno` to `ERANGE`, which
it does for a numeral that rounds beyond the largest `double`, and, in the GNU
C library, for one that is tiny, that is below `2 ^ -1022` after a rounding to
53 digits with any exponent, and not a `double` itself.  In the code `a / b`
is the numeral in units of `2 ^ -1074`. -/
def std.stod (str : String) : Option double :=
  let s := std.strtod.sign str.toList
  let i := std.strtod.digits s.2
  let f := match i.2 with
    | '.' :: cs => std.strtod.digits cs
    | cs => ([], cs)
  if i.1 = [] ∧ f.1 = [] then none
  else
    let e := std.strtod.exponent f.2 - (f.1.length : Int)
    let a := std.strtod.number (i.1 ++ f.1) * 10 ^ e.toNat * 2 ^ 1074
    let b := 10 ^ (-e).toNat
    let r := std.round_binary 53 a b
    if 2046 ≤ r.2 then none
    else if 4 * a < (2 ^ 54 - 1) * b ∧ a % b ≠ 0 then none
    else if r.1 < 2 ^ 52 then some ⟨s.1, 0, r.1⟩
    else some ⟨s.1, r.2 + 1, r.1 - 2 ^ 52⟩

/-- Models the conversion of a `double` to `std::float_t`: the nearest number of
the binary32 format, ties to even, and an infinity for a number that rounds
beyond the largest one, as the processor converts.  In the code `a / 2 ^ 925`
is the number in units of `2 ^ -149`. -/
def double.to_float_t (x : double) : std.float_t :=
  if x.exponent = 2047 then
    ⟨x.sign, 255, if x.fraction = 0 then 0 else 2 ^ 22 + x.fraction / 2 ^ 29 % 2 ^ 22⟩
  else
    let a := (if x.exponent = 0 then x.fraction else 2 ^ 52 + x.fraction) * 2 ^ (x.exponent - 1)
    let r := std.round_binary 24 a (2 ^ 925)
    if 254 ≤ r.2 then ⟨x.sign, 255, 0⟩
    else if r.1 < 2 ^ 23 then ⟨x.sign, 0, r.1⟩
    else ⟨x.sign, r.2 + 1, r.1 - 2 ^ 23⟩

namespace grammar

/-- Models `whitespace_specifier`: a blank or a newline code point. -/
def whitespace_specifier (ucd : UnicodeData) (c : Char) : Bool :=
  dsl.unicode_blank ucd c || dsl.unicode_newline ucd c

/-- Automatic whitespace skipping with `File::whitespace`, the choice of
`comment_specifier` and `whitespace_specifier`, repeated as long as it matches.
The flag is set while inside a `//` comment, which runs up to and including
the next line feed, or to the end of the input. -/
def whitespace (ucd : UnicodeData) : Bool → List Char → List Char
  | _, [] => []
  | true, c :: cs => if c = '\n' then whitespace ucd false cs else whitespace ucd true cs
  | false, c :: cs =>
    if c = '/' ∧ cs.head? = some '/' then whitespace ucd true cs
    else if whitespace_specifier ucd c then whitespace ucd false cs
    else c :: cs

/-- Whitespace skipping after a token. -/
def skip (ucd : UnicodeData) (input : List Char) : List Char := whitespace ucd false input

/-- A literal token such as `LEXY_LIT("#include")`: the literal is a prefix of
the input; the result is the input after it and after whitespace. -/
def lit (ucd : UnicodeData) (s : List Char) (input : List Char) : Option (List Char) :=
  if s.isPrefixOf input then some (skip ucd (input.drop s.length)) else none

/-! ### PlainValue -/

/-- Models `PlainValue::rule`: an identifier token, one `xid_start_underscore` code
point followed by `xid_continue` code points.  `PlainValue::value` is
`as_string`, so the result is the captured text. -/
def PlainValue.token (ucd : UnicodeData) (input : List Char) : Option (String × List Char) :=
  match input with
  | [] => none
  | c :: cs =>
    if dsl.xid_start_underscore ucd c then
      some (String.mk (c :: cs.takeWhile (dsl.xid_continue ucd)), cs.dropWhile (dsl.xid_continue ucd))
    else none

/-- Models `dsl::p<PlainValue>` in the whitespace context of `File`. -/
def PlainValue.rule (ucd : UnicodeData) (input : List Char) : Option (String × List Char) :=
  (PlainValue.token ucd input).map fun r => (r.1, skip ucd r.2)

/-! ### StringValue -/

/-- Models `StringValue::escaped_symbols`: the symbol table of the backslash escape. -/
def StringValue.escaped_symbols (c : Char) : Option Char :=
  if c = '"' then some '"'
  else if c = '\'' then some '\''
  else if c = '\\' then some '\\'
  else if c = '/' then some '/'
  else if c = 'b' then some (Char.ofNat 8)
  else if c = 'f' then some (Char.ofNat 12)
  else if c = 'n' then some '\n'
  else if c = 'r' then some '\r'
  else if c = 't' then some '\t'
  else none

/-- The body of `lexy::dsl::quoted(c, escape)` after the opening quote: up to
the closing quote, each item is a backslash escape from the symbol table or a
code point that is not a control character.  Anything else, and the end of
input before the closing quote, is an error (`none`). -/
def StringValue.body (ucd : UnicodeData) : List Char → Option (List Char × List Char)
  | [] => none
  | c :: cs =>
    if c = '"' then some ([], cs)
    else if c = '\\' then
      match cs with
      | [] => none
      | e :: cs' =>
        match StringValue.escaped_symbols e with
        | none => none
        | some d => (StringValue.body ucd cs').map fun r => (d :: r.1, r.2)
    else if dsl.unicode_control ucd c then none
    else (StringValue.body ucd cs).map fun r => (c :: r.1, r.2)

/-- Models `dsl::p<StringValue>`: a branch on the opening quote; the value is the
decoded text (`as_string`). -/
def StringValue.rule (ucd : UnicodeData) (input : List Char) : Option (Parsed Unit String) :=
  match input with
  | [] => none
  | c :: cs =>
    if c = '"' then
      match StringValue.body ucd cs with
      | none => some (.error ())
      | some (s, rest) => some (.value (String.mk s) (skip ucd rest))
    else none

/-! ### FloatValue -/

/-- Models `lexy::dsl::sign`: an optional plus or minus. -/
def sign (input : List Char) : List Char × List Char :=
  match input with
  | [] => ([], [])
  | c :: cs => if c = '+' ∨ c = '-' then ([c], cs) else ([], c :: cs)

/-- Models `lexy::dsl::digits<>`: one or more decimal digits. -/
def digits (input : List Char) : Option (List Char × List Char) :=
  if input.takeWhile dsl.is_digit = [] then none
  else some (input.takeWhile dsl.is_digit, input.dropWhile dsl.is_digit)

/-- The rule `exponent` of `FloatValue`: `e` or `E`, then a sign and digits.
The outer `none` says the branch condition (the letter) did not match; the
inner one that the committed branch failed. -/
def FloatValue.exponent (input : List Char) : Option (Option (List Char × List Char)) :=
  match input with
  | [] => none
  | c :: cs =>
    if c = 'e' ∨ c = 'E' then
      some (match digits (sign cs).2 with
        | none => none
        | some (ds, rest) => some (c :: (sign cs).1 ++ ds, rest))
    else none

/-- The rule `real_part` of `FloatValue`: a fraction with an optional
exponent, or an exponent. -/
def FloatValue.real_part (input : List Char) : Option (List Char × List Char) :=
  match input with
  | [] => none
  | c :: cs =>
    if c = '.' then
      match digits cs with
      | none => none
      | some (ds, rest) =>
        match FloatValue.exponent rest with
        | none => some (c :: ds, rest)
        | some none => none
        | some (some (ex, rest')) => some (c :: ds ++ ex, rest')
    else
      match FloatValue.exponent (c :: cs) with
      | some (some r) => some r
      | _ => none

/-- The token `real_number` of `FloatValue`, captured: the lexeme and the input
after it.  `none` when the token does not match as a whole. -/
def FloatValue.token (input : List Char) : Option (List Char × List Char) :=
  match digits (sign input).2 with
  | none => none
  | some (ds, rest) =>
    match FloatValue.real_part rest with
    | none => none
    | some (rp, rest') => some ((sign input).1 ++ ds ++ rp, rest')

/-- Models `FloatValue::rule` as `dsl::p<FloatValue>` runs it: the captured lexeme,
as the string that `lexy::as_string<std::string>` makes of it, and the input
after the token and the whitespace. -/
def FloatValue.rule (ucd : UnicodeData) (input : List Char) : Option (String × List Char) :=
  (FloatValue.token input).map fun r => (String.mk r.1, skip ucd r.2)

/-- Models `FloatValue::value`, the callback
`[](Parser::State&, std::string&& str) { return std::stod(str); }` with the
return type `std::float_t`: the `double` of `std::stod`, converted.  `none`
when `std::stod` throws. -/
def FloatValue.value (str : String) : Option std.float_t :=
  (std.stod str).map double.to_float_t

/-! ### IntegerValue -/

/-- Value of a digit in base 16 (and so in base 10). -/
def digit_value (c : Char) : Nat :=
  if dsl.is_digit c then c.toNat - 48
  else if 97 ≤ c.toNat ∧ c.toNat ≤ 102 then c.toNat - 87
  else c.toNat - 55

/-- Conversion of a digit sequence in the given radix. -/
def integer_value (radix : Nat) (ds : List Char) : Nat :=
  ds.foldl (fun acc c => acc * radix + digit_value c) 0

/-- Largest value of `int`. -/
def INT_MAX : Nat := 2147483647

/-- Models `lexy::dsl::integer<int, Base>` on matched digits: the value, or the
`integer_overflow` error when it does not fit an `int`. -/
def integer (ucd : UnicodeData) (radix : Nat) (r : List Char × List Char) : Parsed Unit Int :=
  if integer_value radix r.1 ≤ INT_MAX then .value (integer_value radix r.1) (skip ucd r.2)
  else .error ()

/-- Models `lexy::dsl::digits<lexy::dsl::hex>`: one or more hexadecimal digits. -/
def hex_digits (input : List Char) : Option (List Char × List Char) :=
  if input.takeWhile dsl.is_hex = [] then none
  else some (input.takeWhile dsl.is_hex, input.dropWhile dsl.is_hex)

/-- Models `dsl::p<IntegerValue>`: the literal `0x` commits to a hexadecimal integer;
otherwise decimal digits.  No sign is part of the rule. -/
def IntegerValue.rule (ucd : UnicodeData) (input : List Char) : Option (Parsed Unit Int) :=
  if ['0', 'x'].isPrefixOf input then
    match hex_digits (input.drop 2) with
    | none => some (.error ())
    | some r => some (integer ucd 16 r)
  else
    match digits input with
    | none => none
    | some r => some (integer ucd 10 r)

end grammar

/-! ## The value variant and the tree (`KeyValues.hpp`) -/

/-- Models `ValueType`, the variant over `std::monostate`, `std::string`,
`std::int32_t`, `std::float_t` and `KeyValues`.  A tree is the list of its
entries. -/
inductive ValueType where
  | monostate
  | string (s : String)
  | int32 (i : Int)
  | float (x : std.float_t)
  | keyValues (kv : List (String × ValueType))

/-- Models `std::variant::index`. -/
def ValueType.index : ValueType → Nat
  | .monostate => 0
  | .string _ => 1
  | .int32 _ => 2
  | .float _ => 3
  | .keyValues _ => 4

/-- Models `KeyValues`, an `std::unordered_map` from `KeyType` to `ValueType`, as the
list of its entries in insertion order. -/
abbrev KeyValues := List (String × ValueType)

/-- Models `KeyValues::copy_pair_type`. -/
abbrev KeyValues.copy_pair_type := String × ValueType

/-- A value-initialised `copy_pair_type`: the empty key with `std::monostate`. -/
def KeyValues.copy_pair_type.default : KeyValues.copy_pair_type := ("", ValueType.monostate)

/-- Models `unordered_map::find`: the value stored under the key, if any. -/
def KeyValues.find : KeyValues → String → Option ValueType
  | [], _ => none
  | (k, v) :: rest, key => if k = key then some v else KeyValues.find rest key

/-- Models `unordered_map::emplace`: the entry is inserted only when no entry with an
equal key exists. -/
def KeyValues.emplace (self : KeyValues) (key : String) (value : ValueType) : KeyValues :=
  match self.find key with
  | some _ => self
  | none => self ++ [(key, value)]

/-- Models `KeyValues::AppendKeyValues`: every entry of the argument is emplaced. -/
def KeyValues.AppendKeyValues (self p_key_values : KeyValues) : KeyValues :=
  p_key_values.foldl (fun acc value => acc.emplace value.1 value.2) self

mutual
/-- The value is the empty alternative `std::monostate`, or a tree that holds it
at some depth. -/
def ValueType.has_empty : ValueType → Bool
  | .monostate => true
  | .keyValues kv => KeyValues.has_empty kv
  | _ => false
/-- Some entry of the tree, at some depth, holds the empty alternative. -/
def KeyValues.has_empty : KeyValues → Bool
  | [] => false
  | (_, value) :: rest => value.has_empty || KeyValues.has_empty rest
end

/-- Models `KeyValues::MergeError`. -/
inductive KeyValues.MergeError where
  | Success
  | FileMissing
  | ParseFail
deriving DecidableEq, Repr

/-- Models `ParseWarning`: a message and a code. -/
structure ParseWarning where
  message : String
  code : Int
deriving DecidableEq, Repr

/-- Models `warnings::merge_check` of `detail/Warnings.hpp`. -/
def warnings.merge_check (file : String) (merge_error : KeyValues.MergeError) :
    Option ParseWarning :=
  match merge_error with
  | .FileMissing => some ⟨"Could not find '" ++ file ++ "'.", 1⟩
  | .ParseFail => some ⟨String.singleton '"' ++ file ++ "' could not be parsed.", 2⟩
  | _ => none

/-- Models `Parser::State`: the condition set and the warnings the fold reports to. -/
structure Parser.State where
  conditionals : List String
  parse_warnings : List ParseWarning

/-- The test `state.conditionals.find(val) != state.conditionals.end()`. -/
def Parser.State.has_condition (state : Parser.State) (conditional : String) : Bool :=
  decide (conditional ∈ state.conditionals)

/-! ## The accessors (`KeyValues.cpp`) -/

/-- The bytes of a `std::string`: the UTF-8 encoding of the text. -/
def std.bytes (s : String) : List Nat :=
  s.data.flatMap fun c => (String.utf8EncodeChar c).map UInt8.toNat

/-- Models `std::isspace` in the "C" locale, on the value of a byte: the blank and
the five control characters from the tabulator to the carriage return. -/
def std.isspace (ch : Nat) : Bool :=
  ch == 32 || (decide (9 ≤ ch) && decide (ch ≤ 13))

/-- Models `std::tolower` in the "C" locale, on the value of a byte. -/
def std.tolower (ch : Nat) : Nat :=
  if 65 ≤ ch ∧ ch ≤ 90 then ch + 32 else ch

/-- Models `std::equal` over two ranges with a binary predicate: the ranges have one
length and the predicate holds at every position. -/
def std.equal (p : Nat → Nat → Bool) : List Nat → List Nat → Bool
  | [], [] => true
  | a :: first1, b :: first2 => p a b && std.equal p first1 first2
  | _, _ => false

/-- The second loop of `trim`, on the bytes from `*end` down to `*begin`: the view
is empty once `end` meets `begin`; `end` moves down while it designates a
space; the view that is returned starts at `begin` and has
`std::distance(begin, end)` bytes, so the byte `end` designates is not in it. -/
def trim.backward : List Nat → List Nat
  | [] => []
  | [_] => []
  | e :: b :: below =>
    if !std.isspace e then (b :: below).reverse else trim.backward (b :: below)

/-- Models `trim` of `KeyValues.cpp`: `begin` moves up over spaces and the view is
empty when it meets `end`; then `end` steps down to the last byte and the
second loop runs. -/
def trim (str : List Nat) : List Nat :=
  match str.dropWhile std.isspace with
  | [] => []
  | b :: rest => trim.backward (b :: rest).reverse

/-- Models `insenitive_trim_eq`. -/
def insenitive_trim_eq (lhs rhs : List Nat) : Bool :=
  std.equal (fun a b => std.tolower a == std.tolower b) (trim lhs) (trim rhs)

/-- The bytes with the leading and the trailing whitespace removed. -/
def trimmed (str : List Nat) : List Nat :=
  ((str.dropWhile std.isspace).reverse.dropWhile std.isspace).reverse

/-- The text, with leading and trailing whitespace removed, equals `true` when
the case of letters is ignored. -/
def is_true_text (s : String) : Bool :=
  decide ((trimmed (std.bytes s)).map std.tolower = std.bytes "true")

/-- Models `KeyValues::GetInt`.  The iterator that `find` returns is dereferenced
without a comparison with `end()`; `none` stands for the dereference of the
past-the-end iterator, which has no defined result. -/
def KeyValues.GetInt (self : KeyValues) (p_key : String) (p_default_value : Int) :
    Option Int :=
  match self.find p_key with
  | none => none
  | some value =>
    match value with
    | .int32 result => some result
    | _ => some p_default_value

/-- Models `KeyValues::GetFloat`; `none` as for `GetInt`. -/
def KeyValues.GetFloat (self : KeyValues) (p_key : String) (p_default_value : std.float_t) :
    Option std.float_t :=
  match self.find p_key with
  | none => none
  | some value =>
    match value with
    | .float result => some result
    | _ => some p_default_value

/-- Models `KeyValues::GetString`; `none` as for `GetInt`. -/
def KeyValues.GetString (self : KeyValues) (p_key : String) (p_default_value : String) :
    Option String :=
  match self.find p_key with
  | none => none
  | some value =>
    match value with
    | .string result => some result
    | _ => some p_default_value

/-- Models `KeyValues::GetBool`.  An integer and a float are returned as they
are (`return arg;`), so converted to `bool`. -/
def KeyValues.GetBool (self : KeyValues) (p_key : String) (p_default_value : Bool) : Bool :=
  match self.find p_key with
  | none => p_default_value
  | some value =>
    match value with
    | .int32 arg => decide (arg ≠ 0)
    | .float arg => arg.to_bool
    | .string arg => insenitive_trim_eq (std.bytes "true") (std.bytes arg)
    | .keyValues arg => if arg.isEmpty then false else true
    | .monostate => false

/-! ## The session (`Parser.hpp`, `Parser.cpp`, `detail/`) -/

/-- Models `ParseError::Type`. -/
inductive ParseError.Type where
  | Recoverable
  | Fatal
deriving DecidableEq, Repr

/-- Models `ParseData`. -/
structure ParseData where
  production_name : String
  context_start_line : Nat
  context_start_column : Nat
deriving DecidableEq, Repr

/-- Models `ParseError`. -/
structure ParseError where
  type : ParseError.Type
  message : String
  error_value : Int
  parse_data : ParseData
  start_line : Nat
  start_column : Nat
deriving DecidableEq, Repr

/-- Models `errors::make_no_file_error` of `detail/Errors.hpp`; `none` is the null path. -/
def errors.make_no_file_error (file_path : Option String) : ParseError :=
  let message :=
    match file_path with
    | none => "File path not specified."
    | some path => "File '" ++ path ++ "' was not found."
  ⟨ParseError.Type.Fatal, message, 1, ⟨"", 0, 0⟩, 0, 0⟩

/-- The compilation target that `Parser::set_default_conditions` switches on. -/
inductive Target where
  | X360
  | WIN32
  | APPLE
  | linux
  | other
deriving DecidableEq, Repr

/-- What the session takes from its surroundings: the Unicode database of the
parsing library, `lexy::read_file` (`none` when the file cannot be read), the
compilation target, and the errors that the report callback of
`detail/LexyReportError.hpp` collects for an input the grammar rejects (at
least one). -/
structure Host where
  ucd : UnicodeData
  read_file : String → Option (List Char)
  target : Target
  report_error : Option String → List Char → List ParseError
  report_error_ne : ∀ path input, report_error path input ≠ []

/-- Models `Parser::BufferHandler`: the buffer (`none` while `_buffer.data()` is null)
and the tree of the last successful grammar run. -/
structure Parser.BufferHandler where
  _buffer : Option (List Char)
  _key_values : Option KeyValues

/-- Models `BasicBufferHandler::is_valid`. -/
def Parser.BufferHandler.is_valid (self : Parser.BufferHandler) : Bool := self._buffer.isSome

/-- Models `BasicBufferHandler::load_file`. -/
def Parser.BufferHandler.load_file (host : Host) (self : Parser.BufferHandler) (path : String) :
    Option ParseError × Parser.BufferHandler :=
  match host.read_file path with
  | none => (some (errors.make_no_file_error (some path)), self)
  | some file => (none, { self with _buffer := some file })

/-- Models `Parser` with the members of `detail::BasicParser`.  The pointer
`_parser_state.parse_warnings` designates `_warnings`, as the constructor sets
it, so the state of a grammar run is made of `conditionals` and `_warnings`. -/
structure Parser where
  _errors : List ParseError
  _warnings : List ParseWarning
  _file_path : Option String
  _has_fatal_error : Bool
  _buffer_handler : Parser.BufferHandler
  _key_values : Option KeyValues
  conditionals : List String

/-- Models `Parser::add_condition`, which inserts `conditional.data()`, read as a C
string.  The argument here is that C string: the text of the view where the
view ends at the terminator of its text, as for a string literal or a
`std::string`, which is all the repository passes. -/
def Parser.add_condition (self : Parser) (conditional : String) : Parser :=
  if conditional ∈ self.conditionals then self
  else { self with conditionals := self.conditionals ++ [conditional] }

/-- Models `Parser::set_default_conditions`. -/
def Parser.set_default_conditions (target : Target) (self : Parser) : Parser :=
  match target with
  | .X360 => self.add_condition "X360"
  | .WIN32 => (self.add_condition "WIN32").add_condition "WINDOWS"
  | .APPLE => ((self.add_condition "WIN32").add_condition "POSIX").add_condition "OSX"
  | .linux => ((self.add_condition "WIN32").add_condition "POSIX").add_condition "LINUX"
  | .other => self

/-- The constructor `Parser::Parser()`. -/
def Parser.new (host : Host) : Parser :=
  Parser.set_default_conditions host.target
    { _errors := [], _warnings := [], _file_path := none, _has_fatal_error := false,
      _buffer_handler := ⟨none, none⟩, _key_values := none, conditionals := [] }

/-- Models `BasicParser::has_error`. -/
def Parser.has_error (self : Parser) : Bool := !self._errors.isEmpty

/-- Models `BasicParser::has_fatal_error`. -/
def Parser.has_fatal_error (self : Parser) : Bool := self._has_fatal_error

/-- Models `BasicParser::has_warning`. -/
def Parser.has_warning (self : Parser) : Bool := !self._warnings.isEmpty

/-- Models `BasicParser::get_errors`. -/
def Parser.get_errors (self : Parser) : List ParseError := self._errors

/-- Models `BasicParser::get_warnings`. -/
def Parser.get_warnings (self : Parser) : List ParseWarning := self._warnings

/-- Models `Parser::get_key_values`. -/
def Parser.get_key_values (self : Parser) : Option KeyValues := self._key_values

/-- Models `Parser::_run_load_func`, given what the load function returned. -/
def Parser._run_load_func (self : Parser) (loaded : Option ParseError × Parser.BufferHandler) :
    Parser :=
  let cleared : Parser :=
    { self with _warnings := [], _errors := [], _has_fatal_error := false,
                _buffer_handler := loaded.2 }
  match loaded.1 with
  | some error =>
    { cleared with _has_fatal_error := decide (error.type = ParseError.Type.Fatal),
                   _errors := cleared._errors ++ [error] }
  | none => cleared

/-- Models `Parser::load_from_file(const char* path)`. -/
def Parser.load_from_file (host : Host) (self : Parser) (path : String) : Parser :=
  Parser._run_load_func { self with _file_path := some path }
    (self._buffer_handler.load_file host path)

/-- Models `BasicBufferHandler::load_buffer_size`. -/
def Parser.BufferHandler.load_buffer_size (self : Parser.BufferHandler) (data : List Char) :
    Option ParseError × Parser.BufferHandler :=
  (none, { self with _buffer := some data })

/-- Models `Parser::load_from_string`, by way of `load_from_buffer(data, size)`. -/
def Parser.load_from_string (self : Parser) (string : List Char) : Parser :=
  Parser._run_load_func self (self._buffer_handler.load_buffer_size string)

/-- Models `Parser::remove_condition`: whether a condition was erased, and the session. -/
def Parser.remove_condition (self : Parser) (conditional : String) : Bool × Parser :=
  if conditional ∈ self.conditionals then
    (true, { self with conditionals := self.conditionals.filter (fun c => c ≠ conditional) })
  else (false, self)

/-- Models `Parser::has_condition`. -/
def Parser.has_condition (self : Parser) (conditional : String) : Bool :=
  decide (conditional ∈ self.conditionals)

/-- Models `Parser::clear_conditions`. -/
def Parser.clear_conditions (self : Parser) : Parser := { self with conditionals := [] }

/-- Models `Parser::load_from_file(const char* path, const Parser& root)`. -/
def Parser.load_from_file_root (host : Host) (self : Parser) (path : String) (root : Parser) :
    Parser :=
  { Parser.load_from_file host self path with conditionals := root.conditionals }

/-- Models `Parser::load_from_buffer(const char* data, std::size_t size)`. -/
def Parser.load_from_buffer (self : Parser) (data : List Char) : Parser :=
  Parser._run_load_func self (self._buffer_handler.load_buffer_size data)

/-- Models `Parser::from_buffer`: a fresh session that loads the buffer, returned
by move; see `Parser.from_string`. -/
def Parser.from_buffer (host : Host) (data : List Char) : Parser :=
  (Parser.new host).load_from_buffer data

/-- Models `Parser::from_string`: a fresh session that loads the string, returned
by move.  The move leaves `_parser_state.parse_warnings` of the returned
session designating the warning list of the local that is destroyed; the fold
of the grammar takes no state and nothing else writes through that pointer, so
the returned session behaves as one built in place, which is what the
embedding returns. -/
def Parser.from_string (host : Host) (string : List Char) : Parser :=
  (Parser.new host).load_from_string string

/-- Models `Parser::from_file`: a fresh session that loads the file, returned by
move; see `Parser.from_string`. -/
def Parser.from_file (host : Host) (path : String) : Parser :=
  (Parser.new host).load_from_file host path

/-- Models `Parser::release_key_values`: the tree the session held (`none` for the null
pointer), and the session without it. -/
def Parser.release_key_values (self : Parser) : Option KeyValues × Parser :=
  (self._key_values, { self with _key_values := none })

/-- Models `KeyValues::from_buffer`; `none` is the null pointer. -/
def KeyValues.from_buffer (host : Host) (data : List Char) : Option KeyValues :=
  let parser := Parser.from_buffer host data
  if parser.has_error then none else parser.release_key_values.1

/-- Models `KeyValues::from_string`; `none` is the null pointer. -/
def KeyValues.from_string (host : Host) (string : List Char) : Option KeyValues :=
  let parser := Parser.from_string host string
  if parser.has_error then none else parser.release_key_values.1

/-- Models `KeyValues::from_file`; `none` is the null pointer. -/
def KeyValues.from_file (host : Host) (path : String) : Option KeyValues :=
  let parser := Parser.from_file host path
  if parser.has_error then none else parser.release_key_values.1

/-- The result type of the production `File` under a state. -/
abbrev FileRun := Parser.State → List Char → Parsed Parser.State (KeyValues × Parser.State)

/-- Models `Parser::parse`, over a run of the grammar `File`.  `none` when the run
has no result: it exhausts the include budget, or an exception leaves it and
`parse()` with it. -/
def Parser.parse (host : Host) (file : FileRun) (self : Parser) : Option (Bool × Parser) :=
  match self._buffer_handler.is_valid, self._buffer_handler._buffer with
  | true, some buffer =>
    match file ⟨self.conditionals, self._warnings⟩ buffer with
    | .fuel => none
    | .error state =>
      let errors := host.report_error self._file_path buffer
      some (false,
        { self with
          _warnings := state.parse_warnings
          _has_fatal_error :=
            errors.foldl (fun acc err => acc || decide (err.type = ParseError.Type.Fatal))
              self._has_fatal_error
          _errors := self._errors ++ errors })
    | .value (key_values, state) _ =>
      some (true,
        { self with
          _warnings := state.parse_warnings
          _buffer_handler := { self._buffer_handler with _key_values := some key_values }
          _key_values := some key_values })
  | _, _ => some (false, self)

/-- Models `KeyValues::MergeWith`, over the run of the grammar that the fresh parser
performs.  `none` when that run has no result. -/
def KeyValues.MergeWith (host : Host) (file : FileRun) (self : KeyValues) (p_path : String) :
    Option (KeyValues.MergeError × KeyValues) :=
  let parser := (Parser.new host).load_from_file host p_path
  if parser.has_error then some (KeyValues.MergeError.FileMissing, self)
  else
    match Parser.parse host file parser with
    | none => none
    | some (false, _) => some (KeyValues.MergeError.ParseFail, self)
    | some (true, parsed) =>
      match parsed.get_key_values with
      | some key_values => some (KeyValues.MergeError.Success, self.AppendKeyValues key_values)
      | none => none

namespace grammar

/-- Models `ConditionalType`. -/
inductive ConditionalType where
  | Not
  | And
  | Or
deriving DecidableEq, Repr

/-- Models `EmplaceFile`. -/
structure EmplaceFile where
  file : String

/-! ### ConditionalExpression -/

/-- An operand of an operator callback of `ConditionalExpression::value`: the
callbacks are generic in the operand and distinguish `bool` from a name. -/
inductive Operand where
  | bool (b : Bool)
  | name (s : String)

/-- The callback `[](Parser::State& state, bool val)`. -/
def ConditionalExpression.value_bool (_state : Parser.State) (val : Bool) : Bool := val

/-- The callback `[](Parser::State& state, std::string&& val)`. -/
def ConditionalExpression.value_name (state : Parser.State) (val : String) : Bool :=
  state.has_condition val

/-- The callback `[](Parser::State& state, auto&& lhs, ConditionalType&& type, auto&& rhs)`. -/
def ConditionalExpression.value_infix (state : Parser.State) (lhs : Operand)
    (type : ConditionalType) (rhs : Operand) : Bool :=
  let left : Option Bool :=
    match lhs with
    | .bool l =>
      if !l && type = ConditionalType.And then some false
      else if l && type = ConditionalType.Or then some true
      else none
    | .name _ => none
  match left with
  | some r => r
  | none =>
    let right : Option Bool :=
      match rhs with
      | .bool r =>
        if !r && type = ConditionalType.And then some false
        else if r && type = ConditionalType.Or then some true
        else none
      | .name _ => none
    match right with
    | some r => r
    | none =>
      let result : Bool :=
        match lhs with
        | .bool l => l
        | .name s => state.has_condition s
      match rhs with
      | .bool r =>
        match type with
        | .And => result && r
        | .Or => result || r
        | .Not => result
      | .name s =>
        match type with
        | .And => result && state.has_condition s
        | .Or => result || state.has_condition s
        | .Not => result

/-- The callback `[](Parser::State& state, ConditionalType&&, auto&& rhs)`. -/
def ConditionalExpression.value_prefix (state : Parser.State) (_type : ConditionalType)
    (rhs : Operand) : Bool :=
  match rhs with
  | .bool r => !r
  | .name s => !state.has_condition s

/-- Models `ConditionalExpression::atom`: a parenthesised expression, or `$` directly
followed by a `PlainValue`; anything else is the error
`ExpectedConditionalOperand`.  The value of the atom goes through the
callback of its shape.  `recurse` is `dsl::recurse<ConditionalExpression>`. -/
def ConditionalExpression.atom (ucd : UnicodeData) (recurse : List Char → Parsed Unit Bool)
    (state : Parser.State) (input : List Char) : Parsed Unit Bool :=
  match input with
  | [] => .error ()
  | c :: cs =>
    if c = '(' then
      match recurse (skip ucd cs) with
      | .value b rest =>
        match lit ucd [')'] rest with
        | some rest' => .value (ConditionalExpression.value_bool state b) rest'
        | none => .error ()
      | .error e => .error e
      | .fuel => .fuel
    else if c = '$' then
      match PlainValue.token ucd cs with
      | some (name, rest) => .value (ConditionalExpression.value_name state name) (skip ucd rest)
      | none => .error ()
    else .error ()

/-- The operation `Not`, a prefix operator `!` over `atom`. -/
def ConditionalExpression.Not (ucd : UnicodeData) (recurse : List Char → Parsed Unit Bool)
    (state : Parser.State) : Nat → List Char → Parsed Unit Bool
  | 0, _ => .fuel
  | k + 1, input =>
    match lit ucd ['!'] input with
    | some rest =>
      match ConditionalExpression.Not ucd recurse state k rest with
      | .value rhs rest' =>
        .value (ConditionalExpression.value_prefix state ConditionalType.Not (.bool rhs)) rest'
      | .error e => .error e
      | .fuel => .fuel
    | none => ConditionalExpression.atom ucd recurse state input

/-- The operator loop of `And`, a left-associative infix operator `&&` whose
operands are `Not` operations. -/
def ConditionalExpression.And_loop (ucd : UnicodeData) (recurse : List Char → Parsed Unit Bool)
    (state : Parser.State) (n : Nat) : Nat → Bool → List Char → Parsed Unit Bool
  | 0, _, _ => .fuel
  | k + 1, lhs, input =>
    match lit ucd ['&', '&'] input with
    | some rest =>
      match ConditionalExpression.Not ucd recurse state n rest with
      | .value rhs rest' =>
        ConditionalExpression.And_loop ucd recurse state n k
          (ConditionalExpression.value_infix state (.bool lhs) ConditionalType.And (.bool rhs)) rest'
      | .error e => .error e
      | .fuel => .fuel
    | none => .value lhs input

/-- The operation `And`. -/
def ConditionalExpression.And (ucd : UnicodeData) (recurse : List Char → Parsed Unit Bool)
    (state : Parser.State) (n : Nat) (input : List Char) : Parsed Unit Bool :=
  match ConditionalExpression.Not ucd recurse state n input with
  | .value lhs rest => ConditionalExpression.And_loop ucd recurse state n n lhs rest
  | .error e => .error e
  | .fuel => .fuel

/-- The operator loop of `Or`, a left-associative infix operator `||` whose
operands are `And` operations. -/
def ConditionalExpression.Or_loop (ucd : UnicodeData) (recurse : List Char → Parsed Unit Bool)
    (state : Parser.State) (n : Nat) : Nat → Bool → List Char → Parsed Unit Bool
  | 0, _, _ => .fuel
  | k + 1, lhs, input =>
    match lit ucd ['|', '|'] input with
    | some rest =>
      match ConditionalExpression.And ucd recurse state n rest with
      | .value rhs rest' =>
        ConditionalExpression.Or_loop ucd recurse state n k
          (ConditionalExpression.value_infix state (.bool lhs) ConditionalType.Or (.bool rhs)) rest'
      | .error e => .error e
      | .fuel => .fuel
    | none => .value lhs input

/-- The operation `Or`, the `operation` of the production. -/
def ConditionalExpression.Or (ucd : UnicodeData) (recurse : List Char → Parsed Unit Bool)
    (state : Parser.State) (n : Nat) (input : List Char) : Parsed Unit Bool :=
  match ConditionalExpression.And ucd recurse state n input with
  | .value lhs rest => ConditionalExpression.Or_loop ucd recurse state n n lhs rest
  | .error e => .error e
  | .fuel => .fuel

/-- The production `ConditionalExpression` with a budget for its recursion and
its operator loops: the value of the operation goes through the callback for
a `bool`. -/
def ConditionalExpression.parse (ucd : UnicodeData) (state : Parser.State) :
    Nat → List Char → Parsed Unit Bool
  | 0, _ => .fuel
  | n + 1, input =>
    match ConditionalExpression.Or ucd (ConditionalExpression.parse ucd state n) state (n + 1)
        input with
    | .value b rest => .value (ConditionalExpression.value_bool state b) rest
    | .error e => .error e
    | .fuel => .fuel

/-- Models `dsl::p<ConditionalExpression>`.  Every recursion and every operator
consumes input, so the length of the input bounds the budget. -/
def ConditionalExpression.rule (ucd : UnicodeData) (state : Parser.State) (input : List Char) :
    Parsed Unit Bool :=
  ConditionalExpression.parse ucd state (input.length + 1) input

/-- Models `dsl::p<ConditionalAttribute>`: a branch on `[`, then the expression and `]`. -/
def ConditionalAttribute.rule (ucd : UnicodeData) (state : Parser.State) (input : List Char) :
    Option (Parsed Unit Bool) :=
  match lit ucd ['['] input with
  | none => none
  | some rest =>
    match ConditionalExpression.rule ucd state rest with
    | .value b rest' =>
      match lit ucd [']'] rest' with
      | some rest'' => some (.value b rest'')
      | none => some (.error ())
    | .error e => some (.error e)
    | .fuel => some .fuel

/-! ### IncludeStatement -/

/-- Models `dsl::p<IncludeStatement>`: a branch on `#include` or `#base`, then a
`StringValue`; the value is the `EmplaceFile` of the decoded path. -/
def IncludeStatement.rule (ucd : UnicodeData) (input : List Char) :
    Option (Parsed Unit EmplaceFile) :=
  match (lit ucd "#include".toList input).orElse (fun _ => lit ucd "#base".toList input) with
  | none => none
  | some rest =>
    match StringValue.rule ucd rest with
    | none => some (.error ())
    | some (.value path rest') => some (.value ⟨path⟩ rest')
    | some (.error e) => some (.error e)
    | some .fuel => some .fuel

/-! ### ListValue -/

/-- What `KeyValues::MergeWith` does to a tree for a path. -/
abbrev Merge := KeyValues → String → Option (KeyValues.MergeError × KeyValues)

/-- The result of a production that builds a value under the state. -/
abbrev Run (α : Type) := Parser.State → List Char → Option (Parsed Parser.State (α × Parser.State))

/-- The step of the fold `ListValue::value` for a key-value pair: the overloads
`[](Parser::State&, KeyValues& values, KeyValues::copy_pair_type kv)` and
`[](KeyValues& values, KeyValues::copy_pair_type kv)` have one body. -/
def ListValue.value_pair (values : KeyValues) (kv : KeyValues.copy_pair_type) : KeyValues :=
  if kv.2.index = 0 then values else values.emplace kv.1 kv.2

/-- The overload of `ListValue::value` for an include that takes the state,
`[](Parser::State& state, KeyValues& values, auto file)`: a warning of
`merge_check` is pushed to `state.parse_warnings`.  The fold does not call
this overload, see `ListValue.value_merge`. -/
def ListValue.value_file (merge : Merge) (state : Parser.State) (values : KeyValues)
    (file : EmplaceFile) : Option (KeyValues × Parser.State) :=
  match merge values file.file with
  | none => none
  | some (merge_error, values') =>
    match warnings.merge_check file.file merge_error with
    | some warning =>
      some (values', { state with parse_warnings := state.parse_warnings ++ [warning] })
    | none => some (values', state)

/-- The step of the fold `ListValue::value` for an include,
`[](KeyValues& values, EmplaceFile file)`: the tree is merged with the file and
the outcome of `MergeWith` is dropped.  The sink of `lexy::fold_inplace` takes
no parse state and calls the operation with the tree and the item, so of the
overloads for an include this one is selected and no warning is recorded.
`none` when the merge yields no result. -/
def ListValue.value_merge (merge : Merge) (values : KeyValues) (file : EmplaceFile) :
    Option KeyValues :=
  (merge values file.file).map Prod.snd

/-- One item of the list of `ListValue`, the choice
`recurse_branch<KeyValueStatement> | p<IncludeStatement>`, folded into the tree. -/
def ListValue.item (ucd : UnicodeData) (merge : Merge) (statement : Run KeyValues.copy_pair_type)
    (values : KeyValues) : Run KeyValues :=
  fun state input =>
    match statement state input with
    | some (.value (kv, state') rest) => some (.value (ListValue.value_pair values kv, state') rest)
    | some (.error e) => some (.error e)
    | some .fuel => some .fuel
    | none =>
      match IncludeStatement.rule ucd input with
      | none => none
      | some (.value file rest) =>
        match ListValue.value_merge merge values file with
        | none => some .fuel
        | some values' => some (.value (values', state) rest)
      | some (.error _) => some (.error state)
      | some .fuel => some .fuel

/-- The items of a terminated list after the first one: until the terminator
matches, one more item, folded into the tree. -/
def list_items (terminator : List Char → Option (List Char)) (item : KeyValues → Run KeyValues) :
    Nat → KeyValues → Parser.State → List Char → Parsed Parser.State (KeyValues × Parser.State)
  | 0, _, _, _ => .fuel
  | k + 1, values, state, input =>
    match terminator input with
    | some rest => .value (values, state) rest
    | none =>
      match item values state input with
      | none => .error state
      | some (.value (values', state') rest) => list_items terminator item k values' state' rest
      | some (.error e) => .error e
      | some .fuel => .fuel

/-- Models `terminator.list(item)`: a first item, then `list_items`.  The fold starts
from the empty tree. -/
def list (terminator : List Char → Option (List Char)) (item : KeyValues → Run KeyValues)
    (k : Nat) (state : Parser.State) (input : List Char) :
    Parsed Parser.State (KeyValues × Parser.State) :=
  match item [] state input with
  | none => .error state
  | some (.value (values, state') rest) => list_items terminator item k values state' rest
  | some (.error e) => .error e
  | some .fuel => .fuel

/-- Models `dsl::p<ListValue>`: a branch on the opening brace. -/
def ListValue.rule (ucd : UnicodeData) (merge : Merge) (statement : Run KeyValues.copy_pair_type)
    (k : Nat) : Run KeyValues :=
  fun state input =>
    match lit ucd [Char.ofNat 123] input with
    | none => none
    | some rest =>
      some (list (lit ucd [Char.ofNat 125]) (ListValue.item ucd merge statement) k state rest)

/-! ### KeyExpression, ValueExpression, KeyValueStatement -/

/-- Models `dsl::p<KeyExpression>`: a `PlainValue` or a `StringValue`. -/
def KeyExpression.rule (ucd : UnicodeData) (input : List Char) : Option (Parsed Unit String) :=
  match PlainValue.rule ucd input with
  | some (key, rest) => some (.value key rest)
  | none => StringValue.rule ucd input

/-- Models `dsl::p<ValueExpression>`: the ordered choice of `ListValue`, `FloatValue`,
`IntegerValue`, `PlainValue` and `StringValue`; the value is forwarded into the
variant.  Where the token of `FloatValue` matches and `std::stod` throws on
the lexeme, the exception leaves the run, which has no result. -/
def ValueExpression.rule (ucd : UnicodeData) (merge : Merge)
    (statement : Run KeyValues.copy_pair_type) (k : Nat) : Run ValueType :=
  fun state input =>
    match ListValue.rule ucd merge statement k state input with
    | some (.value (values, state') rest) => some (.value (ValueType.keyValues values, state') rest)
    | some (.error e) => some (.error e)
    | some .fuel => some .fuel
    | none =>
      match FloatValue.rule ucd input with
      | some (lexeme, rest) =>
        match FloatValue.value lexeme with
        | some x => some (.value (ValueType.float x, state) rest)
        | none => some .fuel
      | none =>
        match IntegerValue.rule ucd input with
        | some (.value i rest) => some (.value (ValueType.int32 i, state) rest)
        | some (.error _) => some (.error state)
        | some .fuel => some .fuel
        | none =>
          match PlainValue.rule ucd input with
          | some (s, rest) => some (.value (ValueType.string s, state) rest)
          | none =>
            match StringValue.rule ucd input with
            | some (.value s rest) => some (.value (ValueType.string s, state) rest)
            | some (.error _) => some (.error state)
            | some .fuel => some .fuel
            | none => none

/-- The callback of `KeyValueStatement::value` for a statement without
attribute, `[](auto&& key, auto&& value, lexy::nullopt = {})`. -/
def KeyValueStatement.value_nullopt (key : String) (value : ValueType) :
    KeyValues.copy_pair_type :=
  (key, value)

/-- The callback of `KeyValueStatement::value` for a statement with attribute,
`[](auto&& key, auto&& value, bool conditional)`. -/
def KeyValueStatement.value_bool (key : String) (value : ValueType) (conditional : Bool) :
    KeyValues.copy_pair_type :=
  if conditional then (key, value) else KeyValues.copy_pair_type.default

/-- Models `dsl::p<KeyValueStatement>`: a branch on the key, then the value and an
optional `ConditionalAttribute`.  The budget bounds the nesting of objects. -/
def KeyValueStatement.rule (ucd : UnicodeData) (merge : Merge) :
    Nat → Run KeyValues.copy_pair_type
  | 0 => fun _ _ => some .fuel
  | n + 1 => fun state input =>
    match KeyExpression.rule ucd input with
    | none => none
    | some (.error _) => some (.error state)
    | some .fuel => some .fuel
    | some (.value key rest) =>
      match ValueExpression.rule ucd merge (KeyValueStatement.rule ucd merge n) n state rest with
      | none => some (.error state)
      | some (.error e) => some (.error e)
      | some .fuel => some .fuel
      | some (.value (value, state') rest') =>
        match ConditionalAttribute.rule ucd state' rest' with
        | none => some (.value (KeyValueStatement.value_nullopt key value, state') rest')
        | some (.value conditional rest'') =>
          some (.value (KeyValueStatement.value_bool key value conditional, state') rest'')
        | some (.error _) => some (.error state')
        | some .fuel => some .fuel

/-! ### File -/

/-- One item of the list of `File`, the choice
`p<IncludeStatement> | p<KeyValueStatement>`, folded into the tree. -/
def File.item (ucd : UnicodeData) (merge : Merge) (statement : Run KeyValues.copy_pair_type)
    (values : KeyValues) : Run KeyValues :=
  fun state input =>
    match IncludeStatement.rule ucd input with
    | some (.value file rest) =>
      match ListValue.value_merge merge values file with
      | none => some .fuel
      | some values' => some (.value (values', state) rest)
    | some (.error _) => some (.error state)
    | some .fuel => some .fuel
    | none =>
      match statement state input with
      | some (.value (kv, state') rest) =>
        some (.value (ListValue.value_pair values kv, state') rest)
      | some (.error e) => some (.error e)
      | some .fuel => some .fuel
      | none => none

/-- Models `lexy::dsl::eof`. -/
def eof (input : List Char) : Option (List Char) :=
  match input with
  | [] => some []
  | _ :: _ => none

/-- The production `File`, the entry point of the grammar: whitespace, then a
list of items terminated by the end of the input.  `File::value` hands the
folded tree over unchanged.  Every nesting and every item consumes input, so
the length of the input bounds the budget. -/
def File.rule (ucd : UnicodeData) (merge : Merge) : FileRun :=
  fun state input =>
    list eof (File.item ucd merge (KeyValueStatement.rule ucd merge (input.length + 1)))
      (input.length + 1) state (skip ucd input)

/-- Models `KeyValues::MergeWith` with a budget for the depth of includes: no budget,
no result. -/
def merge_with (host : Host) : Nat → Merge
  | 0 => fun _ _ => none
  | depth + 1 => KeyValues.MergeWith host (File.rule host.ucd (merge_with host depth))

/-- A run of the grammar `File` in which includes nest at most `depth` deep. -/
def File.run (host : Host) (depth : Nat) : FileRun := File.rule host.ucd (merge_with host depth)

/-- A merge that puts no empty alternative into a tree that has none. -/
def merges_complete (merge : Merge) : Prop :=
  ∀ (D D' : KeyValues) (p : String) (merge_error : KeyValues.MergeError),
    merge D p = some (merge_error, D') → D.has_empty = false → D'.has_empty = false

/-- A statement rule whose pairs are the empty pair of a suppressed statement
or carry a value without the empty alternative at any depth. -/
def yields_complete (statement : Run KeyValues.copy_pair_type) : Prop :=
  ∀ (state state' : Parser.State) (input rest : List Char) (kv : KeyValues.copy_pair_type),
    statement state input = some (.value (kv, state') rest) →
    kv.2.index = 0 ∨ kv.2.has_empty = false

/-- A run of key-value statements over the input, one after the other, each
consuming input: from a state and an input it yields the pairs of the
statements in order, the state after them and the input left. -/
inductive Statements (statement : Run KeyValues.copy_pair_type) :
    Parser.State → List Char → List KeyValues.copy_pair_type → Parser.State → List Char → Prop
  | nil (state : Parser.State) (input : List Char) : Statements statement state input [] state input
  | cons {state state' state'' : Parser.State} {input rest rest' : List Char}
      {kv : KeyValues.copy_pair_type} {kvs : List KeyValues.copy_pair_type}
      (hstatement : statement state input = some (.value (kv, state') rest))
      (hconsumed : rest.length < input.length)
      (hrest : Statements statement state' rest kvs state'' rest') :
      Statements statement state input (kv :: kvs) state'' rest'

end grammar

/-- Models `parser.parse()` for a session, with a budget for the depth of includes. -/
def Parser.run (host : Host) (depth : Nat) (self : Parser) : Option (Bool × Parser) :=
  Parser.parse host (grammar.File.run host depth) self

/-- A call on a session: a load, `parse()` with a budget for the depth of
includes, or a change of the condition set. -/
inductive Parser.Call where
  | load_from_string (string : List Char)
  | load_from_file (path : String)
  | load_from_file_root (path : String) (root : Parser)
  | parse (depth : Nat)
  | add_condition (conditional : String)
  | remove_condition (conditional : String)
  | clear_conditions

/-- The session after a call; `none` when `parse()` has no result. -/
def Parser.call (host : Host) (self : Parser) : Parser.Call → Option Parser
  | .load_from_string string => some (self.load_from_string string)
  | .load_from_file path => some (self.load_from_file host path)
  | .load_from_file_root path root => some (self.load_from_file_root host path root)
  | .parse depth => (Parser.run host depth self).map Prod.snd
  | .add_condition conditional => some (self.add_condition conditional)
  | .remove_condition conditional => some (self.remove_condition conditional).2
  | .clear_conditions => some self.clear_conditions

/-- The session after a sequence of calls, the first one first. -/
def Parser.calls (host : Host) (self : Parser) : List Parser.Call → Option Parser
  | [] => some self
  | call :: rest =>
    match Parser.call host self call with
    | none => none
    | some next => Parser.calls host next rest

/-- The call is a load that puts a buffer into the session: a load from memory,
or a load of a file that can be read. -/
def Parser.Call.materializes (host : Host) : Parser.Call → Bool
  | .load_from_string _ => true
  | .load_from_file path => (host.read_file path).isSome
  | .load_from_file_root path _ => (host.read_file path).isSome
  | _ => false

/-- The fatal flag is the disjunction of the fatality of the collected errors. -/
def Parser.flag_agrees (self : Parser) : Prop :=
  self._has_fatal_error = self._errors.any fun e => decide (e.type = ParseError.Type.Fatal)

/-- Nothing has put a buffer into the session and it holds no tree. -/
def Parser.unloaded (self : Parser) : Prop :=
  self._buffer_handler._buffer = none ∧ self._key_values = none

/-! ## Numerals as texts -/

namespace literal

/-- An optional sign: nothing, a plus or a minus. -/
def is_sign (s : List Char) : Bool := s == [] || s == ['+'] || s == ['-']

/-- One or more decimal digits. -/
def is_digits (ds : List Char) : Bool := !ds.isEmpty && ds.all dsl.is_digit

/-- One or more hexadecimal digits. -/
def is_hex_digits (ds : List Char) : Bool := !ds.isEmpty && ds.all dsl.is_hex

/-- The exponent of a float literal: `e` or `E`, an optional sign, digits. -/
structure Exponent where
  letter : Char
  sign : List Char
  digits : List Char

/-- The text of an exponent. -/
def Exponent.text (x : Exponent) : List Char := x.letter :: (x.sign ++ x.digits)

/-- The parts of an exponent are what they are called. -/
def Exponent.well_formed (x : Exponent) : Bool :=
  (x.letter == 'e' || x.letter == 'E') && is_sign x.sign && is_digits x.digits

/-- A float literal: an optional sign and digits, followed by a fraction
(a period and digits), by an exponent, or by both. -/
structure Float where
  sign : List Char
  digits : List Char
  fraction : Option (List Char)
  exponent : Option Exponent

/-- The text of a float literal. -/
def Float.text (f : Float) : List Char :=
  f.sign ++ (f.digits ++ ((match f.fraction with
    | some fs => '.' :: fs
    | none => []) ++ (match f.exponent with
    | some x => x.text
    | none => [])))

/-- The parts of a float literal are what they are called, and a fraction or
an exponent is there. -/
def Float.well_formed (f : Float) : Bool :=
  is_sign f.sign && is_digits f.digits
    && (match f.fraction with
        | some fs => is_digits fs
        | none => true)
    && (match f.exponent with
        | some x => x.well_formed
        | none => true)
    && (f.fraction.isSome || f.exponent.isSome)

/-- The input after a numeral does not continue it: it is empty, or starts
with a code point that is no hexadecimal digit (so no digit and no exponent
letter), no period and no `x`. -/
def ends_numeral (rest : List Char) : Bool :=
  match rest with
  | [] => true
  | c :: _ => !(dsl.is_hex c || c == '.' || c == 'x')

end literal

/-! ## Quoted strings as texts -/

namespace quoted

/-- The character that the letter of a recognized escape stands for: the
quotation mark, the apostrophe, the backslash and the slash for themselves,
`b` for the backspace, `f` for the form feed, `n` for the newline, `r` for the
carriage return, `t` for the tabulator. -/
def mapped (e : Char) : Option Char :=
  if e = '"' then some '"'
  else if e = '\'' then some '\''
  else if e = '\\' then some '\\'
  else if e = '/' then some '/'
  else if e = 'b' then some (Char.ofNat 0x08)
  else if e = 'f' then some (Char.ofNat 0x0C)
  else if e = 'n' then some (Char.ofNat 0x0A)
  else if e = 'r' then some (Char.ofNat 0x0D)
  else if e = 't' then some (Char.ofNat 0x09)
  else none

/-- A piece of the body of a quoted string: a character that stands for
itself, or a backslash with the letter of an escape. -/
inductive Piece where
  | char (c : Char)
  | escape (e : Char)
deriving DecidableEq, Repr

/-- The text of a piece. -/
def Piece.text : Piece → List Char
  | .char c => [c]
  | .escape e => ['\\', e]

/-- A character is neither the closing quotation mark, nor a backslash, nor a
control character; an escape is a recognized one. -/
def Piece.well_formed (ucd : UnicodeData) : Piece → Bool
  | .char c => c != '"' && c != '\\' && !dsl.unicode_control ucd c
  | .escape e => (mapped e).isSome

/-- What a piece stands for: the character, or the one character the escape
is mapped to. -/
def Piece.decoded : Piece → List Char
  | .char c => [c]
  | .escape e => (mapped e).toList

/-- The text of a body. -/
def text (body : List Piece) : List Char := body.flatMap Piece.text

/-- The body with each escape replaced by its mapped character. -/
def decoded (body : List Piece) : List Char := body.flatMap Piece.decoded

end quoted

/-! ## Conditional expressions as texts -/

namespace condition

/-- Blanks and line ends between the tokens of an expression. -/
def is_layout (ws : List Char) : Bool :=
  ws.all fun c => c == ' ' || c == '\t' || c == '\n' || c == '\r'

/-- A name as `PlainValue` reads it: an `xid_start_underscore` code point and
then `xid_continue` code points. -/
def is_identifier (ucd : UnicodeData) (n : List Char) : Bool :=
  match n with
  | [] => false
  | c :: t => dsl.xid_start_underscore ucd c && t.all (dsl.xid_continue ucd)

/-- A conditional expression with the layout after each of its tokens:
`$name`, `( e )`, `! e`, `l && r`, `l || r`. -/
inductive Expr where
  | name (n : List Char) (ws : List Char)
  | paren (ws₁ : List Char) (e : Expr) (ws₂ : List Char)
  | not (ws : List Char) (e : Expr)
  | and (l : Expr) (ws : List Char) (r : Expr)
  | or (l : Expr) (ws : List Char) (r : Expr)

/-- The text of an expression; no parentheses are added. -/
def Expr.text : Expr → List Char
  | .name n ws => '$' :: (n ++ ws)
  | .paren ws₁ e ws₂ => '(' :: (ws₁ ++ (e.text ++ ')' :: ws₂))
  | .not ws e => '!' :: (ws ++ e.text)
  | .and l ws r => l.text ++ ('&' :: '&' :: (ws ++ r.text))
  | .or l ws r => l.text ++ ('|' :: '|' :: (ws ++ r.text))

/-- The level of the grammar an expression belongs to: 0 for `Or`, 1 for
`And`, 2 for `Not`, 3 for an atom. -/
def Expr.level : Expr → Nat
  | .name _ _ => 3
  | .paren _ _ _ => 3
  | .not _ _ => 2
  | .and _ _ _ => 1
  | .or _ _ _ => 0

/-- The text of the expression is a derivation of the grammar
`Or := And ("||" And)*`, `And := Not ("&&" Not)*`, `Not := "!" Not | Atom`,
`Atom := "(" Or ")" | "$" Identifier` with the tree as written: `!` applies to
a `Not` or an atom, the right operand of `&&` is a `Not` and the left one an
`And`, the right operand of `||` is an `And`. -/
def Expr.well_formed (ucd : UnicodeData) : Expr → Bool
  | .name n ws => is_identifier ucd n && is_layout ws
  | .paren ws₁ e ws₂ => is_layout ws₁ && e.well_formed ucd && is_layout ws₂
  | .not ws e => is_layout ws && e.well_formed ucd && decide (2 ≤ e.level)
  | .and l ws r =>
    l.well_formed ucd && is_layout ws && r.well_formed ucd && decide (1 ≤ l.level)
      && decide (2 ≤ r.level)
  | .or l ws r =>
    l.well_formed ucd && is_layout ws && r.well_formed ucd && decide (1 ≤ r.level)

/-- The Boolean denotation under a condition set: a name is true when it is a
member, `!` negates, `&&` is conjunction, `||` is disjunction. -/
def Expr.denote (conditionals : List String) : Expr → Bool
  | .name n _ => decide (String.mk n ∈ conditionals)
  | .paren _ e _ => e.denote conditionals
  | .not _ e => !e.denote conditionals
  | .and l _ r => l.denote conditionals && r.denote conditionals
  | .or l _ r => l.denote conditionals || r.denote conditionals

/-- Number of nodes. -/
def Expr.size : Expr → Nat
  | .name _ _ => 1
  | .paren _ e _ => e.size + 1
  | .not _ e => e.size + 1
  | .and l _ r => l.size + r.size + 1
  | .or l _ r => l.size + r.size + 1

/-- Number of `&&` operators at the top of an expression. -/
def Expr.and_count : Expr → Nat
  | .and l _ _ => l.and_count + 1
  | _ => 0

/-- Number of `||` operators at the top of an expression. -/
def Expr.or_count : Expr → Nat
  | .or l _ _ => l.or_count + 1
  | _ => 0

/-- The value an operand stands for: itself, or the membership of the name. -/
def resolve (state : Parser.State) : grammar.Operand → Bool
  | .bool b => b
  | .name s => decide (s ∈ state.conditionals)

/-- The input goes on with a closing bracket or with an operator sign. -/
def follows (rest : List Char) : Bool :=
  match rest with
  | [] => false
  | c :: _ => c == ')' || c == ']' || c == '&' || c == '|'

/-- The input goes on with a closing bracket or with the sign of `||`. -/
def follows_and (rest : List Char) : Bool :=
  match rest with
  | [] => false
  | c :: _ => c == ')' || c == ']' || c == '|'

/-- The input goes on with a closing bracket. -/
def follows_or (rest : List Char) : Bool :=
  match rest with
  | [] => false
  | c :: _ => c == ')' || c == ']'

/-- What the operations compute on the text of an expression. -/
def Expr.parses (ucd : UnicodeData) (state : Parser.State) (e : Expr) : Prop :=
  (2 ≤ e.level → ∀ n K rest, e.size ≤ n → e.size ≤ K → follows rest = true →
    grammar.ConditionalExpression.Not ucd (grammar.ConditionalExpression.parse ucd state n) state K
        (e.text ++ rest)
      = .value (e.denote state.conditionals) rest)
  ∧ (1 ≤ e.level → ∀ n K rest, e.size ≤ n → e.size ≤ K → follows rest = true →
    grammar.ConditionalExpression.And ucd (grammar.ConditionalExpression.parse ucd state n) state K
        (e.text ++ rest)
      = grammar.ConditionalExpression.And_loop ucd (grammar.ConditionalExpression.parse ucd state n) state K
          (K - e.and_count) (e.denote state.conditionals) rest)
  ∧ (∀ n K rest, e.size ≤ n → e.size ≤ K → follows_and rest = true →
    grammar.ConditionalExpression.Or ucd (grammar.ConditionalExpression.parse ucd state n) state K
        (e.text ++ rest)
      = grammar.ConditionalExpression.Or_loop ucd (grammar.ConditionalExpression.parse ucd state n) state K
          (K - e.or_count) (e.denote state.conditionals) rest)
  ∧ (∀ n rest, e.size ≤ n → follows_or rest = true →
    grammar.ConditionalExpression.parse ucd state (n + 1) (e.text ++ rest)
      = .value (e.denote state.conditionals) rest)

end condition

/-! ## Documents of key-value statements as texts -/

namespace document

/-- A key, or a value that is a string: between quotation marks, or plain. -/
inductive Token where
  | quoted (body : List quoted.Piece)
  | plain (name : List Char)

/-- The text of a token. -/
def Token.text : Token → List Char
  | .quoted body => '"' :: (quoted.text body ++ ['"'])
  | .plain name => name

/-- The string a token stands for: the decoded body, or the name. -/
def Token.string : Token → String
  | .quoted body => String.mk (quoted.decoded body)
  | .plain name => String.mk name

/-- The token ends with a delimiter of its own. -/
def Token.closed : Token → Bool
  | .quoted _ => true
  | .plain _ => false

/-- The input is empty or starts with a code point that is neither whitespace
nor the start of a comment nor an opening square bracket. -/
def starts_token (ucd : UnicodeData) (input : List Char) : Bool :=
  match input with
  | [] => true
  | c :: _ => !grammar.whitespace_specifier ucd c && c != '/' && c != '['

/-- The input does not continue a name or a numeral: it is empty or starts
with a code point that is no `xid_continue` one and no period. -/
def ends_token (ucd : UnicodeData) (input : List Char) : Bool :=
  match input with
  | [] => true
  | c :: _ => !dsl.xid_continue ucd c && c != '.'

/-- The input is empty or starts with a closing brace. -/
def closes (input : List Char) : Bool :=
  match input with
  | [] => true
  | c :: _ => c == Char.ofNat 125

/-- The body of a quoted token is made of well-formed pieces; a plain token is
a name whose first code point the database does not class as whitespace. -/
def Token.well_formed (ucd : UnicodeData) : Token → Bool
  | .quoted body => body.all (quoted.Piece.well_formed ucd)
  | .plain name => condition.is_identifier ucd name && starts_token ucd name

/-- A value or a sequence of statements, with the layout after each token.
Values: a string, a decimal or a hexadecimal integer, a float, an object
`ws body` between braces.  Sequences: the empty one `nil`, and
`key ws₁ value ws₂` followed by a sequence. -/
inductive Doc where
  | string (t : Token)
  | decimal (digits : List Char)
  | hex (digits : List Char)
  | float (f : literal.Float)
  | object (ws : List Char) (body : Doc)
  | nil
  | cons (key : Token) (ws₁ : List Char) (value : Doc) (ws₂ : List Char) (tail : Doc)

/-- The text of a value or of a sequence of statements. -/
def Doc.text : Doc → List Char
  | .string t => t.text
  | .decimal digits => digits
  | .hex digits => '0' :: 'x' :: digits
  | .float f => f.text
  | .object ws body => Char.ofNat 123 :: (ws ++ (body.text ++ [Char.ofNat 125]))
  | .nil => []
  | .cons key ws₁ value ws₂ tail => key.text ++ (ws₁ ++ (value.text ++ (ws₂ ++ tail.text)))

/-- A value, not a sequence of statements. -/
def Doc.is_value : Doc → Bool
  | .nil => false
  | .cons _ _ _ _ _ => false
  | _ => true

/-- A sequence of statements, not a value. -/
def Doc.is_list : Doc → Bool
  | .nil => true
  | .cons _ _ _ _ _ => true
  | _ => false

/-- A value that ends with a delimiter of its own: a quoted string or an
object. -/
def Doc.closed : Doc → Bool
  | .string t => t.closed
  | .object _ _ => true
  | _ => false

/-- The keys of a sequence of statements, in order. -/
def Doc.keys : Doc → List String
  | .cons key _ _ _ tail => key.string :: tail.keys
  | _ => []

/-- Number of values and statements. -/
def Doc.size : Doc → Nat
  | .object _ body => body.size + 1
  | .nil => 0
  | .cons _ _ value _ tail => value.size + tail.size + 1
  | _ => 1

/-- The parts are what they are called and the tokens are kept apart: a plain
key is followed by layout or by a value that cannot continue it, a numeral or
a plain value is followed by layout, by the end of its scope or by a key that
cannot continue it; an object has a statement; an integer fits an `int`;
`std::stod` converts a float numeral; the keys of a sequence are pairwise
distinct. -/
def Doc.well_formed (ucd : UnicodeData) : Doc → Bool
  | .string t => t.well_formed ucd
  | .decimal digits =>
    literal.is_digits digits && decide (grammar.integer_value 10 digits ≤ grammar.INT_MAX)
  | .hex digits =>
    literal.is_hex_digits digits && decide (grammar.integer_value 16 digits ≤ grammar.INT_MAX)
  | .float f => f.well_formed && (grammar.FloatValue.value (String.mk f.text)).isSome
  | .object ws body =>
    condition.is_layout ws && body.is_list && decide (0 < body.size) && body.well_formed ucd
  | .nil => true
  | .cons key ws₁ value ws₂ tail =>
    key.well_formed ucd && condition.is_layout ws₁ && value.is_value && value.well_formed ucd
      && condition.is_layout ws₂ && tail.is_list && tail.well_formed ucd
      && (key.closed || ends_token ucd (ws₁ ++ value.text))
      && (value.closed || ends_token ucd (ws₂ ++ tail.text))
      && decide (key.string ∉ tail.keys)

mutual
/-- The value a value stands for: the string, the integer, the float that
`FloatValue::value` makes of the numeral (the zero where `std::stod` throws,
which a well-formed document excludes), or the tree of the entries of the
object. -/
def Doc.denote : Doc → ValueType
  | .string t => ValueType.string t.string
  | .decimal digits => ValueType.int32 (grammar.integer_value 10 digits)
  | .hex digits => ValueType.int32 (grammar.integer_value 16 digits)
  | .float f => ValueType.float ((grammar.FloatValue.value (String.mk f.text)).getD ⟨false, 0, 0⟩)
  | .object _ body => ValueType.keyValues body.entries
  | .nil => ValueType.monostate
  | .cons _ _ _ _ _ => ValueType.monostate
/-- The tree of a sequence of statements: one entry per statement, in order,
from the key to what the value stands for. -/
def Doc.entries : Doc → KeyValues
  | .cons key _ value _ tail => (key.string, value.denote) :: tail.entries
  | _ => []
end

end document

/-! ## Sample surroundings -/

namespace sample

/-- A Unicode database in which no code point from U+0080 upwards belongs to
any of the classes. -/
def ucd : UnicodeData :=
  ⟨fun _ => false, fun _ => false, fun _ => false, fun _ => false, fun _ => false⟩

/-- The text of the file `B.vdf`. -/
def B_vdf : List Char := "\"k\" \"fromB\" \"m\" \"fromB\"".toList

/-- A Windows host with the readable file `B.vdf` and the readable file
`bad.vdf`, which the grammar rejects; no other path can be read. -/
def host : Host where
  ucd := ucd
  read_file := fun path =>
    if path = "B.vdf" then some B_vdf
    else if path = "bad.vdf" then some "\"k\"".toList
    else none
  target := Target.WIN32
  report_error := fun _ _ => [⟨ParseError.Type.Recoverable, "", 0, ⟨"", 0, 0⟩, 0, 0⟩]
  report_error_ne := fun _ _ => List.cons_ne_nil _ _

/-- The sample host compiled for another target. -/
def host_on (target : Target) : Host := { host with target := target }

/-- The text of the file `C.vdf`: an entry under the default condition `WIN32`
and an entry under the condition `CUSTOM`. -/
def C_vdf : List Char := "\"w\" \"1\" [ $WIN32 ] \"c\" \"2\" [ $CUSTOM ]".toList

/-- The sample host with the further readable file `C.vdf`. -/
def host_C : Host :=
  { host with
    read_file := fun path => if path = "C.vdf" then some C_vdf else host.read_file path }

/-- The session after a sequence of calls on a fresh session of the sample
host; the fresh session when a `parse()` has no result. -/
def after (calls : List Parser.Call) : Parser :=
  (Parser.calls host (Parser.new host) calls).getD (Parser.new host)

/-- The tree and the warnings of a successful run. -/
def outcome (r : Parsed Parser.State (KeyValues × Parser.State)) :
    Option (KeyValues × List ParseWarning) :=
  match r with
  | .value (key_values, state) _ => some (key_values, state.parse_warnings)
  | _ => none

end sample

/-! ## The tree: `emplace` and `AppendKeyValues` -/

theorem KeyValues.find_append (a b : KeyValues) (key : String) :
    KeyValues.find (a ++ b) key = (KeyValues.find a key).orElse (fun _ => KeyValues.find b key) := by
  induction a with
  | nil => simp [KeyValues.find]
  | cons hd tl ih =>
    obtain ⟨k, v⟩ := hd
    by_cases h : k = key
    · simp [KeyValues.find, h]
    · simp [KeyValues.find, h, ih]

theorem KeyValues.find_emplace (self : KeyValues) (k key : String) (v : ValueType) :
    (self.emplace k v).find key
      = (self.find key).orElse (fun _ => if k = key then some v else none) := by
  unfold KeyValues.emplace
  cases hk : self.find k with
  | some w =>
    simp only
    cases hkey : self.find key with
    | some u => simp
    | none =>
      have : k ≠ key := by
        intro h
        rw [h, hkey] at hk
        exact Option.noConfusion hk
      simp [this]
  | none =>
    simp only
    rw [KeyValues.find_append]
    simp [KeyValues.find]

theorem KeyValues.find_AppendKeyValues (self other : KeyValues) (key : String) :
    (self.AppendKeyValues other).find key
      = (self.find key).orElse (fun _ => other.find key) := by
  unfold KeyValues.AppendKeyValues
  induction other generalizing self with
  | nil => cases h : self.find key <;> simp [KeyValues.find, h]
  | cons hd tl ih =>
    obtain ⟨k, v⟩ := hd
    rw [List.foldl_cons, ih, KeyValues.find_emplace]
    by_cases h : k = key
    · cases hs : self.find key <;> simp [KeyValues.find, h]
    · cases hs : self.find key <;> simp [KeyValues.find, h]

/-- C5. After `D.AppendKeyValues(S)` a key is present exactly when it is
present in `D` or in `S`, and it maps to the value it had in `D` when it was
there, and to the value it has in `S` otherwise. -/
theorem KeyValues.AppendKeyValues_postcondition (D S : KeyValues) (key : String) :
    ((D.AppendKeyValues S).find key).isSome = ((D.find key).isSome || (S.find key).isSome)
    ∧ (D.AppendKeyValues S).find key
        = (match D.find key with
           | some old => some old
           | none => S.find key) := by
  rw [KeyValues.find_AppendKeyValues]
  cases D.find key <;> simp

/-! ## `merge_check` -/

/-- C8. For a `ParseFail` outcome `merge_check` yields code 2 with a message
that opens with a double quote, so it is never the text in which the path
stands between two single quotes; for `FileMissing` the path does stand
between single quotes, and `Success` yields no warning.  The include step
that takes the state pushes that warning for `bad.vdf`, which is read and
rejected. -/
theorem warnings.merge_check_ParseFail_message (file : String) :
    warnings.merge_check file KeyValues.MergeError.ParseFail
        = some ⟨String.singleton (Char.ofNat 34) ++ file ++ "' could not be parsed.", 2⟩
    ∧ warnings.merge_check file KeyValues.MergeError.ParseFail
        ≠ some ⟨"'" ++ file ++ "' could not be parsed.", 2⟩
    ∧ warnings.merge_check file KeyValues.MergeError.FileMissing
        = some ⟨"Could not find '" ++ file ++ "'.", 1⟩
    ∧ warnings.merge_check file KeyValues.MergeError.Success = none
    ∧ grammar.ListValue.value_file (grammar.merge_with sample.host 1) ⟨[], []⟩ [] ⟨"bad.vdf"⟩
        = some ([], ⟨[], [⟨"\"bad.vdf' could not be parsed.", 2⟩]⟩) := by
  refine ⟨rfl, ?_, rfl, rfl, rfl⟩
  intro h
  simp only [warnings.merge_check, Option.some.injEq, ParseWarning.mk.injEq, and_true] at h
  have h2 := congrArg String.data h
  simp [String.data_append, String.singleton] at h2

/-! ## Numeric literals in value position -/

theorem takeWhile_dropWhile_stop (p : Char → Bool) (l rest : List Char)
    (hl : ∀ c ∈ l, p c = true) (hrest : ∀ c, rest.head? = some c → p c = false) :
    (l ++ rest).takeWhile p = l ∧ (l ++ rest).dropWhile p = rest := by
  rw [List.takeWhile_append_of_pos hl, List.dropWhile_append_of_pos hl]
  cases rest with
  | nil => simp
  | cons c cs =>
    have hc : p c = false := hrest c rfl
    simp [List.takeWhile_cons, List.dropWhile_cons, hc]

theorem literal.is_digits_iff (ds : List Char) :
    literal.is_digits ds = true ↔ ds ≠ [] ∧ ∀ c ∈ ds, dsl.is_digit c = true := by
  cases ds <;> simp [literal.is_digits]

theorem literal.is_hex_digits_iff (ds : List Char) :
    literal.is_hex_digits ds = true ↔ ds ≠ [] ∧ ∀ c ∈ ds, dsl.is_hex c = true := by
  cases ds <;> simp [literal.is_hex_digits]

theorem dsl.is_hex_of_is_digit (c : Char) (h : dsl.is_digit c = true) : dsl.is_hex c = true := by
  simp [dsl.is_hex, h]

theorem grammar.digits_append (ds rest : List Char) (hds : literal.is_digits ds = true)
    (hrest : ∀ c, rest.head? = some c → dsl.is_digit c = false) :
    grammar.digits (ds ++ rest) = some (ds, rest) := by
  obtain ⟨hne, hall⟩ := (literal.is_digits_iff ds).1 hds
  obtain ⟨h1, h2⟩ := takeWhile_dropWhile_stop dsl.is_digit ds rest hall hrest
  simp [grammar.digits, h1, h2, hne]

theorem grammar.hex_digits_append (ds rest : List Char) (hds : literal.is_hex_digits ds = true)
    (hrest : ∀ c, rest.head? = some c → dsl.is_hex c = false) :
    grammar.hex_digits (ds ++ rest) = some (ds, rest) := by
  obtain ⟨hne, hall⟩ := (literal.is_hex_digits_iff ds).1 hds
  obtain ⟨h1, h2⟩ := takeWhile_dropWhile_stop dsl.is_hex ds rest hall hrest
  simp [grammar.hex_digits, h1, h2, hne]

theorem literal.head_is_digit (ds rest : List Char) (hds : literal.is_digits ds = true) :
    ∃ d t, ds ++ rest = d :: t ∧ dsl.is_digit d = true := by
  obtain ⟨hne, hall⟩ := (literal.is_digits_iff ds).1 hds
  cases ds with
  | nil => exact absurd rfl hne
  | cons d t => exact ⟨d, t ++ rest, rfl, hall d (List.mem_cons_self _ _)⟩

theorem literal.ends_numeral_head (rest : List Char) (h : literal.ends_numeral rest = true)
    (c : Char) (hc : rest.head? = some c) :
    dsl.is_hex c = false ∧ dsl.is_digit c = false ∧ c ≠ '.' ∧ c ≠ 'x' ∧ c ≠ 'e' ∧ c ≠ 'E' := by
  cases rest with
  | nil => simp at hc
  | cons a t =>
    simp only [List.head?_cons, Option.some.injEq] at hc
    subst hc
    simp only [literal.ends_numeral, Bool.not_eq_true', Bool.or_eq_false_iff, beq_eq_false_iff_ne,
      ne_eq] at h
    obtain ⟨⟨hhex, hdot⟩, hx⟩ := h
    refine ⟨hhex, ?_, hdot, hx, ?_, ?_⟩
    · cases hd : dsl.is_digit a with
      | false => rfl
      | true => rw [dsl.is_hex_of_is_digit a hd] at hhex; exact absurd hhex (by simp)
    · rintro rfl
      exact absurd hhex (by decide)
    · rintro rfl
      exact absurd hhex (by decide)

theorem grammar.lit_singleton_none (ucd : UnicodeData) (b c : Char) (t : List Char) (h : c ≠ b) :
    grammar.lit ucd [b] (c :: t) = none := by
  have : (b == c) = false := by
    simp only [beq_eq_false_iff_ne, ne_eq]
    exact fun hbc => h hbc.symm
  simp [grammar.lit, List.isPrefixOf, this]

theorem grammar.ListValue.rule_none (ucd : UnicodeData) (merge : grammar.Merge)
    (statement : grammar.Run KeyValues.copy_pair_type) (k : Nat) (state : Parser.State)
    (input : List Char) (h : input.head? ≠ some (Char.ofNat 123)) :
    grammar.ListValue.rule ucd merge statement k state input = none := by
  unfold grammar.ListValue.rule
  cases input with
  | nil => simp [grammar.lit, List.isPrefixOf]
  | cons c t =>
    rw [grammar.lit_singleton_none ucd _ c t (by
      intro hc
      apply h
      rw [hc]
      rfl)]

theorem grammar.sign_of_digit (d : Char) (t : List Char) (hd : dsl.is_digit d = true) :
    grammar.sign (d :: t) = ([], d :: t) := by
  have h1 : d ≠ '+' := by rintro rfl; exact absurd hd (by decide)
  have h2 : d ≠ '-' := by rintro rfl; exact absurd hd (by decide)
  simp [grammar.sign, h1, h2]

theorem grammar.sign_append (s ds rest : List Char) (hs : literal.is_sign s = true)
    (hds : literal.is_digits ds = true) :
    grammar.sign (s ++ (ds ++ rest)) = (s, ds ++ rest) := by
  obtain ⟨d, t, hdt, hd⟩ := literal.head_is_digit ds rest hds
  simp only [literal.is_sign, Bool.or_eq_true, beq_iff_eq] at hs
  rcases hs with (rfl | rfl) | rfl
  · rw [List.nil_append, hdt, grammar.sign_of_digit d t hd]
  · simp [grammar.sign]
  · simp [grammar.sign]

theorem grammar.FloatValue.exponent_none (rest : List Char)
    (hrest : literal.ends_numeral rest = true) : grammar.FloatValue.exponent rest = none := by
  cases rest with
  | nil => rfl
  | cons c cs =>
    obtain ⟨-, -, -, -, he, hE⟩ := literal.ends_numeral_head (c :: cs) hrest c rfl
    simp [grammar.FloatValue.exponent, he, hE]

theorem grammar.FloatValue.real_part_none (rest : List Char)
    (hrest : literal.ends_numeral rest = true) : grammar.FloatValue.real_part rest = none := by
  cases rest with
  | nil => rfl
  | cons c cs =>
    obtain ⟨-, -, hdot, -, -, -⟩ := literal.ends_numeral_head (c :: cs) hrest c rfl
    simp [grammar.FloatValue.real_part, hdot, grammar.FloatValue.exponent_none (c :: cs) hrest]

theorem literal.ends_numeral_digit (rest : List Char) (hrest : literal.ends_numeral rest = true) :
    ∀ c, rest.head? = some c → dsl.is_digit c = false :=
  fun c hc => (literal.ends_numeral_head rest hrest c hc).2.1

theorem grammar.FloatValue.rule_rejects_decimal (ucd : UnicodeData) (ds rest : List Char)
    (hds : literal.is_digits ds = true) (hrest : literal.ends_numeral rest = true) :
    grammar.FloatValue.rule ucd (ds ++ rest) = none := by
  obtain ⟨d, t, hdt, hd⟩ := literal.head_is_digit ds rest hds
  unfold grammar.FloatValue.rule grammar.FloatValue.token
  rw [hdt, grammar.sign_of_digit d t hd, ← hdt]
  simp only
  rw [grammar.digits_append ds rest hds (literal.ends_numeral_digit rest hrest)]
  simp [grammar.FloatValue.real_part_none rest hrest]

theorem grammar.IntegerValue.rule_takes_decimal (ucd : UnicodeData) (ds rest : List Char)
    (hds : literal.is_digits ds = true) (hrest : literal.ends_numeral rest = true) :
    grammar.IntegerValue.rule ucd (ds ++ rest) = some (grammar.integer ucd 10 (ds, rest)) := by
  have hpre : ['0', 'x'].isPrefixOf (ds ++ rest) = false := by
    obtain ⟨hne, hall⟩ := (literal.is_digits_iff ds).1 hds
    cases ds with
    | nil => exact absurd rfl hne
    | cons d t =>
      cases t with
      | nil =>
        cases rest with
        | nil => simp [List.isPrefixOf]
        | cons c cs =>
          obtain ⟨-, -, -, hx, -, -⟩ := literal.ends_numeral_head (c :: cs) hrest c rfl
          have : ('x' == c) = false := by
            simp only [beq_eq_false_iff_ne, ne_eq]
            exact fun h => hx h.symm
          simp [List.isPrefixOf, this]
      | cons d' t' =>
        have hd' : dsl.is_digit d' = true := hall d' (by simp)
        have : ('x' == d') = false := by
          simp only [beq_eq_false_iff_ne, ne_eq]
          rintro rfl
          exact absurd hd' (by decide)
        simp [List.isPrefixOf, this]
  unfold grammar.IntegerValue.rule
  rw [hpre, grammar.digits_append ds rest hds (literal.ends_numeral_digit rest hrest)]
  simp

theorem grammar.ValueExpression.rule_of_decimal (ucd : UnicodeData) (merge : grammar.Merge)
    (statement : grammar.Run KeyValues.copy_pair_type) (k : Nat) (state : Parser.State)
    (ds rest : List Char) (hds : literal.is_digits ds = true)
    (hvalue : grammar.integer_value 10 ds ≤ grammar.INT_MAX)
    (hrest : literal.ends_numeral rest = true) :
    grammar.ValueExpression.rule ucd merge statement k state (ds ++ rest)
      = some (.value (ValueType.int32 (grammar.integer_value 10 ds), state)
          (grammar.skip ucd rest)) := by
  obtain ⟨d, t, hdt, hd⟩ := literal.head_is_digit ds rest hds
  have hbrace : (ds ++ rest).head? ≠ some (Char.ofNat 123) := by
    rw [hdt]
    simp only [List.head?_cons, ne_eq, Option.some.injEq]
    rintro rfl
    exact absurd hd (by decide)
  unfold grammar.ValueExpression.rule
  simp only [grammar.ListValue.rule_none ucd merge statement k state _ hbrace,
    grammar.FloatValue.rule_rejects_decimal ucd ds rest hds hrest,
    grammar.IntegerValue.rule_takes_decimal ucd ds rest hds hrest, grammar.integer, if_pos hvalue]

theorem grammar.ValueExpression.rule_hex (ucd : UnicodeData) (merge : grammar.Merge)
    (statement : grammar.Run KeyValues.copy_pair_type) (k : Nat) (state : Parser.State)
    (hs rest : List Char) (hhs : literal.is_hex_digits hs = true)
    (hvalue : grammar.integer_value 16 hs ≤ grammar.INT_MAX)
    (hrest : literal.ends_numeral rest = true) :
    grammar.ValueExpression.rule ucd merge statement k state ('0' :: 'x' :: (hs ++ rest))
      = some (.value (ValueType.int32 (grammar.integer_value 16 hs), state)
          (grammar.skip ucd rest)) := by
  have hbrace : ('0' :: 'x' :: (hs ++ rest)).head? ≠ some (Char.ofNat 123) := by
    simp only [List.head?_cons, ne_eq, Option.some.injEq]
    decide
  have hfloat : grammar.FloatValue.rule ucd ('0' :: 'x' :: (hs ++ rest)) = none := by
    have hdig : grammar.digits (['0'] ++ 'x' :: (hs ++ rest)) = some (['0'], 'x' :: (hs ++ rest)) :=
      grammar.digits_append ['0'] _ (by decide) (by
        intro c hc
        simp only [List.head?_cons, Option.some.injEq] at hc
        subst hc
        decide)
    unfold grammar.FloatValue.rule grammar.FloatValue.token
    rw [grammar.sign_of_digit '0' _ (by decide)]
    simp only
    rw [show '0' :: 'x' :: (hs ++ rest) = ['0'] ++ 'x' :: (hs ++ rest) from rfl, hdig]
    simp [grammar.FloatValue.real_part, grammar.FloatValue.exponent]
  have hint : grammar.IntegerValue.rule ucd ('0' :: 'x' :: (hs ++ rest))
      = some (grammar.integer ucd 16 (hs, rest)) := by
    unfold grammar.IntegerValue.rule
    have hp : ['0', 'x'].isPrefixOf ('0' :: 'x' :: (hs ++ rest)) = true := by
      simp [List.isPrefixOf]
    rw [if_pos hp]
    simp only [List.drop_succ_cons, List.drop_zero]
    rw [grammar.hex_digits_append hs rest hhs
      (fun c hc => (literal.ends_numeral_head rest hrest c hc).1)]
  unfold grammar.ValueExpression.rule
  simp only [grammar.ListValue.rule_none ucd merge statement k state _ hbrace, hfloat, hint,
    grammar.integer, if_pos hvalue]

theorem grammar.FloatValue.exponent_text (x : literal.Exponent) (rest : List Char)
    (hx : x.well_formed = true) (hrest : literal.ends_numeral rest = true) :
    grammar.FloatValue.exponent (x.text ++ rest) = some (some (x.text, rest)) := by
  simp only [literal.Exponent.well_formed, Bool.and_eq_true, Bool.or_eq_true, beq_iff_eq] at hx
  obtain ⟨⟨hletter, hsign⟩, hdigits⟩ := hx
  unfold grammar.FloatValue.exponent literal.Exponent.text
  simp only [List.cons_append, List.append_assoc]
  rw [if_pos hletter, grammar.sign_append x.sign x.digits rest hsign hdigits]
  simp only
  rw [grammar.digits_append x.digits rest hdigits (literal.ends_numeral_digit rest hrest)]

theorem literal.Exponent.head_not_digit (x : literal.Exponent) (rest : List Char)
    (hx : x.well_formed = true) :
    ∀ c, (x.text ++ rest).head? = some c → dsl.is_digit c = false := by
  intro c hc
  simp only [literal.Exponent.well_formed, Bool.and_eq_true, Bool.or_eq_true, beq_iff_eq] at hx
  simp only [literal.Exponent.text, List.cons_append, List.head?_cons, Option.some.injEq] at hc
  subst hc
  rcases hx.1.1 with h | h <;> rw [h] <;> decide

theorem grammar.FloatValue.token_text (f : literal.Float) (rest : List Char)
    (hf : f.well_formed = true) (hrest : literal.ends_numeral rest = true) :
    grammar.FloatValue.token (f.text ++ rest) = some (f.text, rest) := by
  obtain ⟨sign, digits, fraction, exponent⟩ := f
  simp only [literal.Float.well_formed, Bool.and_eq_true, Bool.or_eq_true] at hf
  obtain ⟨⟨⟨⟨hsign, hdigits⟩, hfraction⟩, hexponent⟩, hsome⟩ := hf
  unfold grammar.FloatValue.token literal.Float.text
  simp only [List.append_assoc]
  rw [grammar.sign_append sign digits _ hsign hdigits]
  simp only
  cases fraction with
  | some fs =>
    have hdot : ∀ c, ((('.' :: fs) ++ ((match exponent with
        | some x => x.text
        | none => []) ++ rest)) : List Char).head? = some c → dsl.is_digit c = false := by
      intro c hc
      simp only [List.cons_append, List.head?_cons, Option.some.injEq] at hc
      subst hc
      decide
    rw [grammar.digits_append digits _ hdigits hdot]
    simp only [List.cons_append]
    cases exponent with
    | some x =>
      simp only at hexponent hfraction
      have hfs := grammar.digits_append fs (x.text ++ rest) hfraction
        (literal.Exponent.head_not_digit x rest hexponent)
      simp [grammar.FloatValue.real_part, hfs,
        grammar.FloatValue.exponent_text x rest hexponent hrest]
    | none =>
      simp only at hfraction
      have hfs := grammar.digits_append fs rest hfraction
        (literal.ends_numeral_digit rest hrest)
      simp [grammar.FloatValue.real_part, hfs, grammar.FloatValue.exponent_none rest hrest]
  | none =>
    cases exponent with
    | none => simp at hsome
    | some x =>
      simp only at hexponent
      simp only [List.nil_append]
      rw [grammar.digits_append digits _ hdigits
        (literal.Exponent.head_not_digit x rest hexponent)]
      have hex := grammar.FloatValue.exponent_text x rest hexponent hrest
      have hletter : x.letter ≠ '.' := by
        simp only [literal.Exponent.well_formed, Bool.and_eq_true, Bool.or_eq_true,
          beq_iff_eq] at hexponent
        rcases hexponent.1.1 with h | h <;> rw [h] <;> decide
      simp only [literal.Exponent.text, List.cons_append, List.append_assoc] at hex
      simp [grammar.FloatValue.real_part, literal.Exponent.text, hletter, hex]

theorem literal.Float.head_not_brace (f : literal.Float) (rest : List Char)
    (hf : f.well_formed = true) : (f.text ++ rest).head? ≠ some (Char.ofNat 123) := by
  obtain ⟨sign, digits, fraction, exponent⟩ := f
  simp only [literal.Float.well_formed, Bool.and_eq_true] at hf
  obtain ⟨⟨⟨⟨hsign, hdigits⟩, -⟩, -⟩, -⟩ := hf
  obtain ⟨d, t, hdt, hd⟩ := literal.head_is_digit digits
    (((match fraction with
      | some fs => '.' :: fs
      | none => []) ++ (match exponent with
      | some x => x.text
      | none => [])) ++ rest) hdigits
  simp only [literal.is_sign, Bool.or_eq_true, beq_iff_eq] at hsign
  simp only [literal.Float.text, List.append_assoc] at hdt ⊢
  rcases hsign with (rfl | rfl) | rfl
  · rw [List.nil_append, hdt]
    simp only [List.head?_cons, ne_eq, Option.some.injEq]
    rintro rfl
    exact absurd hd (by decide)
  · simp
  · simp

theorem grammar.ValueExpression.rule_float (ucd : UnicodeData) (merge : grammar.Merge)
    (statement : grammar.Run KeyValues.copy_pair_type) (k : Nat) (state : Parser.State)
    (f : literal.Float) (rest : List Char) (hf : f.well_formed = true)
    (hrest : literal.ends_numeral rest = true) :
    grammar.ValueExpression.rule ucd merge statement k state (f.text ++ rest)
      = (match grammar.FloatValue.value (String.mk f.text) with
         | some x => some (.value (ValueType.float x, state) (grammar.skip ucd rest))
         | none => some .fuel) := by
  unfold grammar.ValueExpression.rule
  simp only [grammar.ListValue.rule_none ucd merge statement k state _
    (literal.Float.head_not_brace f rest hf), grammar.FloatValue.rule,
    grammar.FloatValue.token_text f rest hf hrest, Option.map_some']

theorem grammar.ValueExpression.rule_signed (ucd : UnicodeData) (merge : grammar.Merge)
    (statement : grammar.Run KeyValues.copy_pair_type) (k : Nat) (state : Parser.State)
    (c : Char) (ds rest : List Char) (hc : c = '+' ∨ c = '-')
    (hds : literal.is_digits ds = true) (hrest : literal.ends_numeral rest = true) :
    grammar.IntegerValue.rule ucd (c :: (ds ++ rest)) = none
    ∧ grammar.ValueExpression.rule ucd merge statement k state (c :: (ds ++ rest)) = none := by
  have hbrace : (c :: (ds ++ rest)).head? ≠ some (Char.ofNat 123) := by
    simp only [List.head?_cons, ne_eq, Option.some.injEq]
    rcases hc with rfl | rfl <;> decide
  have hfloat : grammar.FloatValue.rule ucd (c :: (ds ++ rest)) = none := by
    have hsign : grammar.sign (c :: (ds ++ rest)) = ([c], ds ++ rest) := by
      simp [grammar.sign, hc]
    unfold grammar.FloatValue.rule grammar.FloatValue.token
    rw [hsign]
    simp only
    rw [grammar.digits_append ds rest hds (literal.ends_numeral_digit rest hrest)]
    simp [grammar.FloatValue.real_part_none rest hrest]
  have hdigit : dsl.is_digit c = false := by
    rcases hc with rfl | rfl <;> decide
  have hint : grammar.IntegerValue.rule ucd (c :: (ds ++ rest)) = none := by
    have hzero : ('0' == c) = false := by
      rcases hc with rfl | rfl <;> decide
    simp [grammar.IntegerValue.rule, List.isPrefixOf, hzero, grammar.digits,
      List.takeWhile_cons, hdigit]
  have hplain : grammar.PlainValue.rule ucd (c :: (ds ++ rest)) = none := by
    have : dsl.xid_start_underscore ucd c = false := by
      rcases hc with rfl | rfl <;> rfl
    simp [grammar.PlainValue.rule, grammar.PlainValue.token, this]
  have hstring : grammar.StringValue.rule ucd (c :: (ds ++ rest)) = none := by
    have : c ≠ '"' := by
      rcases hc with rfl | rfl <;> decide
    simp [grammar.StringValue.rule, this]
  refine ⟨hint, ?_⟩
  unfold grammar.ValueExpression.rule
  simp only [grammar.ListValue.rule_none ucd merge statement k state _ hbrace, hfloat, hint,
    hplain, hstring]

/-- C9. The claim fails on the code for a float numeral beyond the range of
`double`.  In value position, before an input that does not continue the
numeral: a float literal (sign, digits, then a fraction, an exponent or both)
yields the float alternative with the number that `FloatValue::value` makes of
its text where `std::stod` converts it, and where `std::stod` throws the run
has no result; decimal digits alone, with a value that fits an `int`, pass the
float rule and yield the integer alternative with the decimal value; `0x` and
hexadecimal digits, with a value that fits an `int`, yield the integer
alternative with the hexadecimal value.  None of them yields a string.  So
`a 3.14 b 42 c 0x1A d 1e5` parses to the nearest floats of 3.14 and of 100000
and the integers 42 and 26.  At the numeral `1e400`: `std::stod` throws, and
the text `"a" 1e400` has no result for any include budget, neither as a run of
the grammar nor as the call of `parse()`, where the claim has the entry `a`
with a float. -/
theorem grammar.ValueExpression.numeric_classification (ucd : UnicodeData)
    (merge : grammar.Merge) (statement : grammar.Run KeyValues.copy_pair_type) (k : Nat)
    (state : Parser.State) (rest : List Char) (hrest : literal.ends_numeral rest = true) :
    (∀ f : literal.Float, f.well_formed = true →
      grammar.ValueExpression.rule ucd merge statement k state (f.text ++ rest)
        = (match grammar.FloatValue.value (String.mk f.text) with
           | some x => some (.value (ValueType.float x, state) (grammar.skip ucd rest))
           | none => some .fuel))
    ∧ (∀ ds : List Char, literal.is_digits ds = true →
      grammar.integer_value 10 ds ≤ grammar.INT_MAX →
      grammar.ValueExpression.rule ucd merge statement k state (ds ++ rest)
        = some (.value (ValueType.int32 (grammar.integer_value 10 ds), state)
            (grammar.skip ucd rest)))
    ∧ (∀ hs : List Char, literal.is_hex_digits hs = true →
      grammar.integer_value 16 hs ≤ grammar.INT_MAX →
      grammar.ValueExpression.rule ucd merge statement k state ('0' :: 'x' :: (hs ++ rest))
        = some (.value (ValueType.int32 (grammar.integer_value 16 hs), state)
            (grammar.skip ucd rest)))
    ∧ sample.outcome (grammar.File.run sample.host 0 ⟨[], []⟩
          "a 3.14 b 42 c 0x1A d 1e5".toList)
        = some ([("a", ValueType.float ⟨false, 128, 4781507⟩), ("b", ValueType.int32 42),
            ("c", ValueType.int32 26), ("d", ValueType.float ⟨false, 143, 4411392⟩)], [])
    ∧ std.stod "1e400" = none
    ∧ (∀ depth : Nat,
        grammar.File.run sample.host depth ⟨[], []⟩ "\"a\" 1e400".toList = .fuel)
    ∧ (∀ depth : Nat,
        Parser.run sample.host depth
          ((Parser.new sample.host).load_from_string "\"a\" 1e400".toList) = none) :=
  ⟨fun f hf => grammar.ValueExpression.rule_float ucd merge statement k state f rest hf hrest,
   fun ds hds hvalue =>
     grammar.ValueExpression.rule_of_decimal ucd merge statement k state ds rest hds hvalue hrest,
   fun hs hhs hvalue =>
     grammar.ValueExpression.rule_hex ucd merge statement k state hs rest hhs hvalue hrest,
   rfl, rfl, fun _ => rfl, fun _ => rfl⟩

/-- C9 at the numerals `3.14`, `42` and `0x1A`, each followed by a blank, and at
the numeral `1e400`, on which `std::stod` throws. -/
theorem grammar.ValueExpression.numeric_classification_witness :
    grammar.ValueExpression.rule sample.ucd (fun _ _ => none) (fun _ _ => none) 0 ⟨[], []⟩
        "3.14 ".toList
      = some (.value (ValueType.float ⟨false, 128, 4781507⟩, ⟨[], []⟩) [])
    ∧ grammar.ValueExpression.rule sample.ucd (fun _ _ => none) (fun _ _ => none) 0 ⟨[], []⟩
        "42 ".toList
      = some (.value (ValueType.int32 42, ⟨[], []⟩) [])
    ∧ grammar.ValueExpression.rule sample.ucd (fun _ _ => none) (fun _ _ => none) 0 ⟨[], []⟩
        "0x1A ".toList
      = some (.value (ValueType.int32 26, ⟨[], []⟩) [])
    ∧ grammar.ValueExpression.rule sample.ucd (fun _ _ => none) (fun _ _ => none) 0 ⟨[], []⟩
        "1e400 ".toList
      = some .fuel :=
  have h := grammar.ValueExpression.numeric_classification sample.ucd (fun _ _ => none)
    (fun _ _ => none) 0 ⟨[], []⟩ [' '] (by decide)
  ⟨h.1 ⟨[], ['3'], some ['1', '4'], none⟩ (by decide),
   h.2.1 ['4', '2'] (by decide) (by decide),
   h.2.2.1 ['1', 'A'] (by decide) (by decide),
   h.1 ⟨[], ['1'], none, some ⟨'e', [], ['4', '0', '0']⟩⟩ (by decide)⟩

/-- C10. The claim fails on the code.  The integer rule takes decimal digits
without a sign: before an input that does not continue the numeral, digits
behind a plus or a minus are no integer token, and they match no alternative
of the value position at all, so the statement is a grammar error.  At the
token `-5`: the text `"a" -5` is rejected and `parse()` returns false without
a tree, where the claim has the entry `a` with the integer -5; the float rule
next to it does take the sign, and `"a" -5.0` parses. -/
theorem grammar.IntegerValue.signed_decimal_rejected (ucd : UnicodeData) (merge : grammar.Merge)
    (statement : grammar.Run KeyValues.copy_pair_type) (k : Nat) (state : Parser.State)
    (c : Char) (ds rest : List Char) (hc : c = '+' ∨ c = '-')
    (hds : literal.is_digits ds = true) (hrest : literal.ends_numeral rest = true) :
    grammar.IntegerValue.rule ucd (c :: (ds ++ rest)) = none
    ∧ grammar.ValueExpression.rule ucd merge statement k state (c :: (ds ++ rest)) = none
    ∧ grammar.File.run sample.host 0 ⟨[], []⟩ "\"a\" -5".toList = .error ⟨[], []⟩
    ∧ (Parser.run sample.host 0
          ((Parser.new sample.host).load_from_string "\"a\" -5".toList)).map
          (fun r => (r.1, r.2.get_key_values, r.2.has_error))
        = some (false, none, true)
    ∧ sample.outcome (grammar.File.run sample.host 0 ⟨[], []⟩ "\"a\" -5.0".toList)
        = some ([("a", ValueType.float ⟨true, 129, 2097152⟩)], []) :=
  ⟨(grammar.ValueExpression.rule_signed ucd merge statement k state c ds rest hc hds hrest).1,
   (grammar.ValueExpression.rule_signed ucd merge statement k state c ds rest hc hds hrest).2,
   rfl, rfl, rfl⟩

/-- C10 at the token `-5` followed by the end of the input. -/
theorem grammar.IntegerValue.signed_decimal_rejected_witness :
    grammar.IntegerValue.rule sample.ucd "-5".toList = none
    ∧ grammar.ValueExpression.rule sample.ucd (fun _ _ => none) (fun _ _ => none) 0 ⟨[], []⟩
        "-5".toList
      = none :=
  have h := grammar.IntegerValue.signed_decimal_rejected sample.ucd (fun _ _ => none)
    (fun _ _ => none) 0 ⟨[], []⟩ '-' ['5'] [] (Or.inr rfl) (by decide) (by decide)
  ⟨h.1, h.2.1⟩

/-! ## Conditional expressions -/

section

open grammar condition


theorem condition.layout_char (ucd : UnicodeData) (c : Char)
    (h : (c == ' ' || c == '\t' || c == '\n' || c == '\r') = true) :
    grammar.whitespace_specifier ucd c = true ∧ c ≠ '/' ∧ dsl.xid_continue ucd c = false := by
  simp only [Bool.or_eq_true, beq_iff_eq] at h
  rcases h with ((rfl | rfl) | rfl) | rfl <;> refine ⟨rfl, by decide, rfl⟩

/-- The code points at which a token of an expression starts or which follow an expression. -/
theorem condition.punct_char (ucd : UnicodeData) (c : Char)
    (h : c = '$' ∨ c = '(' ∨ c = '!' ∨ c = ')' ∨ c = ']' ∨ c = '&' ∨ c = '|') :
    grammar.whitespace_specifier ucd c = false ∧ c ≠ '/' ∧ dsl.xid_continue ucd c = false := by
  rcases h with rfl | rfl | rfl | rfl | rfl | rfl | rfl <;> refine ⟨rfl, by decide, rfl⟩

theorem grammar.skip_punct (ucd : UnicodeData) (c : Char) (t : List Char)
    (h : c = '$' ∨ c = '(' ∨ c = '!' ∨ c = ')' ∨ c = ']' ∨ c = '&' ∨ c = '|') :
    grammar.skip ucd (c :: t) = c :: t := by
  obtain ⟨h1, h2, -⟩ := condition.punct_char ucd c h
  simp [grammar.skip, grammar.whitespace, h1, h2]

theorem grammar.skip_layout (ucd : UnicodeData) (ws : List Char) (c : Char) (t : List Char)
    (hws : condition.is_layout ws = true)
    (h : c = '$' ∨ c = '(' ∨ c = '!' ∨ c = ')' ∨ c = ']' ∨ c = '&' ∨ c = '|') :
    grammar.skip ucd (ws ++ c :: t) = c :: t := by
  induction ws with
  | nil => exact grammar.skip_punct ucd c t h
  | cons w ws ih =>
    simp only [condition.is_layout, List.all_cons, Bool.and_eq_true] at hws
    obtain ⟨h1, h2, -⟩ := condition.layout_char ucd w hws.1
    have ih' := ih (by simpa [condition.is_layout] using hws.2)
    simp only [grammar.skip] at ih' ⊢
    simp [grammar.whitespace, h1, h2, ih']



theorem condition.Expr.text_head (e : Expr) :
    ∃ c t, e.text = c :: t ∧ (c = '$' ∨ c = '(' ∨ c = '!') := by
  induction e with
  | name n ws => exact ⟨_, _, rfl, Or.inl rfl⟩
  | paren ws₁ e ws₂ _ => exact ⟨_, _, rfl, Or.inr (Or.inl rfl)⟩
  | not ws e _ => exact ⟨_, _, rfl, Or.inr (Or.inr rfl)⟩
  | and l ws r ihl _ =>
    obtain ⟨c, t, ht, hc⟩ := ihl
    exact ⟨c, t ++ ('&' :: '&' :: (ws ++ r.text)), by simp [Expr.text, ht], hc⟩
  | or l ws r ihl _ =>
    obtain ⟨c, t, ht, hc⟩ := ihl
    exact ⟨c, t ++ ('|' :: '|' :: (ws ++ r.text)), by simp [Expr.text, ht], hc⟩

theorem condition.Expr.and_count_lt (e : Expr) : e.and_count < e.size := by
  induction e with
  | and l ws r ihl _ => simp only [Expr.and_count, Expr.size]; omega
  | _ => simp [Expr.and_count, Expr.size]

theorem condition.Expr.or_count_lt (e : Expr) : e.or_count < e.size := by
  induction e with
  | or l ws r ihl _ => simp only [Expr.or_count, Expr.size]; omega
  | _ => simp [Expr.or_count, Expr.size]

theorem condition.follows_cases (rest : List Char) (h : follows rest = true) :
    ∃ c t, rest = c :: t ∧ (c = ')' ∨ c = ']' ∨ c = '&' ∨ c = '|') := by
  cases rest with
  | nil => simp [follows] at h
  | cons c t =>
    refine ⟨c, t, rfl, ?_⟩
    simpa [follows, or_assoc] using h

theorem condition.follows_and_cases (rest : List Char) (h : follows_and rest = true) :
    ∃ c t, rest = c :: t ∧ (c = ')' ∨ c = ']' ∨ c = '|') := by
  cases rest with
  | nil => simp [follows_and] at h
  | cons c t =>
    refine ⟨c, t, rfl, ?_⟩
    simpa [follows_and, or_assoc] using h

theorem condition.follows_or_cases (rest : List Char) (h : follows_or rest = true) :
    ∃ c t, rest = c :: t ∧ (c = ')' ∨ c = ']') := by
  cases rest with
  | nil => simp [follows_or] at h
  | cons c t =>
    refine ⟨c, t, rfl, ?_⟩
    simpa [follows_or] using h

theorem condition.follows_of_follows_and (rest : List Char) (h : follows_and rest = true) :
    follows rest = true := by
  obtain ⟨c, t, rfl, hc⟩ := follows_and_cases rest h
  rcases hc with rfl | rfl | rfl <;> rfl

theorem condition.follows_and_of_follows_or (rest : List Char) (h : follows_or rest = true) :
    follows_and rest = true := by
  obtain ⟨c, t, rfl, hc⟩ := follows_or_cases rest h
  rcases hc with rfl | rfl <;> rfl

/-- Skipping layout in front of a text that starts with a token or a follower. -/
theorem grammar.skip_layout_text (ucd : UnicodeData) (ws : List Char) (e : Expr)
    (rest : List Char) (hws : is_layout ws = true) :
    grammar.skip ucd (ws ++ (e.text ++ rest)) = e.text ++ rest := by
  obtain ⟨c, t, ht, hc⟩ := e.text_head
  rw [ht, List.cons_append]
  exact grammar.skip_layout ucd ws c _ hws (by tauto)

theorem grammar.skip_layout_follows (ucd : UnicodeData) (ws rest : List Char)
    (hws : is_layout ws = true) (hrest : follows rest = true) :
    grammar.skip ucd (ws ++ rest) = rest := by
  obtain ⟨c, t, rfl, hc⟩ := follows_cases rest hrest
  exact grammar.skip_layout ucd ws c _ hws (by tauto)

theorem grammar.PlainValue.token_identifier (ucd : UnicodeData) (n ws rest : List Char)
    (hn : is_identifier ucd n = true) (hws : is_layout ws = true)
    (hrest : follows rest = true) :
    grammar.PlainValue.token ucd (n ++ (ws ++ rest)) = some (String.mk n, ws ++ rest) := by
  cases n with
  | nil => simp [is_identifier] at hn
  | cons c t =>
    simp only [is_identifier, Bool.and_eq_true, List.all_eq_true] at hn
    have hstop : ∀ a, (ws ++ rest).head? = some a → dsl.xid_continue ucd a = false := by
      intro a ha
      cases ws with
      | nil =>
        obtain ⟨b, u, rfl, hb⟩ := follows_cases rest hrest
        simp only [List.nil_append, List.head?_cons, Option.some.injEq] at ha
        subst ha
        exact (punct_char ucd b (by tauto)).2.2
      | cons w ws' =>
        simp only [List.cons_append, List.head?_cons, Option.some.injEq] at ha
        subst ha
        simp only [is_layout, List.all_cons, Bool.and_eq_true] at hws
        exact (layout_char ucd w hws.1).2.2
    obtain ⟨h1, h2⟩ := takeWhile_dropWhile_stop (dsl.xid_continue ucd) t (ws ++ rest) hn.2 hstop
    simp [grammar.PlainValue.token, hn.1, h1, h2]

theorem grammar.lit_cons (ucd : UnicodeData) (b : Char) (t : List Char) :
    grammar.lit ucd [b] (b :: t) = some (grammar.skip ucd t) := by
  simp [grammar.lit, List.isPrefixOf]

theorem grammar.lit_pair (ucd : UnicodeData) (b : Char) (t : List Char) :
    grammar.lit ucd [b, b] (b :: b :: t) = some (grammar.skip ucd t) := by
  simp [grammar.lit, List.isPrefixOf]

theorem grammar.lit_pair_none (ucd : UnicodeData) (b c : Char) (t : List Char) (h : c ≠ b) :
    grammar.lit ucd [b, b] (c :: t) = none := by
  have : (b == c) = false := by
    simp only [beq_eq_false_iff_ne, ne_eq]
    exact fun hbc => h hbc.symm
  simp [grammar.lit, List.isPrefixOf, this]

/-- The infix callback on operands of either shape. -/
theorem grammar.ConditionalExpression.value_infix_eq (state : Parser.State)
    (lhs rhs : Operand) :
    ConditionalExpression.value_infix state lhs ConditionalType.And rhs
        = (resolve state lhs && resolve state rhs)
    ∧ ConditionalExpression.value_infix state lhs ConditionalType.Or rhs
        = (resolve state lhs || resolve state rhs) := by
  cases lhs with
  | bool l =>
    cases rhs with
    | bool r => cases l <;> cases r <;> exact ⟨rfl, rfl⟩
    | name s =>
      cases l <;> cases h : decide (s ∈ state.conditionals) <;>
        simp [ConditionalExpression.value_infix, resolve, Parser.State.has_condition, h]
  | name s' =>
    cases rhs with
    | bool r =>
      cases r <;> cases h : decide (s' ∈ state.conditionals) <;>
        simp [ConditionalExpression.value_infix, resolve, Parser.State.has_condition, h]
    | name s =>
      cases h : decide (s ∈ state.conditionals) <;> cases h' : decide (s' ∈ state.conditionals) <;>
        simp [ConditionalExpression.value_infix, resolve, Parser.State.has_condition, h, h']

theorem grammar.ConditionalExpression.value_prefix_eq (state : Parser.State)
    (type : ConditionalType) (rhs : Operand) :
    ConditionalExpression.value_prefix state type rhs = !resolve state rhs := by
  cases rhs <;> rfl



theorem grammar.ConditionalExpression.And_of_Not (ucd : UnicodeData)
    (recurse : List Char → Parsed Unit Bool) (state : Parser.State) (K : Nat)
    (input rest : List Char) (v : Bool)
    (h : ConditionalExpression.Not ucd recurse state K input = .value v rest) :
    ConditionalExpression.And ucd recurse state K input
      = ConditionalExpression.And_loop ucd recurse state K K v rest := by
  simp [ConditionalExpression.And, h]

theorem grammar.ConditionalExpression.And_loop_end (ucd : UnicodeData)
    (recurse : List Char → Parsed Unit Bool) (state : Parser.State) (K j : Nat)
    (rest : List Char) (v : Bool) (hrest : follows_and rest = true) :
    ConditionalExpression.And_loop ucd recurse state K (j + 1) v rest = .value v rest := by
  obtain ⟨c, t, rfl, hc⟩ := follows_and_cases rest hrest
  have : c ≠ '&' := by rcases hc with rfl | rfl | rfl <;> decide
  simp [ConditionalExpression.And_loop, grammar.lit_pair_none ucd '&' c t this]

theorem grammar.ConditionalExpression.Or_of_And (ucd : UnicodeData)
    (recurse : List Char → Parsed Unit Bool) (state : Parser.State) (K j : Nat)
    (input rest : List Char) (v : Bool) (hrest : follows_and rest = true)
    (h : ConditionalExpression.And ucd recurse state K input
      = ConditionalExpression.And_loop ucd recurse state K (j + 1) v rest) :
    ConditionalExpression.Or ucd recurse state K input
      = ConditionalExpression.Or_loop ucd recurse state K K v rest := by
  rw [ConditionalExpression.And_loop_end ucd recurse state K j rest v hrest] at h
  simp [ConditionalExpression.Or, h]

theorem grammar.ConditionalExpression.Or_loop_end (ucd : UnicodeData)
    (recurse : List Char → Parsed Unit Bool) (state : Parser.State) (K j : Nat)
    (rest : List Char) (v : Bool) (hrest : follows_or rest = true) :
    ConditionalExpression.Or_loop ucd recurse state K (j + 1) v rest = .value v rest := by
  obtain ⟨c, t, rfl, hc⟩ := follows_or_cases rest hrest
  have : c ≠ '|' := by rcases hc with rfl | rfl <;> decide
  simp [ConditionalExpression.Or_loop, grammar.lit_pair_none ucd '|' c t this]

theorem grammar.ConditionalExpression.parse_of_Or (ucd : UnicodeData) (state : Parser.State)
    (n j : Nat) (input rest : List Char) (v : Bool) (hrest : follows_or rest = true)
    (h : ConditionalExpression.Or ucd (ConditionalExpression.parse ucd state n) state (n + 1) input
      = ConditionalExpression.Or_loop ucd (ConditionalExpression.parse ucd state n) state (n + 1)
          (j + 1) v rest) :
    ConditionalExpression.parse ucd state (n + 1) input = .value v rest := by
  rw [ConditionalExpression.Or_loop_end ucd _ state (n + 1) j rest v hrest] at h
  simp [ConditionalExpression.parse, h, ConditionalExpression.value_bool]

/-- From the `Not` level upwards: what holds for `Not` carries over to `And`,
`Or` and the production. -/
theorem condition.Expr.parses_of_Not (ucd : UnicodeData) (state : Parser.State) (e : Expr)
    (hand : e.and_count = 0) (hor : e.or_count = 0) (hsize : 1 ≤ e.size)
    (h : ∀ n K rest, e.size ≤ n → e.size ≤ K → follows rest = true →
      ConditionalExpression.Not ucd (ConditionalExpression.parse ucd state n) state K
          (e.text ++ rest)
        = .value (e.denote state.conditionals) rest) :
    e.parses ucd state := by
  have hA : ∀ n K rest, e.size ≤ n → e.size ≤ K → follows rest = true →
      ConditionalExpression.And ucd (ConditionalExpression.parse ucd state n) state K
          (e.text ++ rest)
        = ConditionalExpression.And_loop ucd (ConditionalExpression.parse ucd state n) state K
            (K - e.and_count) (e.denote state.conditionals) rest := by
    intro n K rest hn hK hrest
    rw [hand, Nat.sub_zero]
    exact ConditionalExpression.And_of_Not ucd _ state K _ rest _ (h n K rest hn hK hrest)
  have hO : ∀ n K rest, e.size ≤ n → e.size ≤ K → follows_and rest = true →
      ConditionalExpression.Or ucd (ConditionalExpression.parse ucd state n) state K
          (e.text ++ rest)
        = ConditionalExpression.Or_loop ucd (ConditionalExpression.parse ucd state n) state K
            (K - e.or_count) (e.denote state.conditionals) rest := by
    intro n K rest hn hK hrest
    rw [hor, Nat.sub_zero]
    obtain ⟨j, hj⟩ : ∃ j, K - e.and_count = j + 1 := ⟨K - e.and_count - 1, by omega⟩
    have := hA n K rest hn hK (follows_of_follows_and rest hrest)
    rw [hj] at this
    exact ConditionalExpression.Or_of_And ucd _ state K j _ rest _ hrest this
  refine ⟨fun _ => h, fun _ => hA, hO, ?_⟩
  intro n rest hn hrest
  obtain ⟨j, hj⟩ : ∃ j, n + 1 - e.or_count = j + 1 := ⟨n + 1 - e.or_count - 1, by omega⟩
  have := hO n (n + 1) rest hn (by omega) (follows_and_of_follows_or rest hrest)
  rw [hj] at this
  exact ConditionalExpression.parse_of_Or ucd state n j _ rest _ hrest this



theorem condition.Expr.parses_name (ucd : UnicodeData) (state : Parser.State)
    (n ws : List Char) (hn : is_identifier ucd n = true) (hws : is_layout ws = true) :
    (Expr.name n ws).parses ucd state := by
  apply Expr.parses_of_Not ucd state (Expr.name n ws) rfl rfl (by simp [Expr.size])
  intro m K rest _ hK hrest
  obtain ⟨K', rfl⟩ : ∃ K', K = K' + 1 := ⟨K - 1, by simp only [Expr.size] at hK; omega⟩
  have hne : ('$' : Char) ≠ '(' := by decide
  simp only [Expr.text, List.cons_append, List.append_assoc, ConditionalExpression.Not,
    grammar.lit_singleton_none ucd '!' '$' _ (by decide), ConditionalExpression.atom,
    if_neg hne, if_true,
    grammar.PlainValue.token_identifier ucd n ws rest hn hws hrest,
    grammar.skip_layout_follows ucd ws rest hws hrest, Expr.denote,
    ConditionalExpression.value_name, Parser.State.has_condition]

theorem condition.Expr.parses_paren (ucd : UnicodeData) (state : Parser.State)
    (ws₁ ws₂ : List Char) (e : Expr) (hws₁ : is_layout ws₁ = true) (hws₂ : is_layout ws₂ = true)
    (ih : e.parses ucd state) :
    (Expr.paren ws₁ e ws₂).parses ucd state := by
  apply Expr.parses_of_Not ucd state (Expr.paren ws₁ e ws₂) rfl rfl (by simp [Expr.size])
  intro m K rest hm hK hrest
  simp only [Expr.size] at hm hK
  obtain ⟨K', rfl⟩ : ∃ K', K = K' + 1 := ⟨K - 1, by omega⟩
  obtain ⟨m', rfl⟩ : ∃ m', m = m' + 1 := ⟨m - 1, by omega⟩
  simp only [Expr.text, List.cons_append, List.append_assoc, ConditionalExpression.Not,
    grammar.lit_singleton_none ucd '!' '(' _ (by decide), ConditionalExpression.atom,
    if_true, grammar.skip_layout_text ucd ws₁ e _ hws₁,
    ih.2.2.2 m' (')' :: (ws₂ ++ rest)) (by omega) rfl,
    grammar.lit_cons, grammar.skip_layout_follows ucd ws₂ rest hws₂ hrest,
    ConditionalExpression.value_bool, Expr.denote]

theorem condition.Expr.parses_not (ucd : UnicodeData) (state : Parser.State)
    (ws : List Char) (e : Expr) (hws : is_layout ws = true) (hlevel : 2 ≤ e.level)
    (ih : e.parses ucd state) :
    (Expr.not ws e).parses ucd state := by
  apply Expr.parses_of_Not ucd state (Expr.not ws e) rfl rfl (by simp [Expr.size])
  intro m K rest hm hK hrest
  simp only [Expr.size] at hm hK
  obtain ⟨K', rfl⟩ : ∃ K', K = K' + 1 := ⟨K - 1, by omega⟩
  simp only [Expr.text, List.cons_append, List.append_assoc, ConditionalExpression.Not,
    grammar.lit_cons, grammar.skip_layout_text ucd ws e _ hws,
    ih.1 hlevel m K' rest (by omega) (by omega) hrest,
    ConditionalExpression.value_prefix, Expr.denote]

theorem condition.Expr.parses_and (ucd : UnicodeData) (state : Parser.State)
    (ws : List Char) (l r : Expr) (hws : is_layout ws = true) (hl : 1 ≤ l.level)
    (hr : 2 ≤ r.level) (ihl : l.parses ucd state) (ihr : r.parses ucd state) :
    (Expr.and l ws r).parses ucd state := by
  have hA : ∀ n K rest, (Expr.and l ws r).size ≤ n → (Expr.and l ws r).size ≤ K →
      follows rest = true →
      ConditionalExpression.And ucd (ConditionalExpression.parse ucd state n) state K
          ((Expr.and l ws r).text ++ rest)
        = ConditionalExpression.And_loop ucd (ConditionalExpression.parse ucd state n) state K
            (K - (Expr.and l ws r).and_count) ((Expr.and l ws r).denote state.conditionals)
            rest := by
    intro n K rest hn hK hrest
    simp only [Expr.size] at hn hK
    have hlt := l.and_count_lt
    obtain ⟨j, hj⟩ : ∃ j, K - l.and_count = j + 1 := ⟨K - l.and_count - 1, by omega⟩
    have hj' : K - (Expr.and l ws r).and_count = j := by
      simp only [Expr.and_count]; omega
    simp only [Expr.text, List.append_assoc, List.cons_append]
    rw [ihl.2.1 hl n K ('&' :: '&' :: (ws ++ (r.text ++ rest))) (by omega) (by omega) rfl, hj,
      hj']
    simp only [ConditionalExpression.And_loop, grammar.lit_pair,
      grammar.skip_layout_text ucd ws r _ hws, ihr.1 hr n K rest (by omega) (by omega) hrest,
      (ConditionalExpression.value_infix_eq state _ _).1, resolve, Expr.denote]
  have hO : ∀ n K rest, (Expr.and l ws r).size ≤ n → (Expr.and l ws r).size ≤ K →
      follows_and rest = true →
      ConditionalExpression.Or ucd (ConditionalExpression.parse ucd state n) state K
          ((Expr.and l ws r).text ++ rest)
        = ConditionalExpression.Or_loop ucd (ConditionalExpression.parse ucd state n) state K
            (K - (Expr.and l ws r).or_count) ((Expr.and l ws r).denote state.conditionals)
            rest := by
    intro n K rest hn hK hrest
    have hlt := (Expr.and l ws r).and_count_lt
    obtain ⟨j, hj⟩ : ∃ j, K - (Expr.and l ws r).and_count = j + 1 :=
      ⟨K - (Expr.and l ws r).and_count - 1, by omega⟩
    have := hA n K rest hn hK (follows_of_follows_and rest hrest)
    rw [hj] at this
    rw [show (Expr.and l ws r).or_count = 0 from rfl, Nat.sub_zero]
    exact ConditionalExpression.Or_of_And ucd _ state K j _ rest _ hrest this
  refine ⟨fun h => absurd h (by simp [Expr.level]), fun _ => hA, hO, ?_⟩
  intro n rest hn hrest
  have := hO n (n + 1) rest hn (by omega) (follows_and_of_follows_or rest hrest)
  rw [show (Expr.and l ws r).or_count = 0 from rfl, Nat.sub_zero] at this
  exact ConditionalExpression.parse_of_Or ucd state n n _ rest _ hrest this

theorem condition.Expr.parses_or (ucd : UnicodeData) (state : Parser.State)
    (ws : List Char) (l r : Expr) (hws : is_layout ws = true) (hr : 1 ≤ r.level)
    (ihl : l.parses ucd state) (ihr : r.parses ucd state) :
    (Expr.or l ws r).parses ucd state := by
  have hO : ∀ n K rest, (Expr.or l ws r).size ≤ n → (Expr.or l ws r).size ≤ K →
      follows_and rest = true →
      ConditionalExpression.Or ucd (ConditionalExpression.parse ucd state n) state K
          ((Expr.or l ws r).text ++ rest)
        = ConditionalExpression.Or_loop ucd (ConditionalExpression.parse ucd state n) state K
            (K - (Expr.or l ws r).or_count) ((Expr.or l ws r).denote state.conditionals)
            rest := by
    intro n K rest hn hK hrest
    simp only [Expr.size] at hn hK
    have hlt := l.or_count_lt
    have hlt' := r.and_count_lt
    obtain ⟨j, hj⟩ : ∃ j, K - l.or_count = j + 1 := ⟨K - l.or_count - 1, by omega⟩
    obtain ⟨i, hi⟩ : ∃ i, K - r.and_count = i + 1 := ⟨K - r.and_count - 1, by omega⟩
    have hj' : K - (Expr.or l ws r).or_count = j := by
      simp only [Expr.or_count]; omega
    simp only [Expr.text, List.append_assoc, List.cons_append]
    rw [ihl.2.2.1 n K ('|' :: '|' :: (ws ++ (r.text ++ rest))) (by omega) (by omega) rfl, hj,
      hj']
    simp only [ConditionalExpression.Or_loop, grammar.lit_pair,
      grammar.skip_layout_text ucd ws r _ hws,
      ihr.2.1 hr n K rest (by omega) (by omega) (follows_of_follows_and rest hrest), hi,
      ConditionalExpression.And_loop_end ucd _ state K i rest _ hrest,
      (ConditionalExpression.value_infix_eq state _ _).2, resolve, Expr.denote]
  refine ⟨fun h => absurd h (by simp [Expr.level]), fun h => absurd h (by simp [Expr.level]),
    hO, ?_⟩
  intro n rest hn hrest
  have hlt := (Expr.or l ws r).or_count_lt
  obtain ⟨j, hj⟩ : ∃ j, n + 1 - (Expr.or l ws r).or_count = j + 1 :=
    ⟨n + 1 - (Expr.or l ws r).or_count - 1, by omega⟩
  have := hO n (n + 1) rest hn (by omega) (follows_and_of_follows_or rest hrest)
  rw [hj] at this
  exact ConditionalExpression.parse_of_Or ucd state n j _ rest _ hrest this

theorem condition.Expr.parses_of_well_formed (ucd : UnicodeData) (state : Parser.State)
    (e : Expr) (he : e.well_formed ucd = true) : e.parses ucd state := by
  induction e with
  | name n ws =>
    simp only [Expr.well_formed, Bool.and_eq_true] at he
    exact Expr.parses_name ucd state n ws he.1 he.2
  | paren ws₁ e ws₂ ih =>
    simp only [Expr.well_formed, Bool.and_eq_true] at he
    exact Expr.parses_paren ucd state ws₁ ws₂ e he.1.1 he.2 (ih he.1.2)
  | not ws e ih =>
    simp only [Expr.well_formed, Bool.and_eq_true, decide_eq_true_eq] at he
    exact Expr.parses_not ucd state ws e he.1.1 he.2 (ih he.1.2)
  | and l ws r ihl ihr =>
    simp only [Expr.well_formed, Bool.and_eq_true, decide_eq_true_eq] at he
    exact Expr.parses_and ucd state ws l r he.1.1.1.2 he.1.2 he.2 (ihl he.1.1.1.1)
      (ihr he.1.1.2)
  | or l ws r ihl ihr =>
    simp only [Expr.well_formed, Bool.and_eq_true, decide_eq_true_eq] at he
    exact Expr.parses_or ucd state ws l r he.1.1.2 he.2 (ihl he.1.1.1) (ihr he.1.2)

theorem condition.Expr.size_le_length (e : Expr) : e.size ≤ e.text.length := by
  induction e with
  | name n ws => simp [Expr.size, Expr.text]
  | paren ws₁ e ws₂ ih => simp only [Expr.size, Expr.text, List.length_cons, List.length_append]; omega
  | not ws e ih => simp only [Expr.size, Expr.text, List.length_cons, List.length_append]; omega
  | and l ws r ihl ihr =>
    simp only [Expr.size, Expr.text, List.length_cons, List.length_append]; omega
  | or l ws r ihl ihr =>
    simp only [Expr.size, Expr.text, List.length_cons, List.length_append]; omega

/-- The attribute `[ e ]` on the text of a well-formed expression. -/
theorem grammar.ConditionalAttribute.rule_text (ucd : UnicodeData) (state : Parser.State)
    (e : Expr) (ws rest : List Char) (he : e.well_formed ucd = true)
    (hws : is_layout ws = true) :
    ConditionalAttribute.rule ucd state ('[' :: (ws ++ (e.text ++ ']' :: rest)))
      = some (.value (e.denote state.conditionals) (grammar.skip ucd rest)) := by
  have hparse := (Expr.parses_of_well_formed ucd state e he).2.2.2
    (e.text ++ ']' :: rest).length (']' :: rest)
    (by have := e.size_le_length; simp only [List.length_append]; omega) rfl
  simp only [ConditionalAttribute.rule, grammar.lit_cons, grammar.skip_layout_text ucd ws e _ hws,
    ConditionalExpression.rule, hparse]

/-- C2. For every well-formed conditional expression and every condition set,
the attribute `[ e ]` evaluates to the Boolean denotation of `e`: a name is
true when it is a member of the set, `!` negates, `&&` is conjunction and `||`
disjunction, `!` binds tighter than `&&` and `&&` tighter than `||`, both
associate to the left, parentheses override.  The operator callbacks compute
the same for every mix of operand shapes, a name or a `bool` on either
side. -/
theorem grammar.ConditionalExpression.evaluates (ucd : UnicodeData) (state : Parser.State)
    (e : Expr) (ws rest : List Char) (he : e.well_formed ucd = true)
    (hws : is_layout ws = true) :
    ConditionalAttribute.rule ucd state ('[' :: (ws ++ (e.text ++ ']' :: rest)))
        = some (.value (e.denote state.conditionals) (grammar.skip ucd rest))
    ∧ (∀ name : String,
        ConditionalExpression.value_name state name = decide (name ∈ state.conditionals))
    ∧ (∀ lhs rhs : Operand,
        ConditionalExpression.value_infix state lhs ConditionalType.And rhs
          = (resolve state lhs && resolve state rhs))
    ∧ (∀ lhs rhs : Operand,
        ConditionalExpression.value_infix state lhs ConditionalType.Or rhs
          = (resolve state lhs || resolve state rhs))
    ∧ (∀ rhs : Operand,
        ConditionalExpression.value_prefix state ConditionalType.Not rhs
          = !resolve state rhs) :=
  ⟨grammar.ConditionalAttribute.rule_text ucd state e ws rest he hws, fun _ => rfl,
    fun lhs rhs => (ConditionalExpression.value_infix_eq state lhs rhs).1,
    fun lhs rhs => (ConditionalExpression.value_infix_eq state lhs rhs).2,
    fun rhs => ConditionalExpression.value_prefix_eq state _ rhs⟩

/-- C2 at `[ $A || !$B && ($C || $A) ]` with only `A` active, and at
`[$B||$A&&$B]`, where `&&` is applied before `||`. -/
theorem grammar.ConditionalExpression.evaluates_witness :
    ConditionalAttribute.rule sample.ucd ⟨["A"], []⟩ "[ $A || !$B && ($C || $A) ] x".toList
        = some (.value true ['x'])
    ∧ ConditionalAttribute.rule sample.ucd ⟨["A"], []⟩ "[$B||$A&&$B]".toList
        = some (.value false []) :=
  ⟨(grammar.ConditionalExpression.evaluates sample.ucd ⟨["A"], []⟩
      (.or (.name ['A'] [' ']) [' ']
        (.and (.not [] (.name ['B'] [' '])) [' ']
          (.paren [] (.or (.name ['C'] [' ']) [' '] (.name ['A'] [])) [' '])))
      [' '] [' ', 'x'] (by decide) (by decide)).1,
   (grammar.ConditionalExpression.evaluates sample.ucd ⟨["A"], []⟩
      (.or (.name ['B'] []) [] (.and (.name ['A'] []) [] (.name ['B'] [])))
      [] [] (by decide) (by decide)).1⟩

end

/-! ## Items of a list -/

theorem grammar.IncludeStatement.include_head (ucd : UnicodeData) (input : List Char)
    (r : Parsed Unit grammar.EmplaceFile) (h : grammar.IncludeStatement.rule ucd input = some r) :
    ∃ t, input = '#' :: t := by
  cases input with
  | nil => simp [grammar.IncludeStatement.rule, grammar.lit, List.isPrefixOf] at h
  | cons c t =>
    by_cases hc : c = '#'
    · exact ⟨t, by rw [hc]⟩
    · have hb : ('#' == c) = false := by
        simp only [beq_eq_false_iff_ne, ne_eq]
        exact fun hh => hc hh.symm
      simp [grammar.IncludeStatement.rule, grammar.lit, List.isPrefixOf, hb] at h

theorem grammar.KeyExpression.rule_hash (ucd : UnicodeData) (t : List Char) :
    grammar.KeyExpression.rule ucd ('#' :: t) = none := by
  have h1 : dsl.xid_start_underscore ucd '#' = false := rfl
  have h2 : ('#' : Char) ≠ '"' := by decide
  simp [grammar.KeyExpression.rule, grammar.PlainValue.rule, grammar.PlainValue.token,
    grammar.StringValue.rule, h1, h2]

/-! ## Lists of statements -/


theorem grammar.KeyExpression.key_head (ucd : UnicodeData) (input : List Char)
    (r : Parsed Unit String) (h : grammar.KeyExpression.rule ucd input = some r) :
    ∃ c t, input = c :: t ∧ (dsl.xid_start_underscore ucd c = true ∨ c = '"') := by
  cases input with
  | nil => simp [grammar.KeyExpression.rule, grammar.PlainValue.rule, grammar.PlainValue.token,
      grammar.StringValue.rule] at h
  | cons c t =>
    refine ⟨c, t, rfl, ?_⟩
    by_cases h1 : dsl.xid_start_underscore ucd c = true
    · exact Or.inl h1
    · by_cases h2 : c = '"'
      · exact Or.inr h2
      · simp [grammar.KeyExpression.rule, grammar.PlainValue.rule, grammar.PlainValue.token,
          grammar.StringValue.rule, h1, h2] at h

theorem grammar.KeyValueStatement.statement_head (ucd : UnicodeData) (merge : grammar.Merge) (n : Nat)
    (state : Parser.State) (input : List Char)
    (r : Parsed Parser.State (KeyValues.copy_pair_type × Parser.State))
    (h : grammar.KeyValueStatement.rule ucd merge n state input = some r)
    (hr : r ≠ .fuel) :
    ∃ c t, input = c :: t ∧ (dsl.xid_start_underscore ucd c = true ∨ c = '"') := by
  cases n with
  | zero =>
    simp only [grammar.KeyValueStatement.rule, Option.some.injEq] at h
    exact absurd h.symm hr
  | succ n =>
    cases hkey : grammar.KeyExpression.rule ucd input with
    | none => simp [grammar.KeyValueStatement.rule, hkey] at h
    | some k => exact grammar.KeyExpression.key_head ucd input k hkey

/-- Where a key can start, no include starts and no list ends. -/
theorem grammar.key_head_not_item_end (ucd : UnicodeData) (c : Char) (t : List Char)
    (hc : dsl.xid_start_underscore ucd c = true ∨ c = '"') :
    grammar.IncludeStatement.rule ucd (c :: t) = none
    ∧ grammar.eof (c :: t) = none
    ∧ grammar.lit ucd [Char.ofNat 125] (c :: t) = none := by
  have h1 : c ≠ '#' := by
    rintro rfl
    rcases hc with h | h
    · exact absurd h (by simp [dsl.xid_start_underscore, dsl.ascii_alpha])
    · exact absurd h (by decide)
  have h2 : c ≠ Char.ofNat 125 := by
    rintro rfl
    rcases hc with h | h
    · exact absurd h (by simp [dsl.xid_start_underscore, dsl.ascii_alpha])
    · exact absurd h (by decide)
  have hb : ('#' == c) = false := by
    simp only [beq_eq_false_iff_ne, ne_eq]
    exact fun hh => h1 hh.symm
  refine ⟨?_, rfl, grammar.lit_singleton_none ucd _ c t h2⟩
  simp [grammar.IncludeStatement.rule, grammar.lit, List.isPrefixOf, hb]



theorem grammar.File.item_of_statement (ucd : UnicodeData) (merge : grammar.Merge) (n : Nat)
    (values : KeyValues) (state state' : Parser.State) (input rest : List Char)
    (kv : KeyValues.copy_pair_type)
    (h : grammar.KeyValueStatement.rule ucd merge n state input = some (.value (kv, state') rest)) :
    grammar.File.item ucd merge (grammar.KeyValueStatement.rule ucd merge n) values state input
        = some (.value (grammar.ListValue.value_pair values kv, state') rest)
    ∧ grammar.eof input = none := by
  obtain ⟨c, t, rfl, hc⟩ := grammar.KeyValueStatement.statement_head ucd merge n state input _ h
    (by simp)
  obtain ⟨h1, h2, -⟩ := grammar.key_head_not_item_end ucd c t hc
  refine ⟨?_, h2⟩
  simp only [grammar.File.item, h1, h]

theorem grammar.ListValue.object_item_of_statement (ucd : UnicodeData) (merge : grammar.Merge) (n : Nat)
    (values : KeyValues) (state state' : Parser.State) (input rest : List Char)
    (kv : KeyValues.copy_pair_type)
    (h : grammar.KeyValueStatement.rule ucd merge n state input = some (.value (kv, state') rest)) :
    grammar.ListValue.item ucd merge (grammar.KeyValueStatement.rule ucd merge n) values state
        input
        = some (.value (grammar.ListValue.value_pair values kv, state') rest)
    ∧ grammar.lit ucd [Char.ofNat 125] input = none := by
  obtain ⟨c, t, rfl, hc⟩ := grammar.KeyValueStatement.statement_head ucd merge n state input _ h
    (by simp)
  obtain ⟨-, -, h3⟩ := grammar.key_head_not_item_end ucd c t hc
  refine ⟨?_, h3⟩
  simp only [grammar.ListValue.item, h]

/-- The item list over a run of statements: the pairs are folded into the tree
one by one and the list goes on after them. -/
theorem grammar.list_items_statements (terminator : List Char → Option (List Char))
    (item : KeyValues → grammar.Run KeyValues) (statement : grammar.Run KeyValues.copy_pair_type)
    (hitem : ∀ values state state' input rest kv,
      statement state input = some (.value (kv, state') rest) →
      item values state input = some (.value (grammar.ListValue.value_pair values kv, state') rest)
      ∧ terminator input = none)
    (state state' : Parser.State) (input rest : List Char)
    (kvs : List KeyValues.copy_pair_type)
    (hrun : grammar.Statements statement state input kvs state' rest) (k : Nat)
    (values : KeyValues) :
    grammar.list_items terminator item (k + kvs.length) values state input
      = grammar.list_items terminator item k (kvs.foldl grammar.ListValue.value_pair values) state'
          rest := by
  induction hrun generalizing values with
  | nil state input => rfl
  | cons hstatement _ _ ih =>
    obtain ⟨h1, h2⟩ := hitem values _ _ _ _ _ hstatement
    rw [List.length_cons, ← Nat.add_assoc, grammar.list_items]
    simp only [h1, h2, List.foldl_cons]
    exact ih _

theorem grammar.Statements.length_le {statement : grammar.Run KeyValues.copy_pair_type}
    {state state' : Parser.State} {input rest : List Char} {kvs : List KeyValues.copy_pair_type}
    (hrun : grammar.Statements statement state input kvs state' rest) :
    kvs.length + rest.length ≤ input.length := by
  induction hrun with
  | nil state input => simp
  | cons _ hconsumed _ ih => simp only [List.length_cons]; omega

/-- A list that is a run of statements up to its terminator: the fold of the
pairs from the empty tree. -/
theorem grammar.list_statements (terminator : List Char → Option (List Char))
    (item : KeyValues → grammar.Run KeyValues) (statement : grammar.Run KeyValues.copy_pair_type)
    (hitem : ∀ values state state' input rest kv,
      statement state input = some (.value (kv, state') rest) →
      item values state input = some (.value (grammar.ListValue.value_pair values kv, state') rest)
      ∧ terminator input = none)
    (state state' : Parser.State) (input rest rest' : List Char)
    (kvs : List KeyValues.copy_pair_type) (hne : kvs ≠ [])
    (hrun : grammar.Statements statement state input kvs state' rest)
    (hend : terminator rest = some rest') (k : Nat) (hk : kvs.length ≤ k) :
    grammar.list terminator item k state input
      = .value (kvs.foldl grammar.ListValue.value_pair [], state') rest' := by
  cases hrun with
  | nil => exact absurd rfl hne
  | @cons _ state₁ _ _ rest₁ _ kv kvs' hstatement _ hrest =>
    obtain ⟨h1, -⟩ := hitem [] _ _ _ _ _ hstatement
    simp only [List.length_cons] at hk
    obtain ⟨j, rfl⟩ : ∃ j, k = (j + 1) + kvs'.length := ⟨k - kvs'.length - 1, by omega⟩
    rw [grammar.list]
    simp only [h1]
    rw [grammar.list_items_statements terminator item statement hitem _ _ _ _ kvs' hrest (j + 1),
      grammar.list_items]
    simp only [hend, List.foldl_cons]



theorem grammar.whitespace_length_le (ucd : UnicodeData) (comment : Bool) (input : List Char) :
    (grammar.whitespace ucd comment input).length ≤ input.length := by
  induction input generalizing comment with
  | nil => cases comment <;> simp [grammar.whitespace]
  | cons c cs ih =>
    cases comment with
    | true =>
      simp only [grammar.whitespace]
      split
      · exact Nat.le_succ_of_le (ih false)
      · exact Nat.le_succ_of_le (ih true)
    | false =>
      simp only [grammar.whitespace]
      split
      · exact Nat.le_succ_of_le (ih true)
      · split
        · exact Nat.le_succ_of_le (ih false)
        · exact Nat.le_refl _

theorem grammar.skip_length_le (ucd : UnicodeData) (input : List Char) :
    (grammar.skip ucd input).length ≤ input.length :=
  grammar.whitespace_length_le ucd false input

theorem grammar.StringValue.body_length_lt (ucd : UnicodeData) (n : Nat) :
    ∀ (input s rest : List Char), input.length ≤ n →
      grammar.StringValue.body ucd input = some (s, rest) → rest.length < input.length := by
  induction n with
  | zero =>
    intro input s rest hn h
    cases input with
    | nil => simp [grammar.StringValue.body] at h
    | cons c cs => simp at hn
  | succ n ih =>
    intro input s rest hn h
    cases input with
    | nil => simp [grammar.StringValue.body] at h
    | cons c cs =>
      simp only [List.length_cons, Nat.add_le_add_iff_right] at hn
      unfold grammar.StringValue.body at h
      by_cases h1 : c = '"'
      · simp only [if_pos h1, Option.some.injEq, Prod.mk.injEq] at h
        rw [← h.2]
        simp
      · rw [if_neg h1] at h
        by_cases h2 : c = '\\'
        · rw [if_pos h2] at h
          cases cs with
          | nil => simp at h
          | cons e cs' =>
            simp only at h
            cases he : grammar.StringValue.escaped_symbols e with
            | none => simp [he] at h
            | some d =>
              cases hb : grammar.StringValue.body ucd cs' with
              | none => simp [he, hb] at h
              | some r =>
                simp only [he, hb, Option.map_some', Option.some.injEq, Prod.mk.injEq] at h
                have := ih cs' r.1 r.2 (by simp only [List.length_cons] at hn; omega) hb
                rw [← h.2]
                simp only [List.length_cons]
                omega
        · rw [if_neg h2] at h
          by_cases h3 : dsl.unicode_control ucd c = true
          · simp [h3] at h
          · rw [if_neg h3] at h
            cases hb : grammar.StringValue.body ucd cs with
            | none => simp [hb] at h
            | some r =>
              simp only [hb, Option.map_some', Option.some.injEq, Prod.mk.injEq] at h
              have := ih cs r.1 r.2 hn hb
              rw [← h.2]
              simp only [List.length_cons]
              omega

theorem grammar.StringValue.string_consumes (ucd : UnicodeData) (input rest : List Char)
    (s : String) (h : grammar.StringValue.rule ucd input = some (.value s rest)) :
    rest.length < input.length := by
  cases input with
  | nil => simp [grammar.StringValue.rule] at h
  | cons c cs =>
    unfold grammar.StringValue.rule at h
    by_cases h1 : c = '"'
    · simp only [if_pos h1] at h
      cases hb : grammar.StringValue.body ucd cs with
      | none => simp [hb] at h
      | some r =>
        obtain ⟨body, rest2⟩ := r
        simp only [hb, Option.some.injEq, Parsed.value.injEq] at h
        have h1 := grammar.StringValue.body_length_lt ucd cs.length cs body rest2 (Nat.le_refl _) hb
        have h2 := grammar.skip_length_le ucd rest2
        rw [← h.2]
        simp only [List.length_cons]
        omega
    · simp [h1] at h

theorem grammar.lit_length_le (ucd : UnicodeData) (s input rest : List Char)
    (h : grammar.lit ucd s input = some rest) : rest.length + s.length ≤ input.length := by
  unfold grammar.lit at h
  by_cases hp : s.isPrefixOf input = true
  · simp only [if_pos hp, Option.some.injEq] at h
    have h1 := grammar.skip_length_le ucd (input.drop s.length)
    have h2 : s.length ≤ input.length := (List.isPrefixOf_iff_prefix.1 hp).length_le
    rw [← h]
    simp only [List.length_drop] at h1
    omega
  · simp [hp] at h

theorem grammar.IncludeStatement.include_consumes (ucd : UnicodeData) (input rest : List Char)
    (file : grammar.EmplaceFile)
    (h : grammar.IncludeStatement.rule ucd input = some (.value file rest)) :
    rest.length < input.length := by
  unfold grammar.IncludeStatement.rule at h
  cases hlit : (grammar.lit ucd ['#', 'i', 'n', 'c', 'l', 'u', 'd', 'e'] input).orElse
      (fun _ => grammar.lit ucd ['#', 'b', 'a', 's', 'e'] input) with
  | none =>
    have hlit' : (grammar.lit ucd "#include".toList input).orElse
        (fun _ => grammar.lit ucd "#base".toList input) = none := hlit
    rw [hlit'] at h
    simp at h
  | some r1 =>
    have hr1 : r1.length ≤ input.length := by
      cases h1 : grammar.lit ucd ['#', 'i', 'n', 'c', 'l', 'u', 'd', 'e'] input with
      | some r =>
        simp only [h1, Option.orElse, Option.some.injEq] at hlit
        have := grammar.lit_length_le ucd _ input r h1
        rw [← hlit]
        omega
      | none =>
        simp only [h1, Option.orElse] at hlit
        have := grammar.lit_length_le ucd _ input r1 hlit
        omega
    have hlit' : (grammar.lit ucd "#include".toList input).orElse
        (fun _ => grammar.lit ucd "#base".toList input) = some r1 := hlit
    rw [hlit'] at h
    simp only at h
    cases hs : grammar.StringValue.rule ucd r1 with
    | none => simp [hs] at h
    | some r =>
      cases r with
      | value path rest' =>
        simp only [hs, Option.some.injEq, Parsed.value.injEq] at h
        have := grammar.StringValue.string_consumes ucd r1 rest' path hs
        rw [← h.2]
        omega
      | error e => simp [hs] at h
      | fuel => simp [hs] at h



theorem grammar.list_eq_list_items (terminator : List Char → Option (List Char))
    (item : KeyValues → grammar.Run KeyValues) (k : Nat) (state : Parser.State)
    (input : List Char) (h : terminator input = none) :
    grammar.list terminator item k state input
      = grammar.list_items terminator item (k + 1) [] state input := by
  rw [grammar.list, grammar.list_items]
  simp only [h]

/-- The production `File` on a run of statements up to the end of the input. -/
theorem grammar.File.file_of_statements (ucd : UnicodeData) (merge : grammar.Merge)
    (state state' : Parser.State) (input : List Char) (kvs : List KeyValues.copy_pair_type)
    (hne : kvs ≠ [])
    (hrun : grammar.Statements (grammar.KeyValueStatement.rule ucd merge (input.length + 1)) state
      (grammar.skip ucd input) kvs state' []) :
    grammar.File.rule ucd merge state input
      = .value (kvs.foldl grammar.ListValue.value_pair [], state') [] := by
  have hlen := hrun.length_le
  have hskip := grammar.skip_length_le ucd input
  exact grammar.list_statements grammar.eof _ _
    (fun values state state' input rest kv h =>
      grammar.File.item_of_statement ucd merge _ values state state' input rest kv h)
    state state' _ [] [] kvs hne hrun rfl _ (by omega)

/-- The production `ListValue` on a run of statements between the braces. -/
theorem grammar.ListValue.object_of_statements (ucd : UnicodeData) (merge : grammar.Merge) (n k : Nat)
    (state state' : Parser.State) (input rest : List Char)
    (kvs : List KeyValues.copy_pair_type) (hne : kvs ≠ []) (hk : kvs.length ≤ k)
    (hrun : grammar.Statements (grammar.KeyValueStatement.rule ucd merge n) state
      (grammar.skip ucd input) kvs state' (Char.ofNat 125 :: rest)) :
    grammar.ListValue.rule ucd merge (grammar.KeyValueStatement.rule ucd merge n) k state
        (Char.ofNat 123 :: input)
      = some (.value (kvs.foldl grammar.ListValue.value_pair [], state') (grammar.skip ucd rest)) := by
  rw [grammar.ListValue.rule]
  simp only [grammar.lit_cons]
  rw [grammar.list_statements (grammar.lit ucd [Char.ofNat 125]) _ _
    (fun values state state' input rest kv h =>
      grammar.ListValue.object_item_of_statement ucd merge _ values state state' input rest kv h)
    state state' _ _ (grammar.skip ucd rest) kvs hne hrun (grammar.lit_cons ucd _ rest) k hk]

/-- The production `File` on a run of statements, an include, and a run of
statements up to the end of the input. -/
theorem grammar.File.file_of_statements_include (ucd : UnicodeData) (merge : grammar.Merge)
    (state state₁ state₃ : Parser.State) (input input₁ input₂ : List Char)
    (kvs₁ kvs₂ : List KeyValues.copy_pair_type) (file : grammar.EmplaceFile)
    (values₂ : KeyValues)
    (hrun₁ : grammar.Statements (grammar.KeyValueStatement.rule ucd merge (input.length + 1))
      state (grammar.skip ucd input) kvs₁ state₁ input₁)
    (hrule : grammar.IncludeStatement.rule ucd input₁ = some (.value file input₂))
    (hstep : grammar.ListValue.value_merge merge
      (kvs₁.foldl grammar.ListValue.value_pair []) file = some values₂)
    (hrun₂ : grammar.Statements (grammar.KeyValueStatement.rule ucd merge (input.length + 1))
      state₁ input₂ kvs₂ state₃ []) :
    grammar.File.rule ucd merge state input
      = .value (kvs₂.foldl grammar.ListValue.value_pair values₂, state₃) [] := by
  have hlen₁ := hrun₁.length_le
  have hlen₂ := hrun₂.length_le
  have hskip := grammar.skip_length_le ucd input
  have hinc := grammar.IncludeStatement.include_consumes ucd input₁ input₂ file hrule
  have hitem : ∀ values state state' input' rest kv,
      grammar.KeyValueStatement.rule ucd merge (input.length + 1) state input'
        = some (.value (kv, state') rest) →
      grammar.File.item ucd merge (grammar.KeyValueStatement.rule ucd merge (input.length + 1))
          values state input'
        = some (.value (grammar.ListValue.value_pair values kv, state') rest)
      ∧ grammar.eof input' = none :=
    fun values state state' input' rest kv h =>
      grammar.File.item_of_statement ucd merge _ values state state' input' rest kv h
  have hstart : grammar.eof (grammar.skip ucd input) = none := by
    cases hrun₁ with
    | nil =>
      obtain ⟨t, ht⟩ := grammar.IncludeStatement.include_head ucd _ _ hrule
      rw [ht]
      rfl
    | cons hstatement _ _ => exact (hitem [] _ _ _ _ _ hstatement).2
  have hinput₁ : grammar.eof input₁ = none := by
    obtain ⟨t, ht⟩ := grammar.IncludeStatement.include_head ucd _ _ hrule
    rw [ht]
    rfl
  obtain ⟨j, hj⟩ : ∃ j, input.length + 1 + 1 = ((j + 1 + kvs₂.length) + 1) + kvs₁.length :=
    ⟨input.length - kvs₁.length - kvs₂.length, by simp only [List.length_nil] at hlen₂; omega⟩
  rw [grammar.File.rule, grammar.list_eq_list_items _ _ _ _ _ hstart, hj,
    grammar.list_items_statements grammar.eof _ _ hitem _ _ _ _ kvs₁ hrun₁, grammar.list_items]
  simp only [hinput₁, grammar.File.item, hrule, hstep]
  rw [grammar.list_items_statements grammar.eof _ _ hitem _ _ _ _ kvs₂ hrun₂, grammar.list_items]
  rfl

/-! ## The fold of `ListValue::value` -/

theorem grammar.ListValue.find_value_pair (values : KeyValues) (kv : KeyValues.copy_pair_type)
    (key : String) :
    (grammar.ListValue.value_pair values kv).find key
      = (values.find key).orElse
          (fun _ => if kv.2.index ≠ 0 ∧ kv.1 = key then some kv.2 else none) := by
  unfold grammar.ListValue.value_pair
  by_cases h : kv.2.index = 0
  · cases hv : values.find key <;> simp [h, hv]
  · rw [if_neg h, KeyValues.find_emplace]
    by_cases hk : kv.1 = key <;> simp [h, hk]

theorem grammar.ListValue.find_foldl_value_pair (statements : List KeyValues.copy_pair_type)
    (values : KeyValues) (key : String) :
    KeyValues.find (statements.foldl grammar.ListValue.value_pair values) key
      = (values.find key).orElse
          (fun _ => KeyValues.find (statements.filter (fun kv => decide (kv.2.index ≠ 0))) key) := by
  induction statements generalizing values with
  | nil => cases h : values.find key <;> simp [KeyValues.find, h]
  | cons hd tl ih =>
    obtain ⟨k, v⟩ := hd
    rw [List.foldl_cons, ih, grammar.ListValue.find_value_pair]
    cases hv : values.find key with
    | some w => simp
    | none =>
      by_cases h0 : v.index = 0
      · simp [h0, List.filter]
      · by_cases hk : k = key
        · simp [h0, hk, List.filter, KeyValues.find]
        · simp [h0, hk, List.filter, KeyValues.find]

/-- C1. An input that is a run of key-value statements up to its end parses to
the left fold of their pairs from the empty tree, an object body between its
braces likewise; and folding statements into a tree maps every key to the
value the tree already had for it, and otherwise to the value of the earliest
statement that carries the key with a value other than the empty alternative:
later statements with the key change nothing.  So `"a" "1" "a" "2"` parses to
the single entry `a -> "1"`, and two objects under one key are not merged, the
first object is kept as it is. -/
theorem grammar.ListValue.value_first_wins (ucd : UnicodeData) (merge : grammar.Merge)
    (state state' : Parser.State) (input : List Char) (kvs : List KeyValues.copy_pair_type)
    (hne : kvs ≠ [])
    (hrun : grammar.Statements (grammar.KeyValueStatement.rule ucd merge (input.length + 1)) state
      (grammar.skip ucd input) kvs state' [])
    (values : KeyValues) (key : String) :
    grammar.File.rule ucd merge state input
        = .value (kvs.foldl grammar.ListValue.value_pair [], state') []
    ∧ (∀ (n k : Nat) (object rest : List Char), kvs.length ≤ k →
        grammar.Statements (grammar.KeyValueStatement.rule ucd merge n) state
          (grammar.skip ucd object) kvs state' (Char.ofNat 125 :: rest) →
        grammar.ListValue.rule ucd merge (grammar.KeyValueStatement.rule ucd merge n) k state
            (Char.ofNat 123 :: object)
          = some (.value (kvs.foldl grammar.ListValue.value_pair [], state')
              (grammar.skip ucd rest)))
    ∧ KeyValues.find (kvs.foldl grammar.ListValue.value_pair values) key
        = (match values.find key with
           | some old => some old
           | none => KeyValues.find (kvs.filter (fun kv => decide (kv.2.index ≠ 0))) key)
    ∧ sample.outcome (grammar.File.run sample.host 0 ⟨[], []⟩ "\"a\" \"1\" \"a\" \"2\"".toList)
        = some ([("a", ValueType.string "1")], [])
    ∧ sample.outcome (grammar.File.run sample.host 0 ⟨[], []⟩
          "a \x7b x 1 \x7d a \x7b y 2 \x7d".toList)
        = some ([("a", ValueType.keyValues [("x", ValueType.int32 1)])], []) := by
  refine ⟨grammar.File.file_of_statements ucd merge state state' input kvs hne hrun,
    fun n k object rest hk hobject =>
      grammar.ListValue.object_of_statements ucd merge n k state state' object rest kvs hne hk hobject,
    ?_, rfl, rfl⟩
  rw [grammar.ListValue.find_foldl_value_pair]
  cases values.find key <;> simp

/-- C1 at the text `"a" "1" "a" "2"`, a run of two statements. -/
theorem grammar.ListValue.value_first_wins_witness :
    grammar.File.rule sample.ucd (fun _ _ => none) ⟨[], []⟩ "\"a\" \"1\" \"a\" \"2\"".toList
        = .value ([("a", ValueType.string "1")], ⟨[], []⟩) []
    ∧ KeyValues.find
        ([("a", ValueType.string "1"), ("a", ValueType.string "2")].foldl
          grammar.ListValue.value_pair []) "a"
        = some (ValueType.string "1") :=
  have h := grammar.ListValue.value_first_wins sample.ucd (fun _ _ => none) ⟨[], []⟩ ⟨[], []⟩
    "\"a\" \"1\" \"a\" \"2\"".toList [("a", ValueType.string "1"), ("a", ValueType.string "2")]
    (List.cons_ne_nil _ _)
    (@grammar.Statements.cons _ ⟨[], []⟩ ⟨[], []⟩ ⟨[], []⟩ _ "\"a\" \"2\"".toList [] _ _ rfl
      (by decide)
      (@grammar.Statements.cons _ ⟨[], []⟩ ⟨[], []⟩ ⟨[], []⟩ _ [] [] _ _ rfl (by decide)
        (grammar.Statements.nil _ _)))
    [] "a"
  ⟨h.1, h.2.2.1⟩

/-! ## Conditional gating of a statement -/

/-- C3. A statement `Key Value [ e ]` with a well-formed expression yields the
pair that `KeyValueStatement::value` makes of the key, the value and the
denotation of `e` under the condition set: with a true attribute the pair it
yields without attribute, with a false one the empty pair, which the fold step
drops, so the tree is unchanged and the key does not appear.  With `WIN32`
active `"a" "1" [ $WIN32 ]` parses to `a -> "1"`, and after
`remove_condition("WIN32")` to the empty tree. -/
theorem grammar.KeyValueStatement.value_gating (ucd : UnicodeData) (merge : grammar.Merge)
    (n : Nat) (state state' : Parser.State) (input rest₁ rest₂ ws : List Char) (key : String)
    (value : ValueType) (e : condition.Expr) (values : KeyValues)
    (hkey : grammar.KeyExpression.rule ucd input = some (.value key rest₁))
    (hvalue : grammar.ValueExpression.rule ucd merge (grammar.KeyValueStatement.rule ucd merge n)
        n state rest₁
      = some (.value (value, state') ('[' :: (ws ++ (e.text ++ ']' :: rest₂)))))
    (he : e.well_formed ucd = true) (hws : condition.is_layout ws = true) :
    grammar.KeyValueStatement.rule ucd merge (n + 1) state input
        = some (.value
            (grammar.KeyValueStatement.value_bool key value (e.denote state'.conditionals), state')
            (grammar.skip ucd rest₂))
    ∧ grammar.KeyValueStatement.value_bool key value true
        = grammar.KeyValueStatement.value_nullopt key value
    ∧ grammar.ListValue.value_pair values (grammar.KeyValueStatement.value_bool key value false)
        = values
    ∧ (Parser.run sample.host 0
          ((Parser.new sample.host).load_from_string "\"a\" \"1\" [ $WIN32 ]".toList)).map
          (fun r => (r.1, r.2.get_key_values, r.2._errors))
        = some (true, some [("a", ValueType.string "1")], [])
    ∧ (Parser.run sample.host 0
          (((Parser.new sample.host).remove_condition "WIN32").2.load_from_string
            "\"a\" \"1\" [ $WIN32 ]".toList)).map
          (fun r => (r.1, r.2.get_key_values, r.2._errors))
        = some (true, some [], []) := by
  refine ⟨?_, rfl, rfl, rfl, rfl⟩
  rw [grammar.KeyValueStatement.rule]
  simp only [hkey, hvalue, grammar.ConditionalAttribute.rule_text ucd state' e ws rest₂ he hws]

/-- C3 at the statement `"a" "1" [ $WIN32 ]` without the condition `WIN32`. -/
theorem grammar.KeyValueStatement.value_gating_witness :
    grammar.KeyValueStatement.rule sample.ucd (fun _ _ => none) 1 ⟨["WINDOWS"], []⟩
        "\"a\" \"1\" [ $WIN32 ]".toList
      = some (.value (KeyValues.copy_pair_type.default, ⟨["WINDOWS"], []⟩) []) :=
  (grammar.KeyValueStatement.value_gating sample.ucd (fun _ _ => none) 0 ⟨["WINDOWS"], []⟩
    ⟨["WINDOWS"], []⟩ "\"a\" \"1\" [ $WIN32 ]".toList "\"1\" [ $WIN32 ]".toList [] [' '] "a"
    (ValueType.string "1") (.name "WIN32".toList [' ']) [] rfl rfl (by decide) (by decide)).1

/-! ## `MergeWith` and the include step of the fold -/

theorem grammar.merge_with_succ (host : Host) (depth : Nat) (D : KeyValues) (p : String) :
    grammar.merge_with host (depth + 1) D p
      = (match host.read_file p with
         | none => some (KeyValues.MergeError.FileMissing, D)
         | some text =>
           match grammar.File.run host depth ⟨(Parser.new host).conditionals, []⟩ text with
           | .error _ => some (KeyValues.MergeError.ParseFail, D)
           | .value (B, _) _ => some (KeyValues.MergeError.Success, D.AppendKeyValues B)
           | .fuel => none) := by
  simp only [grammar.merge_with, KeyValues.MergeWith, Parser.load_from_file,
    Parser.BufferHandler.load_file, Parser._run_load_func, grammar.File.run]
  cases hread : host.read_file p with
  | none => simp [Parser.has_error]
  | some text =>
    simp only [Parser.has_error, Parser.parse, Parser.BufferHandler.is_valid, Option.isSome_some,
      List.isEmpty_nil, Bool.not_true]
    cases hrun : grammar.File.rule host.ucd (grammar.merge_with host depth)
      ⟨(Parser.new host).conditionals, []⟩ text with
    | value a rest =>
      obtain ⟨B, st⟩ := a
      simp [hrun, Parser.get_key_values]
    | error e => simp [hrun]
    | fuel => simp [hrun]

/-- C6. `MergeWith(p)` on a tree `D`: `FileMissing` with `D` unchanged when the
file cannot be read; otherwise the grammar runs on the text of the file under
the conditions of a fresh session, and the outcome is `ParseFail` with `D`
unchanged when the grammar rejects the text, and `Success` with
`D.AppendKeyValues(B)` when it yields the tree `B`.  (No outcome is produced
when the includes of the file nest deeper than the budget, or `std::stod`
throws in the run.)  On the sample
host: `Success` for `B.vdf`, `ParseFail` for `bad.vdf`, `FileMissing` for
`absent.vdf`. -/
theorem KeyValues.MergeWith_outcomes (host : Host) (depth : Nat) (D : KeyValues) (p : String) :
    grammar.merge_with host (depth + 1) D p
        = (match host.read_file p with
           | none => some (KeyValues.MergeError.FileMissing, D)
           | some text =>
             match grammar.File.run host depth ⟨(Parser.new host).conditionals, []⟩ text with
             | .error _ => some (KeyValues.MergeError.ParseFail, D)
             | .value (B, _) _ => some (KeyValues.MergeError.Success, D.AppendKeyValues B)
             | .fuel => none)
    ∧ grammar.merge_with sample.host 1 [("k", ValueType.string "fromA")] "B.vdf"
        = some (KeyValues.MergeError.Success,
            [("k", ValueType.string "fromA"), ("m", ValueType.string "fromB")])
    ∧ grammar.merge_with sample.host 1 [("k", ValueType.string "fromA")] "bad.vdf"
        = some (KeyValues.MergeError.ParseFail, [("k", ValueType.string "fromA")])
    ∧ grammar.merge_with sample.host 1 [("k", ValueType.string "fromA")] "absent.vdf"
        = some (KeyValues.MergeError.FileMissing, [("k", ValueType.string "fromA")]) :=
  ⟨grammar.merge_with_succ host depth D p, rfl, rfl, rfl⟩

/-- C4. When the file of an include can be read and parses to the tree `B`,
the include step turns the accumulated tree `T` into `T.AppendKeyValues(B)` and
reports no warning: every key of `T` keeps its value, every other key of `B`
comes in with the value of `B`, and a statement after the include whose key is
in the merged tree changes nothing.  An input that is a run of statements, the
include, and a run of statements up to its end so parses to the fold of the
later pairs into the merge of `B` into the fold of the earlier ones.  With
`B.vdf` holding `"k" "fromB" "m" "fromB"`, the text
`"k" "fromA" #include "B.vdf"` parses to `k -> "fromA"`, `m -> "fromB"`, and
`#include "B.vdf" "m" "late"` keeps `m -> "fromB"`.  The step that the fold
calls, which takes no state, gives the same tree. -/
theorem grammar.ListValue.value_file_merge (host : Host) (depth : Nat) (state : Parser.State)
    (T B : KeyValues) (p : String) (text rest : List Char) (state' : Parser.State)
    (hread : host.read_file p = some text)
    (hparse : grammar.File.run host depth ⟨(Parser.new host).conditionals, []⟩ text
      = .value (B, state') rest) :
    grammar.ListValue.value_file (grammar.merge_with host (depth + 1)) state T ⟨p⟩
        = some (T.AppendKeyValues B, state)
    ∧ (∀ key, (T.AppendKeyValues B).find key
        = (match T.find key with
           | some old => some old
           | none => B.find key))
    ∧ (∀ key value, ((T.AppendKeyValues B).find key).isSome = true →
        grammar.ListValue.value_pair (T.AppendKeyValues B) (key, value) = T.AppendKeyValues B)
    ∧ (∀ (input input₁ input₂ : List Char) (kvs₁ kvs₂ : List KeyValues.copy_pair_type)
        (state₁ state₂ : Parser.State),
        grammar.Statements
          (grammar.KeyValueStatement.rule host.ucd (grammar.merge_with host (depth + 1))
            (input.length + 1))
          state (grammar.skip host.ucd input) kvs₁ state₁ input₁ →
        grammar.IncludeStatement.rule host.ucd input₁ = some (.value ⟨p⟩ input₂) →
        grammar.Statements
          (grammar.KeyValueStatement.rule host.ucd (grammar.merge_with host (depth + 1))
            (input.length + 1))
          state₁ input₂ kvs₂ state₂ [] →
        grammar.File.run host (depth + 1) state input
          = .value (kvs₂.foldl grammar.ListValue.value_pair
              ((kvs₁.foldl grammar.ListValue.value_pair []).AppendKeyValues B), state₂) [])
    ∧ sample.outcome (grammar.File.run sample.host 1 ⟨[], []⟩
          "\"k\" \"fromA\" #include \"B.vdf\"".toList)
        = some ([("k", ValueType.string "fromA"), ("m", ValueType.string "fromB")], [])
    ∧ sample.outcome (grammar.File.run sample.host 1 ⟨[], []⟩
          "#include \"B.vdf\" \"m\" \"late\"".toList)
        = some ([("k", ValueType.string "fromB"), ("m", ValueType.string "fromB")], [])
    ∧ grammar.ListValue.value_merge (grammar.merge_with host (depth + 1)) T ⟨p⟩
        = some (T.AppendKeyValues B) := by
  have hstep : ∀ (state : Parser.State) (T : KeyValues),
      grammar.ListValue.value_file (grammar.merge_with host (depth + 1)) state T ⟨p⟩
        = some (T.AppendKeyValues B, state) := by
    intro state T
    unfold grammar.ListValue.value_file
    rw [grammar.merge_with_succ, hread]
    simp only [hparse]
    rfl
  have hmerge : ∀ T : KeyValues,
      grammar.ListValue.value_merge (grammar.merge_with host (depth + 1)) T ⟨p⟩
        = some (T.AppendKeyValues B) := by
    intro T
    unfold grammar.ListValue.value_merge
    rw [grammar.merge_with_succ, hread]
    simp only [hparse, Option.map_some']
  refine ⟨hstep state T, ?_, ?_, ?_, rfl, rfl, hmerge T⟩
  · intro key
    rw [KeyValues.find_AppendKeyValues]
    cases T.find key <;> simp
  · intro key value hkey
    unfold grammar.ListValue.value_pair KeyValues.emplace
    cases hfind : (T.AppendKeyValues B).find key with
    | none => rw [hfind] at hkey; exact absurd hkey (by simp)
    | some v => simp
  · intro input input₁ input₂ kvs₁ kvs₂ state₁ state₂ hrun₁ hrule hrun₂
    exact grammar.File.file_of_statements_include host.ucd _ state state₁ state₂ input input₁
      input₂ kvs₁ kvs₂ ⟨p⟩ _ hrun₁ hrule (hmerge _) hrun₂

/-- C4 at the file `B.vdf` of the sample host: the include step on the tree
`k -> "fromA"`, and the parse of `"k" "fromA" #include "B.vdf"` as a run of one
statement, the include, and an empty run. -/
theorem grammar.ListValue.value_file_merge_witness :
    grammar.ListValue.value_file (grammar.merge_with sample.host 1) ⟨[], []⟩
        [("k", ValueType.string "fromA")] ⟨"B.vdf"⟩
      = some ([("k", ValueType.string "fromA"), ("m", ValueType.string "fromB")], ⟨[], []⟩)
    ∧ grammar.File.run sample.host 1 ⟨[], []⟩ "\"k\" \"fromA\" #include \"B.vdf\"".toList
      = .value ([("k", ValueType.string "fromA"), ("m", ValueType.string "fromB")], ⟨[], []⟩) [] :=
  have h := grammar.ListValue.value_file_merge sample.host 0 ⟨[], []⟩
    [("k", ValueType.string "fromA")]
    [("k", ValueType.string "fromB"), ("m", ValueType.string "fromB")] "B.vdf" sample.B_vdf []
    ⟨["WIN32", "WINDOWS"], []⟩ rfl rfl
  ⟨h.1,
   h.2.2.2.1 "\"k\" \"fromA\" #include \"B.vdf\"".toList "#include \"B.vdf\"".toList []
     [("k", ValueType.string "fromA")] [] ⟨[], []⟩ ⟨[], []⟩
     (@grammar.Statements.cons _ ⟨[], []⟩ ⟨[], []⟩ ⟨[], []⟩ _ "#include \"B.vdf\"".toList _ _ _
       rfl (by decide) (grammar.Statements.nil _ _))
     rfl (grammar.Statements.nil _ _)⟩

/-- C7. An include of a path that cannot be read is not an error, and it leaves
no warning either.  The step that the fold calls for an include takes no state:
it leaves the tree as it is and the state cannot change, so where the item list
of `File` or of an object meets such an include, the item succeeds with the same
tree and the same state, and the list goes on from there.  An input that is a
run of statements, the include, and a run of statements up to its end, none of
which touches the state, parses to the fold of its own statements with the
state it started from.  The overload of the step that takes the state would
append one warning, with code 1 and the message `Could not find '<path>'.`; the
fold does not call it.  The text `#include "absent.vdf" "a" "1"` parses with
success, without error, to the tree `a -> "1"`, and the list of warnings is
empty; likewise with `#base`. -/
theorem grammar.ListValue.value_file_missing (host : Host) (depth : Nat)
    (state : Parser.State) (values : KeyValues) (p : String)
    (hread : host.read_file p = none) :
    grammar.ListValue.value_merge (grammar.merge_with host (depth + 1)) values ⟨p⟩
        = some values
    ∧ (∀ (statement : grammar.Run KeyValues.copy_pair_type) (n k : Nat)
        (input rest : List Char),
        grammar.IncludeStatement.rule host.ucd input = some (.value ⟨p⟩ rest) →
        grammar.File.item host.ucd (grammar.merge_with host (depth + 1)) statement values state
            input
          = some (.value (values, state) rest)
        ∧ grammar.list_items grammar.eof
            (grammar.File.item host.ucd (grammar.merge_with host (depth + 1)) statement) (k + 1)
            values state input
          = grammar.list_items grammar.eof
            (grammar.File.item host.ucd (grammar.merge_with host (depth + 1)) statement) k
            values state rest
        ∧ grammar.ListValue.item host.ucd (grammar.merge_with host (depth + 1))
            (grammar.KeyValueStatement.rule host.ucd (grammar.merge_with host (depth + 1))
              (n + 1))
            values state input
          = some (.value (values, state) rest))
    ∧ (∀ (input input₁ input₂ : List Char) (kvs₁ kvs₂ : List KeyValues.copy_pair_type),
        grammar.Statements
          (grammar.KeyValueStatement.rule host.ucd (grammar.merge_with host (depth + 1))
            (input.length + 1))
          state (grammar.skip host.ucd input) kvs₁ state input₁ →
        grammar.IncludeStatement.rule host.ucd input₁ = some (.value ⟨p⟩ input₂) →
        grammar.Statements
          (grammar.KeyValueStatement.rule host.ucd (grammar.merge_with host (depth + 1))
            (input.length + 1))
          state input₂ kvs₂ state [] →
        grammar.File.run host (depth + 1) state input
          = .value ((kvs₁ ++ kvs₂).foldl grammar.ListValue.value_pair [], state) [])
    ∧ grammar.ListValue.value_file (grammar.merge_with host (depth + 1)) state values ⟨p⟩
        = some (values, { state with
            parse_warnings := state.parse_warnings ++ [⟨"Could not find '" ++ p ++ "'.", 1⟩] })
    ∧ (Parser.run sample.host 1
          ((Parser.new sample.host).load_from_string
            "#include \"absent.vdf\" \"a\" \"1\"".toList)).map
          (fun r => (r.1, r.2.get_key_values, r.2._errors, r.2._warnings))
        = some (true, some [("a", ValueType.string "1")], [], [])
    ∧ (Parser.run sample.host 1
          ((Parser.new sample.host).load_from_string
            "\"a\" \"1\" #base \"absent.vdf\"".toList)).map
          (fun r => (r.1, r.2.get_key_values, r.2._errors, r.2._warnings))
        = some (true, some [("a", ValueType.string "1")], [], []) := by
  have hmerge : ∀ values : KeyValues,
      grammar.ListValue.value_merge (grammar.merge_with host (depth + 1)) values ⟨p⟩
        = some values := by
    intro values
    unfold grammar.ListValue.value_merge
    rw [grammar.merge_with_succ, hread]
    rfl
  have hstep : grammar.ListValue.value_file (grammar.merge_with host (depth + 1)) state values
      ⟨p⟩
        = some (values, { state with
            parse_warnings :=
              state.parse_warnings ++ [⟨"Could not find '" ++ p ++ "'.", 1⟩] }) := by
    unfold grammar.ListValue.value_file
    rw [grammar.merge_with_succ, hread]
    rfl
  refine ⟨hmerge values, ?_, ?_, hstep, rfl, rfl⟩
  · intro statement n k input rest hrule
    have hitem : grammar.File.item host.ucd (grammar.merge_with host (depth + 1)) statement
        values state input
        = some (.value (values, state) rest) := by
      unfold grammar.File.item
      rw [hrule]
      simp only [hmerge]
    obtain ⟨t, rfl⟩ := grammar.IncludeStatement.include_head host.ucd input _ hrule
    refine ⟨hitem, ?_, ?_⟩
    · rw [grammar.list_items]
      simp only [grammar.eof, hitem]
    · unfold grammar.ListValue.item
      simp only [grammar.KeyValueStatement.rule, grammar.KeyExpression.rule_hash, hrule, hmerge]
  · intro input input₁ input₂ kvs₁ kvs₂ hrun₁ hrule hrun₂
    rw [List.foldl_append]
    exact grammar.File.file_of_statements_include host.ucd _ state state _ input input₁ input₂
      kvs₁ kvs₂ ⟨p⟩ _ hrun₁ hrule (hmerge _) hrun₂

/-- C7 at the path `absent.vdf` of the sample host: the step of the fold on the
tree `a -> "1"`, and the parse of `"a" "1" #base "absent.vdf"` as a run of one
statement, the include, and an empty run, which ends in the state it started
from, without a warning. -/
theorem grammar.ListValue.value_file_missing_witness :
    grammar.ListValue.value_merge (grammar.merge_with sample.host 1)
        [("a", ValueType.string "1")] ⟨"absent.vdf"⟩
      = some [("a", ValueType.string "1")]
    ∧ grammar.File.run sample.host 1 ⟨[], []⟩ "\"a\" \"1\" #base \"absent.vdf\"".toList
      = .value ([("a", ValueType.string "1")], ⟨[], []⟩) [] :=
  have h := grammar.ListValue.value_file_missing sample.host 0 ⟨[], []⟩
    [("a", ValueType.string "1")] "absent.vdf" rfl
  have h' := grammar.ListValue.value_file_missing sample.host 0 ⟨[], []⟩ [] "absent.vdf" rfl
  ⟨h.1,
   h'.2.2.1 "\"a\" \"1\" #base \"absent.vdf\"".toList "#base \"absent.vdf\"".toList []
     [("a", ValueType.string "1")] []
     (@grammar.Statements.cons _ ⟨[], []⟩ ⟨[], []⟩ ⟨[], []⟩ _ "#base \"absent.vdf\"".toList _ _ _
       rfl (by decide) (grammar.Statements.nil _ _))
     rfl (grammar.Statements.nil _ _)⟩

/-! ## Escapes in quoted strings -/

/-- The symbol table of the grammar is the list of recognized escapes. -/
theorem grammar.StringValue.escaped_symbols_eq_mapped (e : Char) :
    grammar.StringValue.escaped_symbols e = quoted.mapped e := rfl

/-- The closing quotation mark ends the body. -/
theorem grammar.StringValue.body_quote (ucd : UnicodeData) (rest : List Char) :
    grammar.StringValue.body ucd ('"' :: rest) = some ([], rest) := by
  conv_lhs => unfold grammar.StringValue.body
  simp

/-- A backslash in the body is looked up in the symbol table. -/
theorem grammar.StringValue.body_backslash (ucd : UnicodeData) (e : Char) (cs : List Char) :
    grammar.StringValue.body ucd ('\\' :: e :: cs)
      = match grammar.StringValue.escaped_symbols e with
        | none => none
        | some d => (grammar.StringValue.body ucd cs).map fun r => (d :: r.1, r.2) := by
  have h1 : ('\\' : Char) ≠ '"' := by decide
  conv_lhs => unfold grammar.StringValue.body
  cases hsym : grammar.StringValue.escaped_symbols e <;> simp [h1, hsym]

/-- Any other character that is not a control character stands for itself. -/
theorem grammar.StringValue.body_char (ucd : UnicodeData) (c : Char) (cs : List Char)
    (h1 : c ≠ '"') (h2 : c ≠ '\\') (h3 : dsl.unicode_control ucd c = false) :
    grammar.StringValue.body ucd (c :: cs)
      = (grammar.StringValue.body ucd cs).map fun r => (c :: r.1, r.2) := by
  conv_lhs => unfold grammar.StringValue.body
  simp only [h1, h2, h3, if_false, Bool.false_eq_true]

/-- The body of a quoted string, read from the text of well-formed pieces up to
the closing quotation mark, and up to a backslash with an unrecognized
letter. -/
theorem grammar.StringValue.body_text (ucd : UnicodeData) (body : List quoted.Piece)
    (hbody : ∀ p ∈ body, p.well_formed ucd = true) (rest : List Char) :
    grammar.StringValue.body ucd (quoted.text body ++ '"' :: rest)
        = some (quoted.decoded body, rest)
    ∧ ∀ e : Char, quoted.mapped e = none →
        grammar.StringValue.body ucd (quoted.text body ++ '\\' :: e :: rest) = none := by
  induction body with
  | nil =>
    refine ⟨by simp [quoted.text, quoted.decoded, grammar.StringValue.body_quote], ?_⟩
    intro e he
    simp [quoted.text, grammar.StringValue.body_backslash,
      grammar.StringValue.escaped_symbols_eq_mapped, he]
  | cons p body ih =>
    have hp := hbody p (List.mem_cons_self _ _)
    have ih := ih (fun q hq => hbody q (List.mem_cons_of_mem _ hq))
    cases p with
    | char c =>
      simp only [quoted.Piece.well_formed, Bool.and_eq_true, bne_iff_ne, ne_eq,
        Bool.not_eq_true', ] at hp
      obtain ⟨⟨h1, h2⟩, h3⟩ := hp
      have ht : ∀ tail, quoted.text (quoted.Piece.char c :: body) ++ tail
          = c :: (quoted.text body ++ tail) := by
        intro tail; simp [quoted.text, quoted.Piece.text]
      have hd : quoted.decoded (quoted.Piece.char c :: body) = c :: quoted.decoded body := by
        simp [quoted.decoded, quoted.Piece.decoded]
      refine ⟨?_, ?_⟩
      · rw [ht, grammar.StringValue.body_char ucd c _ h1 h2 h3, ih.1, hd]; rfl
      · intro e he
        rw [ht, grammar.StringValue.body_char ucd c _ h1 h2 h3, ih.2 e he]; rfl
    | escape e =>
      simp only [quoted.Piece.well_formed, Option.isSome_iff_exists] at hp
      obtain ⟨d, hd⟩ := hp
      have ht : ∀ tail, quoted.text (quoted.Piece.escape e :: body) ++ tail
          = '\\' :: e :: (quoted.text body ++ tail) := by
        intro tail; simp [quoted.text, quoted.Piece.text]
      have hdec : quoted.decoded (quoted.Piece.escape e :: body) = d :: quoted.decoded body := by
        simp [quoted.decoded, quoted.Piece.decoded, hd]
      refine ⟨?_, ?_⟩
      · rw [ht, grammar.StringValue.body_backslash,
          grammar.StringValue.escaped_symbols_eq_mapped, hd, hdec]
        simp only [ih.1, Option.map_some']
      · intro e' he'
        rw [ht, grammar.StringValue.body_backslash,
          grammar.StringValue.escaped_symbols_eq_mapped, hd]
        simp only [ih.2 e' he', Option.map_none']

/-- C11. A quoted string whose body is made of characters that are not control
characters and of recognized escapes yields the body with each escape
replaced by the one character the list of escapes maps it to, every other
character unchanged; the table of the grammar is that list; a backslash
before any other character is an error of the grammar; the text
`"a\nb"` yields the three characters `a`, newline, `b`. -/
theorem grammar.StringValue.escape_decoding (ucd : UnicodeData) (body : List quoted.Piece)
    (rest : List Char) (hbody : ∀ p ∈ body, p.well_formed ucd = true) :
    grammar.StringValue.rule ucd ('"' :: (quoted.text body ++ '"' :: rest))
        = some (.value (String.mk (quoted.decoded body)) (grammar.skip ucd rest))
    ∧ (∀ e : Char, quoted.mapped e = none →
        grammar.StringValue.rule ucd ('"' :: (quoted.text body ++ '\\' :: e :: rest))
          = some (.error ()))
    ∧ (∀ e : Char, grammar.StringValue.escaped_symbols e = quoted.mapped e)
    ∧ grammar.StringValue.rule ucd ['"', 'a', '\\', 'n', 'b', '"']
        = some (.value (String.mk ['a', Char.ofNat 0x0A, 'b']) []) := by
  have h := grammar.StringValue.body_text ucd body hbody rest
  refine ⟨?_, ?_, fun _ => rfl, rfl⟩
  · simp only [grammar.StringValue.rule, if_true, h.1]
  · intro e he
    simp only [grammar.StringValue.rule, if_true, h.2 e he]

/-- C11 at the body `say \"hi\"\n` followed by a tabulator escape, and at the
unrecognized escape `\q`. -/
theorem grammar.StringValue.escape_decoding_witness :
    grammar.StringValue.rule sample.ucd "\"say \\\"hi\\\"\\n\\t\" x".toList
        = some (.value "say \"hi\"\n\t" ['x'])
    ∧ grammar.StringValue.rule sample.ucd "\"say \\\"hi\\\"\\n\\t\\q\" x".toList
        = some (.error ()) :=
  have h := grammar.StringValue.escape_decoding sample.ucd
    [.char 's', .char 'a', .char 'y', .char ' ', .escape '"', .char 'h', .char 'i',
      .escape '"', .escape 'n', .escape 't'] [' ', 'x'] (by decide)
  ⟨h.1, h.2.1 'q' (by decide)⟩

/-! ## The accessors -/

/-- The second loop of `trim` leaves the range without its trailing spaces and
without the last byte that is not a space. -/
theorem trim.backward_eq (r : List Nat) :
    trim.backward r = ((r.dropWhile std.isspace).reverse).dropLast := by
  induction r with
  | nil => rfl
  | cons e below ih =>
    cases below with
    | nil =>
      cases h : std.isspace e <;> simp [trim.backward, List.dropWhile, h]
    | cons b below =>
      cases h : std.isspace e
      · simp [trim.backward, List.dropWhile, h]
      · simp only [trim.backward, h, Bool.not_true, Bool.false_eq_true, if_false]
        rw [ih]
        simp [List.dropWhile, h]

/-- The view that `trim` returns is the trimmed text without its last byte. -/
theorem trim_eq_trimmed_dropLast (str : List Nat) : trim str = (trimmed str).dropLast := by
  unfold trim trimmed
  cases h : str.dropWhile std.isspace with
  | nil => rfl
  | cons b rest => simp only [trim.backward_eq]

/-- Models `std::equal` with the comparison of lowered bytes: the lowered ranges are equal. -/
theorem std.equal_tolower (l r : List Nat) :
    std.equal (fun a b => std.tolower a == std.tolower b) l r
      = decide (l.map std.tolower = r.map std.tolower) := by
  induction l generalizing r with
  | nil => cases r <;> simp [std.equal]
  | cons a l ih =>
    cases r with
    | nil => simp [std.equal]
    | cons b r =>
      simp only [std.equal, ih, List.map_cons, List.cons.injEq]
      by_cases h1 : std.tolower a = std.tolower b <;>
        by_cases h2 : l.map std.tolower = r.map std.tolower <;> simp [h1, h2]

/-- C12. `GetInt`, `GetFloat` and `GetString` return the stored value when the
key holds the requested alternative and the default when it holds another
one.  When the key is absent they dereference the past-the-end iterator that
`find` returned, so no result is defined, as for `GetInt("k", 7)` on the empty
tree. -/
theorem KeyValues.typed_accessors (self : KeyValues) (k : String) (d : Int)
    (df : std.float_t) (ds : String) :
    (∀ i, self.find k = some (.int32 i) → self.GetInt k d = some i)
    ∧ (∀ x, self.find k = some (.float x) → self.GetFloat k df = some x)
    ∧ (∀ s, self.find k = some (.string s) → self.GetString k ds = some s)
    ∧ (∀ v, self.find k = some v → v.index ≠ 2 → self.GetInt k d = some d)
    ∧ (∀ v, self.find k = some v → v.index ≠ 3 → self.GetFloat k df = some df)
    ∧ (∀ v, self.find k = some v → v.index ≠ 1 → self.GetString k ds = some ds)
    ∧ (self.find k = none →
        self.GetInt k d = none ∧ self.GetFloat k df = none ∧ self.GetString k ds = none)
    ∧ KeyValues.GetInt [] "k" 7 = none := by
  refine ⟨?_, ?_, ?_, ?_, ?_, ?_, ?_, rfl⟩
  · intro i h; simp [KeyValues.GetInt, h]
  · intro x h; simp [KeyValues.GetFloat, h]
  · intro s h; simp [KeyValues.GetString, h]
  · intro v h hv; cases v <;> simp_all [KeyValues.GetInt, ValueType.index]
  · intro v h hv; cases v <;> simp_all [KeyValues.GetFloat, ValueType.index]
  · intro v h hv; cases v <;> simp_all [KeyValues.GetString, ValueType.index]
  · intro h; simp [KeyValues.GetInt, KeyValues.GetFloat, KeyValues.GetString, h]

/-- C12 on the tree `a -> 5`, `s -> "x"`: the stored integer, the default for a
string asked as an integer, and no defined result for the absent key `z`. -/
theorem KeyValues.typed_accessors_witness :
    KeyValues.GetInt [("a", .int32 5), ("s", .string "x")] "a" 7 = some 5
    ∧ KeyValues.GetInt [("a", .int32 5), ("s", .string "x")] "s" 7 = some 7
    ∧ KeyValues.GetInt [("a", .int32 5), ("s", .string "x")] "z" 7 = none :=
  ⟨(KeyValues.typed_accessors [("a", .int32 5), ("s", .string "x")] "a" 7 ⟨false, 0, 0⟩ "").1 5
      rfl,
   (KeyValues.typed_accessors [("a", .int32 5), ("s", .string "x")] "s" 7
      ⟨false, 0, 0⟩ "").2.2.2.1 (.string "x") rfl (by decide),
   ((KeyValues.typed_accessors [("a", .int32 5), ("s", .string "x")] "z" 7
      ⟨false, 0, 0⟩ "").2.2.2.2.2.2.1 rfl).1⟩

/-- C13. On a key that holds a string, `GetBool` is true exactly when the
trimmed text without its last byte equals `tru`, the case of letters ignored,
whatever the default: `trim` leaves out the last byte that is not a space.  So
`true` and ` TRUE ` give true, `tru` and `truest` give false, and `trux` gives
true although the trimmed text is not `true`; whenever the trimmed text is
`true` up to case, `GetBool` is true. -/
theorem KeyValues.GetBool_string (self : KeyValues) (k s : String) (d : Bool)
    (h : self.find k = some (.string s)) :
    self.GetBool k d
        = decide (((trimmed (std.bytes s)).dropLast).map std.tolower = std.bytes "tru")
    ∧ (is_true_text s = true → self.GetBool k d = true)
    ∧ KeyValues.GetBool [("k", .string "true")] "k" false = true
    ∧ KeyValues.GetBool [("k", .string " TRUE ")] "k" false = true
    ∧ KeyValues.GetBool [("k", .string "tru")] "k" true = false
    ∧ KeyValues.GetBool [("k", .string "truest")] "k" true = false
    ∧ KeyValues.GetBool [("k", .string "trux")] "k" false = true
    ∧ is_true_text "trux" = false := by
  have hcode : self.GetBool k d
      = decide (((trimmed (std.bytes s)).dropLast).map std.tolower = std.bytes "tru") := by
    simp only [KeyValues.GetBool, h, insenitive_trim_eq, std.equal_tolower,
      trim_eq_trimmed_dropLast]
    have ht : ((trimmed (std.bytes "true")).dropLast).map std.tolower = std.bytes "tru" := by
      decide
    rw [ht]
    congr 1
    exact propext eq_comm
  refine ⟨hcode, ?_, rfl, rfl, rfl, rfl, rfl, by decide⟩
  intro ht
  rw [hcode]
  simp only [is_true_text, decide_eq_true_eq] at ht
  have hl : (trimmed (std.bytes s)).dropLast.map std.tolower
      = ((trimmed (std.bytes s)).map std.tolower).dropLast := by
    simp [List.dropLast_eq_take]
  rw [hl, ht]
  decide

/-- C13 at the text `trux` under the key `k`. -/
theorem KeyValues.GetBool_string_witness :
    KeyValues.GetBool [("k", .string "trux")] "k" false = true :=
  (KeyValues.GetBool_string [("k", .string "trux")] "k" "trux" false rfl).1.trans
    (by decide)

/-- The bisection finds the place of the leading binary digit. -/
theorem std.bit_width.search_bounds (k : Nat) : ∀ (n lo : Nat), 2 ^ lo ≤ n → n < 2 ^ (lo + 2 ^ k) →
    2 ^ std.bit_width.search k n lo ≤ n ∧ n < 2 ^ (std.bit_width.search k n lo + 1) := by
  induction k with
  | zero =>
    intro n lo hlo hhi
    exact ⟨hlo, by simpa using hhi⟩
  | succ k ih =>
    intro n lo hlo hhi
    unfold std.bit_width.search
    by_cases h : n < 2 ^ (lo + 2 ^ k)
    · rw [if_pos h]
      exact ih n lo hlo h
    · rw [if_neg h]
      refine ih n (lo + 2 ^ k) (Nat.le_of_not_lt h) ?_
      have : lo + 2 ^ k + 2 ^ k = lo + 2 ^ (k + 1) := by rw [pow_succ]; omega
      rw [this]
      exact hhi

/-- The order found bounds the number. -/
theorem std.bit_width.order_bound (fuel : Nat) : ∀ (k n : Nat), n < 2 ^ 2 ^ (k + fuel) →
    n < 2 ^ 2 ^ std.bit_width.order fuel k n := by
  induction fuel with
  | zero =>
    intro k n h
    simpa [std.bit_width.order] using h
  | succ fuel ih =>
    intro k n h
    unfold std.bit_width.order
    by_cases hk : n < 2 ^ 2 ^ k
    · rw [if_pos hk]; exact hk
    · rw [if_neg hk]
      refine ih (k + 1) n ?_
      have : k + 1 + fuel = k + (fuel + 1) := by omega
      rw [this]; exact h

/-- The number of binary digits of a positive number: `2 ^ (w - 1) ≤ n < 2 ^ w`. -/
theorem std.bit_width_bounds (n : Nat) (hn : 0 < n) :
    0 < std.bit_width n ∧ 2 ^ (std.bit_width n - 1) ≤ n ∧ n < 2 ^ std.bit_width n := by
  have hlt : n < 2 ^ 2 ^ (0 + n) := by
    rw [Nat.zero_add]
    exact lt_trans (Nat.lt_two_pow n) (Nat.lt_two_pow _)
  have horder := std.bit_width.order_bound n 0 n hlt
  have h := std.bit_width.search_bounds (std.bit_width.order n 0 n) n 0 (by simpa using hn)
    (by simpa using horder)
  unfold std.bit_width
  rw [if_neg (by omega)]
  exact ⟨by omega, by simpa using h.1, h.2⟩

/-- The rounded quotient is within half a unit of the quotient. -/
theorem std.round_half_even_near (a b : Nat) (hb : 0 < b) :
    2 * a ≤ 2 * std.round_half_even a b * b + b ∧ 2 * std.round_half_even a b * b ≤ 2 * a + b := by
  have hdiv := Nat.div_add_mod a b
  have hmod := Nat.mod_lt a hb
  unfold std.round_half_even
  generalize a / b = q at *
  generalize a % b = r at *
  subst hdiv
  split_ifs <;> constructor <;> ring_nf <;> omega

/-- The conversion of a float to `bool` is true exactly when the float does
not denote zero: it is false for the two zeros, and true for every other
number, for an infinity and for a NaN. -/
theorem std.float_t.to_bool_iff (x : std.float_t) : x.to_bool = true ↔ x.value ≠ some 0 := by
  unfold std.float_t.to_bool std.float_t.value
  by_cases he : x.exponent = 255
  · simp [he]
  · have hsign : (if x.sign then (-1 : ℚ) else 1) ≠ 0 := by split <;> norm_num
    have hpow : (2 : ℚ) ^ (max x.exponent 1) ≠ 0 := pow_ne_zero _ (by norm_num)
    have hden : (2 : ℚ) ^ 150 ≠ 0 := pow_ne_zero _ (by norm_num)
    simp only [he, if_false, ne_eq, Option.some.injEq]
    rw [div_eq_zero_iff, mul_eq_zero, mul_eq_zero]
    simp only [hsign, hpow, hden, false_or, or_false, Nat.cast_eq_zero,
      std.float_t.significand]
    by_cases h0 : x.exponent = 0
    · simp [h0]
    · simp [h0]

/-- C14. `GetBool` returns the default when the key is absent; on an integer it
is true exactly when the integer is not zero; on a float it is true exactly
when the number the float denotes is not zero, so false for the zero of either
sign and true for every other float; on a nested tree it is true exactly when
the tree has an entry.  On the tree that `"z" 0.0 "m" -0.0 "h" 0.5 "t" 1e-50`
parses to, `GetBool` is false for `z` and for `m`, true for `h`, and false for
`t`, whose numeral is nearer to zero than to any other float. -/
theorem KeyValues.GetBool_non_string (self : KeyValues) (k : String) (d : Bool) :
    (self.find k = none → self.GetBool k d = d)
    ∧ (∀ i, self.find k = some (.int32 i) → (self.GetBool k d = true ↔ i ≠ 0))
    ∧ (∀ x, self.find k = some (.float x) → (self.GetBool k d = true ↔ x.value ≠ some 0))
    ∧ (∀ kv, self.find k = some (.keyValues kv) →
        (self.GetBool k d = true ↔ 0 < kv.length))
    ∧ (∀ x, self.find k = some (.float x) →
        (self.GetBool k d = false ↔ x.exponent = 0 ∧ x.fraction = 0))
    ∧ (sample.outcome (grammar.File.run sample.host 0 ⟨[], []⟩
          "\"z\" 0.0 \"m\" -0.0 \"h\" 0.5 \"t\" 1e-50".toList)).map
          (fun r => (r.1, r.1.GetBool "z" true, r.1.GetBool "m" true, r.1.GetBool "h" false,
            r.1.GetBool "t" true))
        = some ([("z", ValueType.float ⟨false, 0, 0⟩), ("m", ValueType.float ⟨true, 0, 0⟩),
            ("h", ValueType.float ⟨false, 126, 0⟩), ("t", ValueType.float ⟨false, 0, 0⟩)],
            false, false, true, false) := by
  refine ⟨?_, ?_, ?_, ?_, ?_, rfl⟩
  · intro h; simp [KeyValues.GetBool, h]
  · intro i h; simp [KeyValues.GetBool, h]
  · intro x h
    rw [← std.float_t.to_bool_iff]
    simp [KeyValues.GetBool, h]
  · intro kv h
    cases kv <;> simp [KeyValues.GetBool, h]
  · intro x h
    simp [KeyValues.GetBool, h, std.float_t.to_bool]

/-- C14 on the tree `zero -> 0`, `n -> -3`, `empty -> {}`, `obj -> { a -> 1 }`,
`f -> 0.5`, `nz -> -0.0`. -/
theorem KeyValues.GetBool_non_string_witness :
    KeyValues.GetBool
        [("zero", .int32 0), ("n", .int32 (-3)), ("empty", .keyValues []),
          ("obj", .keyValues [("a", .int32 1)]), ("f", .float ⟨false, 126, 0⟩),
          ("nz", .float ⟨true, 0, 0⟩)] "absent" true = true
    ∧ (KeyValues.GetBool
        [("zero", .int32 0), ("n", .int32 (-3)), ("empty", .keyValues []),
          ("obj", .keyValues [("a", .int32 1)]), ("f", .float ⟨false, 126, 0⟩),
          ("nz", .float ⟨true, 0, 0⟩)] "n" false = true ↔ (-3 : Int) ≠ 0)
    ∧ (KeyValues.GetBool
        [("zero", .int32 0), ("n", .int32 (-3)), ("empty", .keyValues []),
          ("obj", .keyValues [("a", .int32 1)]), ("f", .float ⟨false, 126, 0⟩),
          ("nz", .float ⟨true, 0, 0⟩)] "empty" true = true
          ↔ 0 < ([] : KeyValues).length)
    ∧ (KeyValues.GetBool
        [("zero", .int32 0), ("n", .int32 (-3)), ("empty", .keyValues []),
          ("obj", .keyValues [("a", .int32 1)]), ("f", .float ⟨false, 126, 0⟩),
          ("nz", .float ⟨true, 0, 0⟩)] "f" false = true
          ↔ (std.float_t.mk false 126 0).value ≠ some 0)
    ∧ (KeyValues.GetBool
        [("zero", .int32 0), ("n", .int32 (-3)), ("empty", .keyValues []),
          ("obj", .keyValues [("a", .int32 1)]), ("f", .float ⟨false, 126, 0⟩),
          ("nz", .float ⟨true, 0, 0⟩)] "nz" true = false
          ↔ (std.float_t.mk true 0 0).exponent = 0 ∧ (std.float_t.mk true 0 0).fraction = 0) :=
  have h := fun k d => KeyValues.GetBool_non_string
    [("zero", .int32 0), ("n", .int32 (-3)), ("empty", .keyValues []),
      ("obj", .keyValues [("a", .int32 1)]), ("f", .float ⟨false, 126, 0⟩),
      ("nz", .float ⟨true, 0, 0⟩)] k d
  ⟨(h "absent" true).1 rfl, (h "n" false).2.1 (-3) rfl, (h "empty" true).2.2.2.1 [] rfl,
   (h "f" false).2.2.1 ⟨false, 126, 0⟩ rfl, (h "nz" true).2.2.2.2.1 ⟨true, 0, 0⟩ rfl⟩

/-! ## The session: loads and `parse()` -/

/-- The loop of `Parser::parse` over the reported errors. -/
theorem Parser.foldl_fatal (errors : List ParseError) (flag : Bool) :
    errors.foldl (fun acc err => acc || decide (err.type = ParseError.Type.Fatal)) flag
      = (flag || errors.any fun e => decide (e.type = ParseError.Type.Fatal)) := by
  induction errors generalizing flag with
  | nil => simp
  | cons e errors ih => simp only [List.foldl_cons, ih, List.any_cons, Bool.or_assoc]

theorem Parser._run_load_func_flag_agrees (self : Parser)
    (loaded : Option ParseError × Parser.BufferHandler) :
    (Parser._run_load_func self loaded).flag_agrees := by
  obtain ⟨error, handler⟩ := loaded
  cases error with
  | none => simp [Parser._run_load_func, Parser.flag_agrees]
  | some error => simp [Parser._run_load_func, Parser.flag_agrees]

theorem Parser.parse_flag_agrees (host : Host) (file : FileRun) (self : Parser) (b : Bool)
    (next : Parser) (h : Parser.parse host file self = some (b, next))
    (hself : self.flag_agrees) : next.flag_agrees := by
  unfold Parser.parse at h
  split at h
  · split at h
    · exact absurd h (by simp)
    · simp only [Option.some.injEq, Prod.mk.injEq] at h
      rw [← h.2]
      simp only [Parser.flag_agrees, Parser.foldl_fatal, List.any_append]
      rw [hself]
    · simp only [Option.some.injEq, Prod.mk.injEq] at h
      rw [← h.2]
      exact hself
  · simp only [Option.some.injEq, Prod.mk.injEq] at h
    rw [← h.2]
    exact hself

theorem Parser.call_flag_agrees (host : Host) (self next : Parser) (call : Parser.Call)
    (h : Parser.call host self call = some next) (hself : self.flag_agrees) :
    next.flag_agrees := by
  cases call with
  | load_from_string string =>
    simp only [Parser.call, Option.some.injEq] at h
    rw [← h]; exact Parser._run_load_func_flag_agrees _ _
  | load_from_file path =>
    simp only [Parser.call, Option.some.injEq] at h
    rw [← h]; exact Parser._run_load_func_flag_agrees _ _
  | load_from_file_root path root =>
    simp only [Parser.call, Option.some.injEq] at h
    rw [← h]
    exact Parser._run_load_func_flag_agrees { self with _file_path := some path } _
  | parse depth =>
    simp only [Parser.call, Option.map_eq_some', Prod.exists, exists_eq_right] at h
    obtain ⟨b, hb⟩ := h
    exact Parser.parse_flag_agrees host _ self b next hb hself
  | add_condition conditional =>
    simp only [Parser.call, Option.some.injEq] at h
    rw [← h]
    unfold Parser.add_condition
    split
    · exact hself
    · exact hself
  | remove_condition conditional =>
    simp only [Parser.call, Option.some.injEq] at h
    rw [← h]
    unfold Parser.remove_condition
    split
    · exact hself
    · exact hself
  | clear_conditions =>
    simp only [Parser.call, Option.some.injEq] at h
    rw [← h]; exact hself

theorem Parser.calls_flag_agrees (host : Host) (calls : List Parser.Call) (self last : Parser)
    (h : Parser.calls host self calls = some last) (hself : self.flag_agrees) :
    last.flag_agrees := by
  induction calls generalizing self with
  | nil =>
    simp only [Parser.calls, Option.some.injEq] at h
    rw [← h]; exact hself
  | cons call rest ih =>
    simp only [Parser.calls] at h
    cases hcall : Parser.call host self call with
    | none => rw [hcall] at h; exact absurd h (by simp)
    | some next =>
      rw [hcall] at h
      exact ih next h (Parser.call_flag_agrees host self next call hcall hself)

theorem Parser.new_flag_agrees (host : Host) : (Parser.new host).flag_agrees := by
  unfold Parser.new Parser.set_default_conditions
  cases host.target <;>
    simp only [Parser.add_condition] <;> (repeat' split) <;> rfl

/-- A load of a file that cannot be read: the diagnostics are replaced by the
one error of `make_no_file_error`, the path is recorded, nothing else changes. -/
theorem Parser.load_from_file_failed (host : Host) (self : Parser) (path : String)
    (hread : host.read_file path = none) :
    self.load_from_file host path
      = { self with
          _file_path := some path
          _warnings := []
          _errors := [errors.make_no_file_error (some path)]
          _has_fatal_error := true } := by
  simp [Parser.load_from_file, Parser.BufferHandler.load_file, hread, Parser._run_load_func,
    errors.make_no_file_error]

/-- A load of a file that can be read: the diagnostics are cleared, the path is
recorded, the text becomes the buffer. -/
theorem Parser.load_from_file_read (host : Host) (self : Parser) (path : String)
    (text : List Char) (hread : host.read_file path = some text) :
    self.load_from_file host path
      = { self with
          _file_path := some path
          _warnings := []
          _errors := []
          _has_fatal_error := false
          _buffer_handler := { self._buffer_handler with _buffer := some text } } := by
  simp [Parser.load_from_file, Parser.BufferHandler.load_file, hread, Parser._run_load_func]

/-- Models `parse()` on a session without a buffer: it returns `false` and changes nothing. -/
theorem Parser.parse_unloaded (host : Host) (file : FileRun) (self : Parser)
    (h : self._buffer_handler._buffer = none) :
    Parser.parse host file self = some (false, self) := by
  simp [Parser.parse, Parser.BufferHandler.is_valid, h]

theorem Parser.call_unloaded (host : Host) (self next : Parser) (call : Parser.Call)
    (hcall : call.materializes host = false)
    (h : Parser.call host self call = some next) (hself : self.unloaded) :
    next.unloaded := by
  cases call with
  | load_from_string string => simp [Parser.Call.materializes] at hcall
  | load_from_file path =>
    cases hread : host.read_file path with
    | some text => simp [Parser.Call.materializes, hread] at hcall
    | none =>
      simp only [Parser.call, Option.some.injEq] at h
      rw [← h, Parser.load_from_file_failed host self path hread]
      exact hself
  | load_from_file_root path root =>
    cases hread : host.read_file path with
    | some text => simp [Parser.Call.materializes, hread] at hcall
    | none =>
      simp only [Parser.call, Option.some.injEq] at h
      rw [← h, Parser.load_from_file_root, Parser.load_from_file_failed host self path hread]
      exact hself
  | parse depth =>
    simp only [Parser.call, Parser.run, Parser.parse_unloaded host _ self hself.1,
      Option.map_some', Option.some.injEq] at h
    rw [← h]; exact hself
  | add_condition conditional =>
    simp only [Parser.call, Option.some.injEq] at h
    rw [← h]
    unfold Parser.add_condition
    split
    · exact hself
    · exact hself
  | remove_condition conditional =>
    simp only [Parser.call, Option.some.injEq] at h
    rw [← h]
    unfold Parser.remove_condition
    split
    · exact hself
    · exact hself
  | clear_conditions =>
    simp only [Parser.call, Option.some.injEq] at h
    rw [← h]; exact hself

theorem Parser.calls_unloaded (host : Host) (calls : List Parser.Call) (self last : Parser)
    (hcalls : ∀ call ∈ calls, call.materializes host = false)
    (h : Parser.calls host self calls = some last) (hself : self.unloaded) :
    last.unloaded := by
  induction calls generalizing self with
  | nil =>
    simp only [Parser.calls, Option.some.injEq] at h
    rw [← h]; exact hself
  | cons call rest ih =>
    simp only [Parser.calls] at h
    cases hcall : Parser.call host self call with
    | none => rw [hcall] at h; exact absurd h (by simp)
    | some next =>
      rw [hcall] at h
      exact ih next (fun c hc => hcalls c (List.mem_cons_of_mem _ hc)) h
        (Parser.call_unloaded host self next call (hcalls call (List.mem_cons_self _ _))
          hcall hself)

theorem Parser.new_unloaded (host : Host) : (Parser.new host).unloaded := by
  unfold Parser.new Parser.set_default_conditions
  cases host.target <;>
    simp only [Parser.add_condition] <;> (repeat' split) <;> exact ⟨rfl, rfl⟩

/-- C15. After `load_from_file` on a path that cannot be read, whatever the
session was, the error list is the one error of `make_no_file_error`, which is
`Fatal` with code 1; `has_error()` and `has_fatal_error()` are true; the load
takes no run of the grammar, and the tree and the buffer handler of the
session are what they were, so a fresh session still has no tree. -/
theorem Parser.load_from_file_failure (host : Host) (self : Parser) (path : String)
    (hread : host.read_file path = none) :
    (∃ error, (self.load_from_file host path).get_errors = [error]
        ∧ error.type = ParseError.Type.Fatal ∧ error.error_value = 1
        ∧ error.message = "File '" ++ path ++ "' was not found.")
    ∧ (self.load_from_file host path).has_error = true
    ∧ (self.load_from_file host path).has_fatal_error = true
    ∧ (self.load_from_file host path).get_key_values = self.get_key_values
    ∧ (self.load_from_file host path)._buffer_handler = self._buffer_handler
    ∧ ((Parser.new host).load_from_file host path).get_key_values = none := by
  refine ⟨⟨errors.make_no_file_error (some path), ?_, rfl, rfl, rfl⟩, ?_, ?_, ?_, ?_, ?_⟩
  · rw [Parser.load_from_file_failed host self path hread]; rfl
  · rw [Parser.load_from_file_failed host self path hread]; rfl
  · rw [Parser.load_from_file_failed host self path hread]; rfl
  · rw [Parser.load_from_file_failed host self path hread]; rfl
  · rw [Parser.load_from_file_failed host self path hread]
  · rw [Parser.load_from_file_failed host _ path hread]
    exact (Parser.new_unloaded host).2

/-- C15 on the sample host: the session that loaded `bad.vdf` and failed to
parse it holds one error that is not fatal; the load of `absent.vdf` leaves
one error and the fatal flag. -/
theorem Parser.load_from_file_failure_witness :
    (sample.after [.load_from_file "bad.vdf", .parse 1]).has_fatal_error = false
    ∧ ((sample.after [.load_from_file "bad.vdf", .parse 1]).load_from_file sample.host
        "absent.vdf").has_fatal_error = true
    ∧ ((sample.after [.load_from_file "bad.vdf", .parse 1]).load_from_file sample.host
        "absent.vdf").get_errors.length = 1 :=
  ⟨rfl,
   (Parser.load_from_file_failure sample.host
      (sample.after [.load_from_file "bad.vdf", .parse 1]) "absent.vdf" rfl).2.2.1,
   rfl⟩

/-- C16. In every session reached from a fresh one by loads, `parse()` calls and
changes of the condition set, `has_fatal_error()` is true exactly when one of
the errors of `get_errors()` is `Fatal`; so it implies `has_error()`. -/
theorem Parser.fatal_flag_invariant (host : Host) (calls : List Parser.Call) (session : Parser)
    (h : Parser.calls host (Parser.new host) calls = some session) :
    (session.has_fatal_error = true
        ↔ ∃ error ∈ session.get_errors, error.type = ParseError.Type.Fatal)
    ∧ (session.has_fatal_error = true → session.has_error = true) := by
  have hflag := Parser.calls_flag_agrees host calls _ session h (Parser.new_flag_agrees host)
  have hiff : session.has_fatal_error = true
      ↔ ∃ error ∈ session.get_errors, error.type = ParseError.Type.Fatal := by
    simp only [Parser.has_fatal_error, Parser.get_errors]
    rw [hflag]
    simp
  refine ⟨hiff, fun hf => ?_⟩
  obtain ⟨error, hmem, _⟩ := hiff.1 hf
  simp only [Parser.has_error, Parser.get_errors] at hmem ⊢
  cases herr : session._errors with
  | nil => rw [herr] at hmem; exact absurd hmem (List.not_mem_nil _)
  | cons e es => rfl

/-- C16 on the sample host, after a failed load, a load of `bad.vdf`, a failed
`parse()` and a second failed `parse()`: two errors, none fatal, the flag not
set. -/
theorem Parser.fatal_flag_invariant_witness :
    ((sample.after [.load_from_file "absent.vdf", .load_from_file "bad.vdf", .parse 1,
        .parse 1]).has_fatal_error = true
      ↔ ∃ error ∈ (sample.after [.load_from_file "absent.vdf", .load_from_file "bad.vdf",
          .parse 1, .parse 1]).get_errors, error.type = ParseError.Type.Fatal)
    ∧ (sample.after [.load_from_file "absent.vdf", .load_from_file "bad.vdf", .parse 1,
        .parse 1]).get_errors.length = 2 :=
  ⟨(Parser.fatal_flag_invariant sample.host
      [.load_from_file "absent.vdf", .load_from_file "bad.vdf", .parse 1, .parse 1]
      (sample.after [.load_from_file "absent.vdf", .load_from_file "bad.vdf", .parse 1,
        .parse 1]) rfl).1,
   rfl⟩

/-- C17. After a load from memory, and after a load of a file that can be read,
the error list and the warning list are empty and the fatal flag is not set,
whatever the session held; after a load of a file that cannot be read the
error list is the one error of that load, the warning list is empty.  The
load with a root session leaves the same diagnostics. -/
theorem Parser.load_resets_diagnostics (host : Host) (self : Parser) :
    (∀ string, (self.load_from_string string).get_errors = []
        ∧ (self.load_from_string string).get_warnings = []
        ∧ (self.load_from_string string).has_fatal_error = false)
    ∧ (∀ path text, host.read_file path = some text →
        (self.load_from_file host path).get_errors = []
        ∧ (self.load_from_file host path).get_warnings = []
        ∧ (self.load_from_file host path).has_fatal_error = false)
    ∧ (∀ path, host.read_file path = none →
        (self.load_from_file host path).get_errors = [errors.make_no_file_error (some path)]
        ∧ (self.load_from_file host path).get_warnings = [])
    ∧ (∀ path root,
        (self.load_from_file_root host path root).get_errors
          = (self.load_from_file host path).get_errors
        ∧ (self.load_from_file_root host path root).get_warnings
          = (self.load_from_file host path).get_warnings
        ∧ (self.load_from_file_root host path root).has_fatal_error
          = (self.load_from_file host path).has_fatal_error) := by
  refine ⟨fun string => ⟨rfl, rfl, rfl⟩, ?_, ?_, fun path root => ⟨rfl, rfl, rfl⟩⟩
  · intro path text hread
    rw [Parser.load_from_file_read host self path text hread]
    exact ⟨rfl, rfl, rfl⟩
  · intro path hread
    rw [Parser.load_from_file_failed host self path hread]
    exact ⟨rfl, rfl⟩

/-- C17 on the sample host, for the session that holds the error of a failed
`parse()` of `bad.vdf`. -/
theorem Parser.load_resets_diagnostics_witness :
    (sample.after [.load_from_file "bad.vdf", .parse 1]).has_error = true
    ∧ ((sample.after [.load_from_file "bad.vdf", .parse 1]).load_from_file sample.host
        "B.vdf").get_errors = []
    ∧ ((sample.after [.load_from_file "bad.vdf", .parse 1]).load_from_file sample.host
        "absent.vdf").get_errors = [errors.make_no_file_error (some "absent.vdf")] :=
  have h := Parser.load_resets_diagnostics sample.host
    (sample.after [.load_from_file "bad.vdf", .parse 1])
  ⟨rfl, (h.2.1 "B.vdf" sample.B_vdf rfl).1, (h.2.2.1 "absent.vdf" rfl).1⟩

/-- C18. In a session reached from a fresh one by calls none of which put a
buffer into it (loads of files that cannot be read, `parse()` calls, changes
of the condition set), `parse()` returns `false` under every budget, leaves the
session as it is, and `get_key_values()` gives no tree before and after. -/
theorem Parser.parse_before_load (host : Host) (calls : List Parser.Call) (session : Parser)
    (hcalls : ∀ call ∈ calls, call.materializes host = false)
    (h : Parser.calls host (Parser.new host) calls = some session) (depth : Nat) :
    Parser.run host depth session = some (false, session)
    ∧ session.get_key_values = none
    ∧ (∀ next, Parser.call host session (.parse depth) = some next →
        next.get_key_values = none) := by
  have hun := Parser.calls_unloaded host calls _ session hcalls h (Parser.new_unloaded host)
  have hrun : Parser.run host depth session = some (false, session) :=
    Parser.parse_unloaded host _ session hun.1
  refine ⟨hrun, hun.2, ?_⟩
  intro next hnext
  simp only [Parser.call, hrun, Option.map_some', Option.some.injEq] at hnext
  rw [← hnext]; exact hun.2

/-- C18 on the sample host: a fresh session, and a session after a failed load. -/
theorem Parser.parse_before_load_witness :
    Parser.run sample.host 1 (Parser.new sample.host) = some (false, Parser.new sample.host)
    ∧ (sample.after [.load_from_file "absent.vdf", .add_condition "X"]).get_key_values = none :=
  ⟨(Parser.parse_before_load sample.host [] (Parser.new sample.host)
      (fun _ hc => absurd hc (List.not_mem_nil _)) rfl 1).1,
   (Parser.parse_before_load sample.host [.load_from_file "absent.vdf", .add_condition "X"]
      (sample.after [.load_from_file "absent.vdf", .add_condition "X"])
      (by decide) rfl 1).2.1⟩

/-! ## The condition set -/

/-- C19. `remove_condition(n)` returns `true` exactly when `n` was a member of
the condition set; afterwards `n` is not a member, and every other name is a
member exactly when it was one before.  On the set of `A` and `B`, removing
`A` returns `true` and leaves `B`; removing `C` returns `false`. -/
theorem Parser.remove_condition_membership (self : Parser) (n : String) :
    ((self.remove_condition n).1 = true ↔ self.has_condition n = true)
    ∧ (self.remove_condition n).2.has_condition n = false
    ∧ (∀ m, m ≠ n → (self.remove_condition n).2.has_condition m = self.has_condition m)
    ∧ (({ self with conditionals := ["A", "B"] } : Parser).remove_condition "A").1 = true
    ∧ (({ self with conditionals := ["A", "B"] } : Parser).remove_condition "A").2.conditionals
        = ["B"]
    ∧ (({ self with conditionals := ["A", "B"] } : Parser).remove_condition "C").1 = false := by
  refine ⟨?_, ?_, ?_, rfl, rfl, rfl⟩
  · by_cases h : n ∈ self.conditionals <;>
      simp [Parser.remove_condition, Parser.has_condition, h]
  · by_cases h : n ∈ self.conditionals <;>
      simp [Parser.remove_condition, Parser.has_condition, h]
  · intro m hm
    by_cases h : n ∈ self.conditionals <;>
      simp [Parser.remove_condition, Parser.has_condition, h, List.mem_filter, hm]

/-! ## Short circuit of `&&` and `||` -/

/-- C20. When the attribute `[ L ]` evaluates to false, `[ L && r ]` evaluates to
false, and when `[ L ]` evaluates to true, `[ L || r ]` evaluates to true,
for every condition set and every right operand `r`; the infix callback gives
these results for operands of either shape.  With no condition active
`[ !$MISSING && $ALSOMISSING ]` evaluates to false; there `[ !$MISSING ]` is
true and `[ $ALSOMISSING ]` is false. -/
theorem grammar.ConditionalExpression.short_circuit (ucd : UnicodeData) (state : Parser.State)
    (L r : condition.Expr) (ws ws₀ rest : List Char) (hws₀ : condition.is_layout ws₀ = true) :
    ((condition.Expr.and L ws r).well_formed ucd = true →
      grammar.ConditionalAttribute.rule ucd state ('[' :: (ws₀ ++ (L.text ++ ']' :: rest)))
        = some (.value false (grammar.skip ucd rest)) →
      grammar.ConditionalAttribute.rule ucd state
          ('[' :: (ws₀ ++ ((condition.Expr.and L ws r).text ++ ']' :: rest)))
        = some (.value false (grammar.skip ucd rest)))
    ∧ ((condition.Expr.or L ws r).well_formed ucd = true →
      grammar.ConditionalAttribute.rule ucd state ('[' :: (ws₀ ++ (L.text ++ ']' :: rest)))
        = some (.value true (grammar.skip ucd rest)) →
      grammar.ConditionalAttribute.rule ucd state
          ('[' :: (ws₀ ++ ((condition.Expr.or L ws r).text ++ ']' :: rest)))
        = some (.value true (grammar.skip ucd rest)))
    ∧ (∀ lhs rhs : grammar.Operand, condition.resolve state lhs = false →
        grammar.ConditionalExpression.value_infix state lhs grammar.ConditionalType.And rhs
          = false)
    ∧ (∀ lhs rhs : grammar.Operand, condition.resolve state lhs = true →
        grammar.ConditionalExpression.value_infix state lhs grammar.ConditionalType.Or rhs
          = true)
    ∧ grammar.ConditionalAttribute.rule ucd ⟨[], state.parse_warnings⟩
          "[ !$MISSING && $ALSOMISSING ]".toList = some (.value false [])
    ∧ grammar.ConditionalAttribute.rule ucd ⟨[], state.parse_warnings⟩
          "[ !$MISSING ]".toList = some (.value true [])
    ∧ grammar.ConditionalAttribute.rule ucd ⟨[], state.parse_warnings⟩
          "[ $ALSOMISSING ]".toList = some (.value false []) := by
  refine ⟨?_, ?_, ?_, ?_, rfl, rfl, rfl⟩
  · intro hwf hL
    have hLwf : L.well_formed ucd = true := by
      simp only [condition.Expr.well_formed, Bool.and_eq_true] at hwf
      exact hwf.1.1.1.1
    rw [grammar.ConditionalAttribute.rule_text ucd state L ws₀ rest hLwf hws₀] at hL
    simp only [Option.some.injEq, Parsed.value.injEq, and_true] at hL
    rw [grammar.ConditionalAttribute.rule_text ucd state _ ws₀ rest hwf hws₀]
    simp only [condition.Expr.denote, hL, Bool.false_and]
  · intro hwf hL
    have hLwf : L.well_formed ucd = true := by
      simp only [condition.Expr.well_formed, Bool.and_eq_true] at hwf
      exact hwf.1.1.1
    rw [grammar.ConditionalAttribute.rule_text ucd state L ws₀ rest hLwf hws₀] at hL
    simp only [Option.some.injEq, Parsed.value.injEq, and_true] at hL
    rw [grammar.ConditionalAttribute.rule_text ucd state _ ws₀ rest hwf hws₀]
    simp only [condition.Expr.denote, hL, Bool.true_or]
  · intro lhs rhs h
    rw [(grammar.ConditionalExpression.value_infix_eq state lhs rhs).1, h, Bool.false_and]
  · intro lhs rhs h
    rw [(grammar.ConditionalExpression.value_infix_eq state lhs rhs).2, h, Bool.true_or]

/-- C20 with only `A` active: `[ $B && $A ]` is false since `[ $B ]` is, and
`[ $A || $B ]` is true since `[ $A ]` is. -/
theorem grammar.ConditionalExpression.short_circuit_witness :
    grammar.ConditionalAttribute.rule sample.ucd ⟨["A"], []⟩ "[ $B && $A ]".toList
        = some (.value false [])
    ∧ grammar.ConditionalAttribute.rule sample.ucd ⟨["A"], []⟩ "[ $A || $B ]".toList
        = some (.value true []) :=
  ⟨(grammar.ConditionalExpression.short_circuit sample.ucd ⟨["A"], []⟩
      (.name ['B'] [' ']) (.name ['A'] [' ']) [' '] [' '] [] (by decide)).1 (by decide) rfl,
   (grammar.ConditionalExpression.short_circuit sample.ucd ⟨["A"], []⟩
      (.name ['A'] [' ']) (.name ['B'] [' ']) [' '] [' '] [] (by decide)).2.1 (by decide) rfl⟩

/-! ## Default conditions -/

/-- C23. A fresh session holds `X360` on the console target; `WIN32` and
`WINDOWS` on a Windows target; `WIN32`, `POSIX` and `OSX` on macOS; `WIN32`,
`POSIX` and `LINUX` on Linux; nothing on any other target.  So `WIN32` is
seeded on every desktop target, the POSIX ones included. -/
theorem Parser.default_conditions (host : Host) :
    (Parser.new host).conditionals
        = (match host.target with
           | .X360 => ["X360"]
           | .WIN32 => ["WIN32", "WINDOWS"]
           | .APPLE => ["WIN32", "POSIX", "OSX"]
           | .linux => ["WIN32", "POSIX", "LINUX"]
           | .other => [])
    ∧ (∀ c, (Parser.new host).has_condition c
        = (match host.target with
           | .X360 => decide (c = "X360")
           | .WIN32 => decide (c = "WIN32" ∨ c = "WINDOWS")
           | .APPLE => decide (c = "WIN32" ∨ c = "POSIX" ∨ c = "OSX")
           | .linux => decide (c = "WIN32" ∨ c = "POSIX" ∨ c = "LINUX")
           | .other => false)) := by
  have h : (Parser.new host).conditionals
        = (match host.target with
           | .X360 => ["X360"]
           | .WIN32 => ["WIN32", "WINDOWS"]
           | .APPLE => ["WIN32", "POSIX", "OSX"]
           | .linux => ["WIN32", "POSIX", "LINUX"]
           | .other => []) := by
    unfold Parser.new Parser.set_default_conditions
    cases host.target <;> rfl
  refine ⟨h, fun c => ?_⟩
  unfold Parser.has_condition
  rw [h]
  cases host.target <;> simp

/-- C23 fails on a POSIX target: the fresh session of a Linux host has the
condition `WIN32`, so its set is not the set of `POSIX` and `LINUX`; the same
on macOS. -/
theorem Parser.default_conditions_posix_has_WIN32 :
    (Parser.new (sample.host_on Target.linux)).has_condition "WIN32" = true
    ∧ (Parser.new (sample.host_on Target.linux)).conditionals = ["WIN32", "POSIX", "LINUX"]
    ∧ ¬ (∀ c, (Parser.new (sample.host_on Target.linux)).has_condition c = true
          ↔ c = "POSIX" ∨ c = "LINUX")
    ∧ (Parser.new (sample.host_on Target.APPLE)).has_condition "WIN32" = true := by
  refine ⟨rfl, rfl, ?_, rfl⟩
  intro h
  have := (h "WIN32").1 rfl
  revert this
  decide

/-! ## Includes and the condition set -/

/-- The include step of the fold in terms of the outcome of the merge: the
tree is the merged one, a warning of `merge_check` is appended, the condition
set is untouched. -/
theorem grammar.ListValue.value_file_eq (merge : grammar.Merge) (state : Parser.State)
    (values : KeyValues) (file : grammar.EmplaceFile) :
    grammar.ListValue.value_file merge state values file
      = (merge values file.file).map fun r =>
          (r.2, ⟨state.conditionals,
            state.parse_warnings ++ (warnings.merge_check file.file r.1).toList⟩) := by
  unfold grammar.ListValue.value_file
  cases merge values file.file with
  | none => rfl
  | some r =>
    obtain ⟨merge_error, values'⟩ := r
    cases hw : warnings.merge_check file.file merge_error <;> simp [hw]

/-- C24. The include step that takes the state, under any condition set:
the tree becomes what `MergeWith` makes of it, and `MergeWith` parses the file
under the conditions of a fresh session, so the tree and the warnings after
the step are the same for any two condition sets of the including parse, and
the condition set of the including parse is left as it is.  On a Windows host
with `C.vdf` holding `"w" "1" [ $WIN32 ] "c" "2" [ $CUSTOM ]`, the text
`#include "C.vdf"` parses to `w -> "1"` both in a session that removed `WIN32`
and added `CUSTOM` and in a fresh one.  The step that the fold calls takes no
state at all, and makes the same tree. -/
theorem grammar.ListValue.include_ignores_conditions (host : Host) (depth : Nat)
    (values : KeyValues) (file : grammar.EmplaceFile) (conditionals₁ conditionals₂ : List String)
    (reported : List ParseWarning) :
    grammar.ListValue.value_file (grammar.merge_with host (depth + 1)) ⟨conditionals₁, reported⟩
        values file
      = (match host.read_file file.file with
         | none =>
           some (values,
             ⟨conditionals₁, reported ++ [⟨"Could not find '" ++ file.file ++ "'.", 1⟩]⟩)
         | some text =>
           match grammar.File.run host depth ⟨(Parser.new host).conditionals, []⟩ text with
           | .error _ =>
             some (values, ⟨conditionals₁,
               reported ++ [⟨String.singleton '"' ++ file.file ++ "' could not be parsed.", 2⟩]⟩)
           | .value (B, _) _ => some (values.AppendKeyValues B, ⟨conditionals₁, reported⟩)
           | .fuel => none)
    ∧ (grammar.ListValue.value_file (grammar.merge_with host depth) ⟨conditionals₁, reported⟩
          values file).map (fun r => (r.1, r.2.parse_warnings))
        = (grammar.ListValue.value_file (grammar.merge_with host depth) ⟨conditionals₂, reported⟩
          values file).map (fun r => (r.1, r.2.parse_warnings))
    ∧ (∀ r, grammar.ListValue.value_file (grammar.merge_with host depth)
          ⟨conditionals₁, reported⟩ values file = some r → r.2.conditionals = conditionals₁)
    ∧ (Parser.run sample.host_C 1
          ((((Parser.new sample.host_C).remove_condition "WIN32").2.add_condition
            "CUSTOM").load_from_string "#include \"C.vdf\"".toList)).map
          (fun r => (r.1, r.2.get_key_values))
        = some (true, some [("w", ValueType.string "1")])
    ∧ (Parser.run sample.host_C 1
          ((Parser.new sample.host_C).load_from_string "#include \"C.vdf\"".toList)).map
          (fun r => (r.1, r.2.get_key_values))
        = some (true, some [("w", ValueType.string "1")])
    ∧ grammar.ListValue.value_merge (grammar.merge_with host (depth + 1)) values file
      = (match host.read_file file.file with
         | none => some values
         | some text =>
           match grammar.File.run host depth ⟨(Parser.new host).conditionals, []⟩ text with
           | .error _ => some values
           | .value (B, _) _ => some (values.AppendKeyValues B)
           | .fuel => none) := by
  refine ⟨?_, ?_, ?_, rfl, rfl, ?_⟩
  · simp only [grammar.ListValue.value_file, grammar.merge_with_succ]
    cases host.read_file file.file with
    | none => rfl
    | some text =>
      simp only
      cases grammar.File.run host depth ⟨(Parser.new host).conditionals, []⟩ text with
      | value a rest => rfl
      | error e => rfl
      | fuel => rfl
  · simp only [grammar.ListValue.value_file_eq, Option.map_map]
    rfl
  · intro r hr
    rw [grammar.ListValue.value_file_eq] at hr
    cases hm : grammar.merge_with host depth values file.file with
    | none => rw [hm] at hr; exact absurd hr (by simp)
    | some r' =>
      rw [hm] at hr
      simp only [Option.map_some', Option.some.injEq] at hr
      rw [← hr]
  · simp only [grammar.ListValue.value_merge, grammar.merge_with_succ]
    cases host.read_file file.file with
    | none => rfl
    | some text =>
      simp only
      cases grammar.File.run host depth ⟨(Parser.new host).conditionals, []⟩ text with
      | value a rest => rfl
      | error e => rfl
      | fuel => rfl

/-! ## The tree factories -/

/-- C25. The factories `KeyValues::from_string`, `from_buffer` and `from_file`
load into a fresh session and release its tree without a call of `parse()`,
so they return the null pointer for every input; a session that loads the
text `"a" "b"` and calls `parse()` holds the tree `a -> "b"`. -/
theorem KeyValues.factories_return_null (host : Host) (string : List Char) (path : String) :
    KeyValues.from_string host string = none
    ∧ KeyValues.from_buffer host string = none
    ∧ KeyValues.from_file host path = none
    ∧ KeyValues.from_string sample.host "\"a\" \"b\"".toList = none
    ∧ (Parser.run sample.host 0
          ((Parser.new sample.host).load_from_string "\"a\" \"b\"".toList)).map
          (fun r => (r.1, r.2.get_key_values))
        = some (true, some [("a", ValueType.string "b")]) := by
  have hnew := (Parser.new_unloaded host).2
  refine ⟨?_, ?_, ?_, rfl, rfl⟩
  · simp only [KeyValues.from_string, Parser.from_string, Parser.release_key_values,
      Parser.load_from_string, Parser._run_load_func, Parser.BufferHandler.load_buffer_size, hnew,
      ite_self]
  · simp only [KeyValues.from_buffer, Parser.from_buffer, Parser.release_key_values,
      Parser.load_from_buffer, Parser._run_load_func, Parser.BufferHandler.load_buffer_size, hnew,
      ite_self]
  · simp only [KeyValues.from_file, Parser.from_file, Parser.release_key_values]
    cases hread : host.read_file path with
    | none =>
      rw [Parser.load_from_file_failed host _ path hread]
      rfl
    | some text =>
      rw [Parser.load_from_file_read host _ path text hread]
      simp only [hnew, ite_self]

/-! ## The alternatives of `ValueExpression` by the first code point -/

/-- An input that starts with neither a digit nor a sign is no numeral. -/
theorem grammar.numeral_none (ucd : UnicodeData) (c : Char) (t : List Char)
    (hd : dsl.is_digit c = false) (hp : c ≠ '+') (hm : c ≠ '-') :
    grammar.FloatValue.rule ucd (c :: t) = none
    ∧ grammar.IntegerValue.rule ucd (c :: t) = none := by
  have h0 : c ≠ '0' := by
    intro h; rw [h] at hd; exact absurd hd (by decide)
  have hb : ('0' == c) = false := by
    simp only [beq_eq_false_iff_ne, ne_eq]; exact fun h => h0 h.symm
  have hdig : grammar.digits (c :: t) = none := by
    simp [grammar.digits, List.takeWhile, hd]
  refine ⟨?_, ?_⟩
  · simp [grammar.FloatValue.rule, grammar.FloatValue.token, grammar.sign, hp, hm, hdig]
  · simp [grammar.IntegerValue.rule, List.isPrefixOf, hb, hdig]

/-- An input that starts with no `xid_start_underscore` code point is no `PlainValue`. -/
theorem grammar.PlainValue.plain_none (ucd : UnicodeData) (c : Char) (t : List Char)
    (h : dsl.xid_start_underscore ucd c = false) :
    grammar.PlainValue.rule ucd (c :: t) = none := by
  simp [grammar.PlainValue.rule, grammar.PlainValue.token, h]

/-- The empty input is no value. -/
theorem grammar.ValueExpression.rule_nil (ucd : UnicodeData) (merge : grammar.Merge)
    (statement : grammar.Run KeyValues.copy_pair_type) (k : Nat) (state : Parser.State) :
    grammar.ValueExpression.rule ucd merge statement k state [] = none := by
  simp [grammar.ValueExpression.rule, grammar.ListValue.rule, grammar.lit, List.isPrefixOf,
    grammar.FloatValue.rule, grammar.FloatValue.token, grammar.sign, grammar.digits,
    grammar.IntegerValue.rule, grammar.PlainValue.rule, grammar.PlainValue.token,
    grammar.StringValue.rule]

/-- A value that starts with a quotation mark is what `StringValue` makes of it. -/
theorem grammar.ValueExpression.rule_quote (ucd : UnicodeData) (merge : grammar.Merge)
    (statement : grammar.Run KeyValues.copy_pair_type) (k : Nat) (state : Parser.State)
    (t : List Char) :
    grammar.ValueExpression.rule ucd merge statement k state ('"' :: t)
      = match grammar.StringValue.rule ucd ('"' :: t) with
        | some (.value s rest) => some (.value (ValueType.string s, state) rest)
        | some (.error _) => some (.error state)
        | some .fuel => some .fuel
        | none => none := by
  have h1 := grammar.ListValue.rule_none ucd merge statement k state ('"' :: t) (by simp)
  have h2 := grammar.numeral_none ucd '"' t (by decide) (by decide) (by decide)
  have h3 := grammar.PlainValue.plain_none ucd '"' t rfl
  cases hs : grammar.StringValue.rule ucd ('"' :: t) with
  | none =>
    conv_lhs => unfold grammar.ValueExpression.rule
    simp [h1, h2.1, h2.2, h3, hs]
  | some r =>
    cases r <;> (conv_lhs => unfold grammar.ValueExpression.rule) <;>
      simp [h1, h2.1, h2.2, h3, hs]

/-- A value of the integer or of the float alternative comes from an input
that starts with a digit or a sign. -/
theorem grammar.ValueExpression.numeric_head (ucd : UnicodeData) (merge : grammar.Merge)
    (statement : grammar.Run KeyValues.copy_pair_type) (k : Nat) (state state' : Parser.State)
    (input rest : List Char) (value : ValueType)
    (h : grammar.ValueExpression.rule ucd merge statement k state input
      = some (.value (value, state') rest))
    (hvalue : value.index = 2 ∨ value.index = 3) :
    ∃ c t, input = c :: t ∧ (dsl.is_digit c = true ∨ c = '+' ∨ c = '-') := by
  cases input with
  | nil => rw [grammar.ValueExpression.rule_nil] at h; exact absurd h (by simp)
  | cons c t =>
    refine ⟨c, t, rfl, ?_⟩
    by_contra hc
    simp only [not_or, Bool.not_eq_true] at hc
    have hnum := grammar.numeral_none ucd c t hc.1 hc.2.1 hc.2.2
    unfold grammar.ValueExpression.rule at h
    simp only [hnum.1, hnum.2] at h
    split at h
    · simp only [Option.some.injEq, Parsed.value.injEq, Prod.mk.injEq] at h
      rw [← h.1.1] at hvalue
      simp [ValueType.index] at hvalue
    · exact absurd h (by simp)
    · exact absurd h (by simp)
    · split at h
      · simp only [Option.some.injEq, Parsed.value.injEq, Prod.mk.injEq] at h
        rw [← h.1.1] at hvalue
        simp [ValueType.index] at hvalue
      · split at h
        · simp only [Option.some.injEq, Parsed.value.injEq, Prod.mk.injEq] at h
          rw [← h.1.1] at hvalue
          simp [ValueType.index] at hvalue
        · exact absurd h (by simp)
        · exact absurd h (by simp)
        · exact absurd h (by simp)

/-! ## Quoted values -/

/-- C27. A quoted string in value position yields the string alternative with
the decoded text, whatever the text is; a value of the integer or of the
float alternative comes only from an input that starts with a digit or a
sign, so from no quoted string.  The text `"a" "1"` parses to `a -> "1"` with a
string, on which `GetInt("a", d)` is `d` for every `d`, and `"a" 1` parses to
the integer 1. -/
theorem grammar.ValueExpression.quoted_is_string (ucd : UnicodeData) (merge : grammar.Merge)
    (statement : grammar.Run KeyValues.copy_pair_type) (k : Nat) (state : Parser.State)
    (body : List quoted.Piece) (rest : List Char)
    (hbody : ∀ p ∈ body, p.well_formed ucd = true) :
    grammar.ValueExpression.rule ucd merge statement k state
        ('"' :: (quoted.text body ++ '"' :: rest))
      = some (.value (ValueType.string (String.mk (quoted.decoded body)), state)
          (grammar.skip ucd rest))
    ∧ (∀ (input left : List Char) (value : ValueType) (state' : Parser.State),
        grammar.ValueExpression.rule ucd merge statement k state input
          = some (.value (value, state') left) →
        value.index = 2 ∨ value.index = 3 →
        ∃ c t, input = c :: t ∧ (dsl.is_digit c = true ∨ c = '+' ∨ c = '-'))
    ∧ sample.outcome (grammar.File.run sample.host 0 ⟨[], []⟩ "\"a\" \"1\"".toList)
        = some ([("a", ValueType.string "1")], [])
    ∧ (∀ d : Int, KeyValues.GetInt [("a", ValueType.string "1")] "a" d = some d)
    ∧ sample.outcome (grammar.File.run sample.host 0 ⟨[], []⟩ "\"a\" 1".toList)
        = some ([("a", ValueType.int32 1)], []) := by
  refine ⟨?_, ?_, rfl, fun d => rfl, rfl⟩
  · rw [grammar.ValueExpression.rule_quote]
    simp only [grammar.StringValue.rule, if_true,
      (grammar.StringValue.body_text ucd body hbody rest).1]
  · intro input left value state' h hvalue
    exact grammar.ValueExpression.numeric_head ucd merge statement k state state' input left
      value h hvalue

/-- C27 at the quoted numerals `"1"` and `"-2.5e3"`. -/
theorem grammar.ValueExpression.quoted_is_string_witness :
    grammar.ValueExpression.rule sample.ucd (fun _ _ => none) (fun _ _ => none) 0 ⟨[], []⟩
        "\"1\" x".toList
      = some (.value (ValueType.string "1", ⟨[], []⟩) ['x'])
    ∧ grammar.ValueExpression.rule sample.ucd (fun _ _ => none) (fun _ _ => none) 0 ⟨[], []⟩
        "\"-2.5e3\"".toList
      = some (.value (ValueType.string "-2.5e3", ⟨[], []⟩) []) :=
  ⟨(grammar.ValueExpression.quoted_is_string sample.ucd (fun _ _ => none) (fun _ _ => none) 0
      ⟨[], []⟩ [.char '1'] [' ', 'x'] (by decide)).1,
   (grammar.ValueExpression.quoted_is_string sample.ucd (fun _ _ => none) (fun _ _ => none) 0
      ⟨[], []⟩ [.char '-', .char '2', .char '.', .char '5', .char 'e', .char '3'] []
      (by decide)).1⟩

/-! ## A suppressed entry and its key -/

/-- The pair of a statement with a false attribute adds nothing to the fold. -/
theorem grammar.ListValue.foldl_suppressed (key : String) (value : ValueType)
    (earlier later : List KeyValues.copy_pair_type) (values : KeyValues) :
    (earlier ++ grammar.KeyValueStatement.value_bool key value false :: later).foldl
        grammar.ListValue.value_pair values
      = (earlier ++ later).foldl grammar.ListValue.value_pair values := by
  simp only [List.foldl_append, List.foldl_cons]
  rfl

/-- C26. In a scope that is a run of statements in which a statement with the
key `k` has a false attribute, a later statement has the key `k`, no attribute
or a true one and the value `v`, and no statement before that later one has
put `k` into the tree, the tree maps `k` to `v`: the suppressed statement
yields the empty pair, which the fold drops, so the tree is the fold of the
other statements.  This holds for the file and for an object between its
braces.  With `X` inactive `"a" "1" [ $X ] "a" "2"` parses to `a -> "2"`. -/
theorem grammar.ListValue.suppressed_key_free (ucd : UnicodeData) (merge : grammar.Merge)
    (state state' : Parser.State) (input : List Char) (k : String) (suppressed v : ValueType)
    (earlier between later : List KeyValues.copy_pair_type)
    (hrun : grammar.Statements (grammar.KeyValueStatement.rule ucd merge (input.length + 1)) state
      (grammar.skip ucd input)
      (earlier ++ grammar.KeyValueStatement.value_bool k suppressed false
        :: (between ++ (k, v) :: later)) state' [])
    (hv : v.index ≠ 0)
    (hfree : KeyValues.find ((earlier ++ between).foldl grammar.ListValue.value_pair []) k
      = none) :
    (∃ tree, grammar.File.rule ucd merge state input = .value (tree, state') []
        ∧ tree = (earlier ++ (between ++ (k, v) :: later)).foldl grammar.ListValue.value_pair []
        ∧ KeyValues.find tree k = some v)
    ∧ (∀ (n j : Nat) (object rest : List Char),
        (earlier ++ grammar.KeyValueStatement.value_bool k suppressed false
          :: (between ++ (k, v) :: later)).length ≤ j →
        grammar.Statements (grammar.KeyValueStatement.rule ucd merge n) state
          (grammar.skip ucd object)
          (earlier ++ grammar.KeyValueStatement.value_bool k suppressed false
            :: (between ++ (k, v) :: later)) state' (Char.ofNat 125 :: rest) →
        ∃ tree, grammar.ListValue.rule ucd merge (grammar.KeyValueStatement.rule ucd merge n) j
            state (Char.ofNat 123 :: object)
          = some (.value (tree, state') (grammar.skip ucd rest))
          ∧ KeyValues.find tree k = some v)
    ∧ sample.outcome (grammar.File.run sample.host 0 ⟨[], []⟩
          "\"a\" \"1\" [ $X ] \"a\" \"2\"".toList)
        = some ([("a", ValueType.string "2")], []) := by
  have hfind : KeyValues.find
      ((earlier ++ (between ++ (k, v) :: later)).foldl grammar.ListValue.value_pair []) k
      = some v := by
    rw [← List.append_assoc, List.foldl_append, grammar.ListValue.find_foldl_value_pair, hfree]
    simp [List.filter, hv, KeyValues.find]
  have hne : earlier ++ grammar.KeyValueStatement.value_bool k suppressed false
      :: (between ++ (k, v) :: later) ≠ [] := by simp
  refine ⟨⟨_, grammar.File.file_of_statements ucd merge state state' input _ hne hrun, ?_, ?_⟩,
    ?_, rfl⟩
  · exact grammar.ListValue.foldl_suppressed k suppressed earlier _ []
  · rw [grammar.ListValue.foldl_suppressed]; exact hfind
  · intro n j object rest hj hobject
    refine ⟨_, grammar.ListValue.object_of_statements ucd merge n j state state' object rest _
      hne hj hobject, ?_⟩
    rw [grammar.ListValue.foldl_suppressed]; exact hfind

/-- C26 at the text `"a" "1" [ $X ] "a" "2"` with no condition active. -/
theorem grammar.ListValue.suppressed_key_free_witness :
    ∃ tree, grammar.File.rule sample.ucd (fun _ _ => none) ⟨[], []⟩
        "\"a\" \"1\" [ $X ] \"a\" \"2\"".toList = .value (tree, ⟨[], []⟩) []
      ∧ tree = [("a", ValueType.string "2")]
      ∧ KeyValues.find tree "a" = some (ValueType.string "2") :=
  (grammar.ListValue.suppressed_key_free sample.ucd (fun _ _ => none) ⟨[], []⟩ ⟨[], []⟩
    "\"a\" \"1\" [ $X ] \"a\" \"2\"".toList "a" (ValueType.string "1") (ValueType.string "2")
    [] [] []
    (@grammar.Statements.cons _ ⟨[], []⟩ ⟨[], []⟩ ⟨[], []⟩ _ "\"a\" \"2\"".toList [] _ _ rfl
      (by decide)
      (@grammar.Statements.cons _ ⟨[], []⟩ ⟨[], []⟩ ⟨[], []⟩ _ [] [] _ _ rfl (by decide)
        (grammar.Statements.nil _ _)))
    (by decide) rfl).1

/-- C26 fails when an earlier statement holds the key: with `X` inactive the
second statement of `"a" "0" "a" "1" [ $X ] "a" "2"` is suppressed, the third
one is not, and the tree maps `a` to `"0"`, the value of the first one; and in
`"a" "1" [ $X ] "a" "2" "a" "3"` the tree maps `a` to `"2"`, not to the value of
the later statement `"a" "3"`. -/
theorem grammar.ListValue.suppressed_key_earlier_entry :
    sample.outcome (grammar.File.run sample.host 0 ⟨[], []⟩
        "\"a\" \"0\" \"a\" \"1\" [ $X ] \"a\" \"2\"".toList)
      = some ([("a", ValueType.string "0")], [])
    ∧ sample.outcome (grammar.File.run sample.host 0 ⟨[], []⟩
        "\"a\" \"1\" [ $X ] \"a\" \"2\" \"a\" \"3\"".toList)
      = some ([("a", ValueType.string "2")], []) :=
  ⟨rfl, rfl⟩

/-! ## No empty alternative in a parsed tree -/

theorem KeyValues.has_empty_cons (key : String) (value : ValueType) (rest : KeyValues) :
    KeyValues.has_empty ((key, value) :: rest) = (value.has_empty || KeyValues.has_empty rest) := by
  simp [KeyValues.has_empty]

theorem KeyValues.has_empty_append (a b : KeyValues) :
    KeyValues.has_empty (a ++ b) = (KeyValues.has_empty a || KeyValues.has_empty b) := by
  induction a with
  | nil => simp [KeyValues.has_empty]
  | cons hd tl ih =>
    obtain ⟨k, v⟩ := hd
    rw [List.cons_append, KeyValues.has_empty_cons, KeyValues.has_empty_cons, ih, Bool.or_assoc]

theorem KeyValues.has_empty_emplace (self : KeyValues) (key : String) (value : ValueType)
    (hself : self.has_empty = false) (hvalue : value.has_empty = false) :
    (self.emplace key value).has_empty = false := by
  unfold KeyValues.emplace
  cases self.find key with
  | some old => exact hself
  | none =>
    simp only
    rw [KeyValues.has_empty_append, hself, KeyValues.has_empty_cons, hvalue]
    rfl

theorem KeyValues.has_empty_AppendKeyValues (D S : KeyValues) (hD : D.has_empty = false)
    (hS : S.has_empty = false) : (D.AppendKeyValues S).has_empty = false := by
  unfold KeyValues.AppendKeyValues
  induction S generalizing D with
  | nil => exact hD
  | cons hd tl ih =>
    obtain ⟨k, v⟩ := hd
    rw [KeyValues.has_empty_cons, Bool.or_eq_false_iff] at hS
    rw [List.foldl_cons]
    exact ih _ (KeyValues.has_empty_emplace D k v hD hS.1) hS.2

theorem grammar.ListValue.has_empty_value_pair (values : KeyValues)
    (kv : KeyValues.copy_pair_type) (hvalues : values.has_empty = false)
    (hkv : kv.2.index = 0 ∨ kv.2.has_empty = false) :
    (grammar.ListValue.value_pair values kv).has_empty = false := by
  unfold grammar.ListValue.value_pair
  by_cases h0 : kv.2.index = 0
  · rw [if_pos h0]; exact hvalues
  · rw [if_neg h0]
    exact KeyValues.has_empty_emplace values kv.1 kv.2 hvalues (hkv.resolve_left h0)

theorem grammar.ListValue.has_empty_value_file (merge : grammar.Merge)
    (hmerge : grammar.merges_complete merge) (state : Parser.State) (values : KeyValues)
    (file : grammar.EmplaceFile) (r : KeyValues × Parser.State)
    (h : grammar.ListValue.value_file merge state values file = some r)
    (hvalues : values.has_empty = false) : r.1.has_empty = false := by
  rw [grammar.ListValue.value_file_eq] at h
  cases hm : merge values file.file with
  | none => rw [hm] at h; exact absurd h (by simp)
  | some m =>
    obtain ⟨merge_error, values'⟩ := m
    rw [hm] at h
    simp only [Option.map_some', Option.some.injEq] at h
    rw [← h]
    exact hmerge values values' file.file merge_error hm hvalues

/-- The include step that the fold calls keeps the tree free of the empty
alternative when the merge does. -/
theorem grammar.ListValue.has_empty_value_merge (merge : grammar.Merge)
    (hmerge : grammar.merges_complete merge) (values : KeyValues)
    (file : grammar.EmplaceFile) (r : KeyValues)
    (h : grammar.ListValue.value_merge merge values file = some r)
    (hvalues : values.has_empty = false) : r.has_empty = false := by
  unfold grammar.ListValue.value_merge at h
  cases hm : merge values file.file with
  | none => rw [hm] at h; exact absurd h (by simp)
  | some m =>
    obtain ⟨merge_error, values'⟩ := m
    rw [hm] at h
    simp only [Option.map_some', Option.some.injEq] at h
    rw [← h]
    exact hmerge values values' file.file merge_error hm hvalues

/-- An item of an object keeps the tree free of the empty alternative. -/
theorem grammar.ListValue.has_empty_object_item (ucd : UnicodeData) (merge : grammar.Merge)
    (statement : grammar.Run KeyValues.copy_pair_type)
    (hmerge : grammar.merges_complete merge) (hstatement : grammar.yields_complete statement)
    (values values' : KeyValues) (state state' : Parser.State) (input rest : List Char)
    (hvalues : values.has_empty = false)
    (h : grammar.ListValue.item ucd merge statement values state input
      = some (.value (values', state') rest)) :
    values'.has_empty = false := by
  unfold grammar.ListValue.item at h
  cases hs : statement state input with
  | some r =>
    rw [hs] at h
    cases r with
    | value a rest₁ =>
      obtain ⟨kv, st⟩ := a
      simp only [Option.some.injEq, Parsed.value.injEq, Prod.mk.injEq] at h
      rw [← h.1.1]
      exact grammar.ListValue.has_empty_value_pair values kv hvalues
        (hstatement state st input rest₁ kv hs)
    | error e => simp at h
    | fuel => simp at h
  | none =>
    rw [hs] at h
    simp only at h
    cases hi : grammar.IncludeStatement.rule ucd input with
    | none => rw [hi] at h; simp at h
    | some r =>
      rw [hi] at h
      cases r with
      | value file rest₁ =>
        simp only at h
        cases hf : grammar.ListValue.value_merge merge values file with
        | none => rw [hf] at h; simp at h
        | some vf =>
          rw [hf] at h
          simp only [Option.some.injEq, Parsed.value.injEq, Prod.mk.injEq] at h
          have := grammar.ListValue.has_empty_value_merge merge hmerge values file vf hf
            hvalues
          rw [h.1.1] at this
          exact this
      | error e => simp at h
      | fuel => simp at h

/-- An item of the file keeps the tree free of the empty alternative. -/
theorem grammar.File.has_empty_file_item (ucd : UnicodeData) (merge : grammar.Merge)
    (statement : grammar.Run KeyValues.copy_pair_type)
    (hmerge : grammar.merges_complete merge) (hstatement : grammar.yields_complete statement)
    (values values' : KeyValues) (state state' : Parser.State) (input rest : List Char)
    (hvalues : values.has_empty = false)
    (h : grammar.File.item ucd merge statement values state input
      = some (.value (values', state') rest)) :
    values'.has_empty = false := by
  unfold grammar.File.item at h
  cases hi : grammar.IncludeStatement.rule ucd input with
  | some r =>
    rw [hi] at h
    cases r with
    | value file rest₁ =>
      simp only at h
      cases hf : grammar.ListValue.value_merge merge values file with
      | none => rw [hf] at h; simp at h
      | some vf =>
        rw [hf] at h
        simp only [Option.some.injEq, Parsed.value.injEq, Prod.mk.injEq] at h
        have := grammar.ListValue.has_empty_value_merge merge hmerge values file vf hf
          hvalues
        rw [h.1.1] at this
        exact this
    | error e => simp at h
    | fuel => simp at h
  | none =>
    rw [hi] at h
    simp only at h
    cases hs : statement state input with
    | none => rw [hs] at h; simp at h
    | some r =>
      rw [hs] at h
      cases r with
      | value a rest₁ =>
        obtain ⟨kv, st⟩ := a
        simp only [Option.some.injEq, Parsed.value.injEq, Prod.mk.injEq] at h
        rw [← h.1.1]
        exact grammar.ListValue.has_empty_value_pair values kv hvalues
          (hstatement state st input rest₁ kv hs)
      | error e => simp at h
      | fuel => simp at h

/-- A list of items that keep the tree free of the empty alternative yields
such a tree. -/
theorem grammar.has_empty_list_items (terminator : List Char → Option (List Char))
    (item : KeyValues → grammar.Run KeyValues)
    (hitem : ∀ (values values' : KeyValues) (state state' : Parser.State)
      (input rest : List Char), values.has_empty = false →
      item values state input = some (.value (values', state') rest) →
      values'.has_empty = false)
    (k : Nat) (values tree : KeyValues) (state state' : Parser.State) (input rest : List Char)
    (hvalues : values.has_empty = false)
    (h : grammar.list_items terminator item k values state input = .value (tree, state') rest) :
    tree.has_empty = false := by
  induction k generalizing values state input with
  | zero => simp [grammar.list_items] at h
  | succ k ih =>
    unfold grammar.list_items at h
    cases ht : terminator input with
    | some rest₁ =>
      rw [ht] at h
      simp only [Parsed.value.injEq, Prod.mk.injEq] at h
      rw [← h.1.1]; exact hvalues
    | none =>
      rw [ht] at h
      simp only at h
      cases hi : item values state input with
      | none => rw [hi] at h; simp at h
      | some r =>
        rw [hi] at h
        cases r with
        | value a rest₁ =>
          obtain ⟨values₁, state₁⟩ := a
          simp only at h
          exact ih values₁ state₁ rest₁ (hitem values values₁ state state₁ input rest₁ hvalues hi)
            h
        | error e => simp at h
        | fuel => simp at h

theorem grammar.has_empty_list (terminator : List Char → Option (List Char))
    (item : KeyValues → grammar.Run KeyValues)
    (hitem : ∀ (values values' : KeyValues) (state state' : Parser.State)
      (input rest : List Char), values.has_empty = false →
      item values state input = some (.value (values', state') rest) →
      values'.has_empty = false)
    (k : Nat) (tree : KeyValues) (state state' : Parser.State) (input rest : List Char)
    (h : grammar.list terminator item k state input = .value (tree, state') rest) :
    tree.has_empty = false := by
  unfold grammar.list at h
  cases hi : item [] state input with
  | none => rw [hi] at h; simp at h
  | some r =>
    rw [hi] at h
    cases r with
    | value a rest₁ =>
      obtain ⟨values₁, state₁⟩ := a
      simp only at h
      exact grammar.has_empty_list_items terminator item hitem k values₁ tree state₁ state' rest₁
        rest (hitem [] values₁ state state₁ input rest₁ rfl hi) h
    | error e => simp at h
    | fuel => simp at h

/-- The value of `ValueExpression` holds no empty alternative at any depth. -/
theorem grammar.ValueExpression.has_empty_value (ucd : UnicodeData) (merge : grammar.Merge)
    (statement : grammar.Run KeyValues.copy_pair_type)
    (hmerge : grammar.merges_complete merge) (hstatement : grammar.yields_complete statement)
    (k : Nat) (state state' : Parser.State) (input rest : List Char) (value : ValueType)
    (h : grammar.ValueExpression.rule ucd merge statement k state input
      = some (.value (value, state') rest)) :
    value.has_empty = false := by
  unfold grammar.ValueExpression.rule at h
  cases hl : grammar.ListValue.rule ucd merge statement k state input with
  | some r =>
    rw [hl] at h
    cases r with
    | value a rest₁ =>
      obtain ⟨values, state₁⟩ := a
      simp only [Option.some.injEq, Parsed.value.injEq, Prod.mk.injEq] at h
      rw [← h.1.1]
      unfold grammar.ListValue.rule at hl
      cases hb : grammar.lit ucd [Char.ofNat 123] input with
      | none => rw [hb] at hl; simp at hl
      | some rest₂ =>
        rw [hb] at hl
        simp only [Option.some.injEq] at hl
        have := grammar.has_empty_list _ _
          (fun values values' state state' input rest hv hi =>
            grammar.ListValue.has_empty_object_item ucd merge statement hmerge hstatement values values'
              state state' input rest hv hi) k values state state₁ rest₂ rest₁ hl
        simpa [ValueType.has_empty] using this
    | error e => simp at h
    | fuel => simp at h
  | none =>
    rw [hl] at h
    simp only at h
    split at h
    · split at h
      · simp only [Option.some.injEq, Parsed.value.injEq, Prod.mk.injEq] at h
        rw [← h.1.1]; rfl
      · exact absurd h (by simp)
    · split at h
      · simp only [Option.some.injEq, Parsed.value.injEq, Prod.mk.injEq] at h
        rw [← h.1.1]; rfl
      · exact absurd h (by simp)
      · exact absurd h (by simp)
      · split at h
        · simp only [Option.some.injEq, Parsed.value.injEq, Prod.mk.injEq] at h
          rw [← h.1.1]; rfl
        · split at h
          · simp only [Option.some.injEq, Parsed.value.injEq, Prod.mk.injEq] at h
            rw [← h.1.1]; rfl
          · exact absurd h (by simp)
          · exact absurd h (by simp)
          · exact absurd h (by simp)

/-- The pair of a statement is the empty pair or carries a value without the
empty alternative. -/
theorem grammar.KeyValueStatement.rule_yields_complete (ucd : UnicodeData)
    (merge : grammar.Merge) (hmerge : grammar.merges_complete merge) (n : Nat) :
    grammar.yields_complete (grammar.KeyValueStatement.rule ucd merge n) := by
  induction n with
  | zero =>
    intro state state' input rest kv h
    simp [grammar.KeyValueStatement.rule] at h
  | succ n ih =>
    intro state state' input rest kv h
    unfold grammar.KeyValueStatement.rule at h
    cases hk : grammar.KeyExpression.rule ucd input with
    | none => rw [hk] at h; simp at h
    | some r =>
      rw [hk] at h
      cases r with
      | error e => simp at h
      | fuel => simp at h
      | value key rest₁ =>
        simp only at h
        cases hv : grammar.ValueExpression.rule ucd merge
            (grammar.KeyValueStatement.rule ucd merge n) n state rest₁ with
        | none => rw [hv] at h; simp at h
        | some r =>
          rw [hv] at h
          cases r with
          | error e => simp at h
          | fuel => simp at h
          | value a rest₂ =>
            obtain ⟨value, state₁⟩ := a
            have hvalue := grammar.ValueExpression.has_empty_value ucd merge _ hmerge ih n state
              state₁ rest₁ rest₂ value hv
            simp only at h
            cases hc : grammar.ConditionalAttribute.rule ucd state₁ rest₂ with
            | none =>
              rw [hc] at h
              simp only [Option.some.injEq, Parsed.value.injEq, Prod.mk.injEq] at h
              rw [← h.1.1]
              exact Or.inr hvalue
            | some r =>
              rw [hc] at h
              cases r with
              | error e => simp at h
              | fuel => simp at h
              | value conditional rest₃ =>
                simp only [Option.some.injEq, Parsed.value.injEq, Prod.mk.injEq] at h
                rw [← h.1.1]
                cases conditional
                · exact Or.inl rfl
                · exact Or.inr hvalue

/-- The tree of the production `File` holds no empty alternative at any depth. -/
theorem grammar.File.has_empty_rule (ucd : UnicodeData) (merge : grammar.Merge)
    (hmerge : grammar.merges_complete merge) (state state' : Parser.State)
    (input rest : List Char) (tree : KeyValues)
    (h : grammar.File.rule ucd merge state input = .value (tree, state') rest) :
    tree.has_empty = false :=
  grammar.has_empty_list _ _
    (fun values values' state state' input' rest hv hi =>
      grammar.File.has_empty_file_item ucd merge _ hmerge
        (grammar.KeyValueStatement.rule_yields_complete ucd merge hmerge (input.length + 1))
        values values' state state' input' rest hv hi)
    (input.length + 1) tree state state' (grammar.skip ucd input) rest h

/-- Models `MergeWith` under every budget: it puts no empty alternative into a tree. -/
theorem grammar.merge_with_complete (host : Host) (depth : Nat) :
    grammar.merges_complete (grammar.merge_with host depth) := by
  induction depth with
  | zero =>
    intro D D' p merge_error h
    simp [grammar.merge_with] at h
  | succ depth ih =>
    intro D D' p merge_error h hD
    rw [grammar.merge_with_succ] at h
    cases hread : host.read_file p with
    | none =>
      rw [hread] at h
      simp only [Option.some.injEq, Prod.mk.injEq] at h
      rw [← h.2]; exact hD
    | some text =>
      rw [hread] at h
      simp only at h
      cases hrun : grammar.File.run host depth ⟨(Parser.new host).conditionals, []⟩ text with
      | error e =>
        rw [hrun] at h
        simp only [Option.some.injEq, Prod.mk.injEq] at h
        rw [← h.2]; exact hD
      | fuel => rw [hrun] at h; simp at h
      | value a rest =>
        obtain ⟨B, st⟩ := a
        rw [hrun] at h
        simp only [Option.some.injEq, Prod.mk.injEq] at h
        rw [← h.2]
        exact KeyValues.has_empty_AppendKeyValues D B hD
          (grammar.File.has_empty_rule host.ucd (grammar.merge_with host depth) ih _ st text rest
            B hrun)

/-- C21. When `parse()` succeeds, whatever the buffer, the condition set and
the included files, the session holds a tree in which no entry at any depth
holds the empty alternative `std::monostate`; the same for every run of the
grammar `File` that yields a tree. -/
theorem Parser.tree_has_no_empty (host : Host) (depth : Nat) (session next : Parser)
    (h : Parser.run host depth session = some (true, next)) :
    (∃ tree, next.get_key_values = some tree ∧ tree.has_empty = false)
    ∧ (∀ (state state' : Parser.State) (input rest : List Char) (tree : KeyValues),
        grammar.File.run host depth state input = .value (tree, state') rest →
        tree.has_empty = false) := by
  have hrun : ∀ (state state' : Parser.State) (input rest : List Char) (tree : KeyValues),
      grammar.File.run host depth state input = .value (tree, state') rest →
      tree.has_empty = false := fun state state' input rest tree hr =>
    grammar.File.has_empty_rule host.ucd (grammar.merge_with host depth)
      (grammar.merge_with_complete host depth) state state' input rest tree hr
  refine ⟨?_, hrun⟩
  unfold Parser.run Parser.parse at h
  split at h
  · rename_i buffer hvalid hbuffer
    cases hfile : grammar.File.run host depth ⟨session.conditionals, session._warnings⟩
        buffer with
    | fuel => rw [hfile] at h; simp at h
    | error e => rw [hfile] at h; simp at h
    | value a rest =>
      obtain ⟨tree, st⟩ := a
      rw [hfile] at h
      simp only [Option.some.injEq, Prod.mk.injEq, true_and] at h
      rw [← h]
      exact ⟨tree, rfl, hrun _ st buffer rest tree hfile⟩
  · simp at h

/-- C21 on the sample host with `C.vdf`, for a text with a suppressed
statement, an object with a suppressed statement, and an include. -/
theorem Parser.tree_has_no_empty_witness :
    (∃ tree,
      (((Parser.run sample.host_C 1 ((Parser.new sample.host_C).load_from_string
          "\"a\" \"1\" [ $X ] \"o\" \x7b \"b\" 2 [ $X ] \"c\" 3 \x7d #include \"C.vdf\"".toList)).getD
        (false, Parser.new sample.host_C)).2).get_key_values = some tree
      ∧ tree.has_empty = false)
    ∧ (((Parser.run sample.host_C 1 ((Parser.new sample.host_C).load_from_string
          "\"a\" \"1\" [ $X ] \"o\" \x7b \"b\" 2 [ $X ] \"c\" 3 \x7d #include \"C.vdf\"".toList)).getD
        (false, Parser.new sample.host_C)).2).get_key_values
      = some [("o", ValueType.keyValues [("c", ValueType.int32 3)]),
          ("w", ValueType.string "1")] :=
  ⟨(Parser.tree_has_no_empty sample.host_C 1
    ((Parser.new sample.host_C).load_from_string
      "\"a\" \"1\" [ $X ] \"o\" \x7b \"b\" 2 [ $X ] \"c\" 3 \x7d #include \"C.vdf\"".toList)
    ((Parser.run sample.host_C 1 ((Parser.new sample.host_C).load_from_string
        "\"a\" \"1\" [ $X ] \"o\" \x7b \"b\" 2 [ $X ] \"c\" 3 \x7d #include \"C.vdf\"".toList)).getD
      (false, Parser.new sample.host_C)).2 rfl).1, rfl⟩

/-! ## Tokens of a document -/

/-- A code point that starts a name is no digit, no sign, no brace, no
quotation mark and no square bracket. -/
theorem document.name_head (ucd : UnicodeData) (c : Char)
    (h : dsl.xid_start_underscore ucd c = true) :
    dsl.is_digit c = false ∧ c ≠ '+' ∧ c ≠ '-' ∧ c ≠ Char.ofNat 123 ∧ c ≠ '"' ∧ c ≠ '[' := by
  refine ⟨?_, ?_, ?_, ?_, ?_, ?_⟩
  · by_contra hd
    simp only [Bool.not_eq_false, dsl.is_digit, decide_eq_true_eq] at hd
    have hlt : c.toNat < 128 := by omega
    simp only [dsl.xid_start_underscore, hlt, if_true, dsl.ascii_alpha, Bool.or_eq_true,
      decide_eq_true_eq] at h
    omega
  all_goals
    rintro rfl
    exact absurd h (by simp [dsl.xid_start_underscore, dsl.ascii_alpha])

/-- A hexadecimal digit is an `xid_continue` code point. -/
theorem document.xid_continue_of_is_hex (ucd : UnicodeData) (c : Char)
    (h : dsl.is_hex c = true) : dsl.xid_continue ucd c = true := by
  simp only [dsl.is_hex, dsl.is_digit, Bool.or_eq_true, decide_eq_true_eq] at h
  have hlt : c.toNat < 128 := by omega
  simp only [dsl.xid_continue, hlt, if_true, dsl.ascii_alpha, dsl.is_digit, Bool.or_eq_true,
    decide_eq_true_eq]
  omega

theorem document.ends_numeral_of_ends_token (ucd : UnicodeData) (rest : List Char)
    (h : document.ends_token ucd rest = true) : literal.ends_numeral rest = true := by
  cases rest with
  | nil => rfl
  | cons c t =>
    simp only [document.ends_token, Bool.and_eq_true, Bool.not_eq_true', bne_iff_ne, ne_eq]
      at h
    have h1 : dsl.is_hex c = false := by
      by_contra hc
      simp only [Bool.not_eq_false] at hc
      rw [document.xid_continue_of_is_hex ucd c hc] at h
      exact absurd h.1 (by simp)
    have h2 : c ≠ 'x' := by
      rintro rfl
      exact absurd h.1 (by simp [dsl.xid_continue, dsl.ascii_alpha])
    simp [literal.ends_numeral, h1, h.2, h2]

theorem document.ends_token_append (ucd : UnicodeData) (a b : List Char)
    (ha : document.ends_token ucd a = true) (hb : a = [] → document.ends_token ucd b = true) :
    document.ends_token ucd (a ++ b) = true := by
  cases a with
  | nil => exact hb rfl
  | cons c t => exact ha

theorem document.starts_token_append (ucd : UnicodeData) (a b : List Char)
    (ha : document.starts_token ucd a = true)
    (hb : a = [] → document.starts_token ucd b = true) :
    document.starts_token ucd (a ++ b) = true := by
  cases a with
  | nil => exact hb rfl
  | cons c t => exact ha

theorem document.ends_token_of_closes (ucd : UnicodeData) (rest : List Char)
    (h : document.closes rest = true) : document.ends_token ucd rest = true := by
  cases rest with
  | nil => rfl
  | cons c t =>
    simp only [document.closes, beq_iff_eq] at h
    subst h
    rfl

theorem document.starts_token_of_closes (ucd : UnicodeData) (rest : List Char)
    (h : document.closes rest = true) : document.starts_token ucd rest = true := by
  cases rest with
  | nil => rfl
  | cons c t =>
    simp only [document.closes, beq_iff_eq] at h
    subst h
    rfl

/-- Whitespace skipping over layout in front of a token or of the end. -/
theorem grammar.skip_to_token (ucd : UnicodeData) (ws input : List Char)
    (hws : condition.is_layout ws = true) (hinput : document.starts_token ucd input = true) :
    grammar.skip ucd (ws ++ input) = input := by
  induction ws with
  | nil =>
    cases input with
    | nil => rfl
    | cons c t =>
      simp only [document.starts_token, Bool.and_eq_true, Bool.not_eq_true', bne_iff_ne, ne_eq]
        at hinput
      simp [grammar.skip, grammar.whitespace, hinput.1.1, hinput.1.2]
  | cons w ws ih =>
    simp only [condition.is_layout, List.all_cons, Bool.and_eq_true] at hws
    obtain ⟨h1, h2, -⟩ := condition.layout_char ucd w hws.1
    have ih' := ih (by simpa [condition.is_layout] using hws.2)
    simp only [grammar.skip] at ih' ⊢
    simp [grammar.whitespace, h1, h2, ih']

/-- The token `PlainValue` on a name that the input does not continue. -/
theorem grammar.PlainValue.token_name (ucd : UnicodeData) (n rest : List Char)
    (hn : condition.is_identifier ucd n = true) (hrest : document.ends_token ucd rest = true) :
    grammar.PlainValue.token ucd (n ++ rest) = some (String.mk n, rest) := by
  cases n with
  | nil => simp [condition.is_identifier] at hn
  | cons c t =>
    simp only [condition.is_identifier, Bool.and_eq_true, List.all_eq_true] at hn
    have hstop : ∀ a, rest.head? = some a → dsl.xid_continue ucd a = false := by
      intro a ha
      cases rest with
      | nil => simp at ha
      | cons b u =>
        simp only [List.head?_cons, Option.some.injEq] at ha
        subst ha
        simp only [document.ends_token, Bool.and_eq_true, Bool.not_eq_true'] at hrest
        exact hrest.1
    obtain ⟨h1, h2⟩ := takeWhile_dropWhile_stop (dsl.xid_continue ucd) t rest hn.2 hstop
    simp [grammar.PlainValue.token, hn.1, h1, h2]

/-- The text of a well-formed token is not empty, and stands at a token start. -/
theorem document.Token.token_text_starts (ucd : UnicodeData) (t : document.Token)
    (ht : t.well_formed ucd = true) (rest : List Char) :
    (∃ c u, t.text = c :: u ∧ (dsl.xid_start_underscore ucd c = true ∨ c = '"'))
    ∧ document.starts_token ucd (t.text ++ rest) = true := by
  cases t with
  | quoted body => exact ⟨⟨'"', _, rfl, Or.inr rfl⟩, rfl⟩
  | plain name =>
    simp only [document.Token.well_formed, Bool.and_eq_true] at ht
    cases name with
    | nil => simp [condition.is_identifier] at ht
    | cons c u =>
      refine ⟨⟨c, u, rfl, Or.inl ?_⟩, ht.2⟩
      simp only [condition.is_identifier, Bool.and_eq_true] at ht
      exact ht.1.1

/-- The rule `KeyExpression` on the text of a token. -/
theorem grammar.KeyExpression.rule_token (ucd : UnicodeData) (t : document.Token)
    (rest : List Char) (ht : t.well_formed ucd = true)
    (hrest : t.closed = true ∨ document.ends_token ucd rest = true) :
    grammar.KeyExpression.rule ucd (t.text ++ rest)
      = some (.value t.string (grammar.skip ucd rest)) := by
  cases t with
  | quoted body =>
    simp only [document.Token.well_formed, List.all_eq_true] at ht
    have htext : (document.Token.quoted body).text ++ rest
        = '"' :: (quoted.text body ++ '"' :: rest) := by
      simp [document.Token.text]
    have h3 := grammar.PlainValue.plain_none ucd '"' (quoted.text body ++ '"' :: rest) rfl
    rw [htext]
    simp only [grammar.KeyExpression.rule, h3, grammar.StringValue.rule, if_true,
      (grammar.StringValue.body_text ucd body ht rest).1, document.Token.string]
  | plain name =>
    simp only [document.Token.well_formed, Bool.and_eq_true] at ht
    have hr : document.ends_token ucd rest = true := by
      rcases hrest with h | h
      · simp [document.Token.closed] at h
      · exact h
    simp only [grammar.KeyExpression.rule, grammar.PlainValue.rule, document.Token.text,
      grammar.PlainValue.token_name ucd name rest ht.1 hr, Option.map_some',
      document.Token.string]

/-! ## Values of a document -/

/-- No attribute where a token starts. -/
theorem grammar.ConditionalAttribute.attribute_none (ucd : UnicodeData) (state : Parser.State)
    (input : List Char) (h : document.starts_token ucd input = true) :
    grammar.ConditionalAttribute.rule ucd state input = none := by
  cases input with
  | nil => simp [grammar.ConditionalAttribute.rule, grammar.lit, List.isPrefixOf]
  | cons c t =>
    simp only [document.starts_token, Bool.and_eq_true, bne_iff_ne, ne_eq] at h
    simp only [grammar.ConditionalAttribute.rule, grammar.lit_singleton_none ucd '[' c t h.2]

/-- A digit stands at a token start. -/
theorem document.starts_token_digit (ucd : UnicodeData) (c : Char) (t : List Char)
    (h : dsl.is_digit c = true) : document.starts_token ucd (c :: t) = true := by
  simp only [dsl.is_digit, decide_eq_true_eq] at h
  have hlt : c.toNat < 128 := by omega
  have h1 : c ≠ '/' := by rintro rfl; simp at h
  have h2 : c ≠ '[' := by rintro rfl; simp at h
  simp only [document.starts_token, grammar.whitespace_specifier, dsl.unicode_blank,
    dsl.unicode_newline, hlt, if_true, Bool.and_eq_true, Bool.not_eq_true', Bool.or_eq_false_iff,
    decide_eq_false_iff_not, bne_iff_ne, ne_eq]
  refine ⟨⟨⟨by omega, by omega⟩, h1⟩, h2⟩

/-- The text of a well-formed float starts with a sign or a digit, so at a
token start, and is not empty. -/
theorem literal.Float.float_text_starts (ucd : UnicodeData) (f : literal.Float)
    (hf : f.well_formed = true) (rest : List Char) :
    f.text ≠ [] ∧ document.starts_token ucd (f.text ++ rest) = true := by
  simp only [literal.Float.well_formed, Bool.and_eq_true] at hf
  obtain ⟨⟨⟨⟨hs, hd⟩, -⟩, -⟩, -⟩ := hf
  obtain ⟨hne, hall⟩ := (literal.is_digits_iff f.digits).1 hd
  cases hdig : f.digits with
  | nil => exact absurd hdig hne
  | cons d ds =>
    have hdd : dsl.is_digit d = true := hall d (by rw [hdig]; exact List.mem_cons_self _ _)
    simp only [literal.is_sign, Bool.or_eq_true, beq_iff_eq] at hs
    rcases hs with (hs | hs) | hs
    · simp only [literal.Float.text, hs, hdig, List.nil_append, List.cons_append]
      exact ⟨List.cons_ne_nil _ _, document.starts_token_digit ucd d _ hdd⟩
    · simp only [literal.Float.text, hs, hdig, List.cons_append, List.nil_append]
      exact ⟨List.cons_ne_nil _ _, rfl⟩
    · simp only [literal.Float.text, hs, hdig, List.cons_append, List.nil_append]
      exact ⟨List.cons_ne_nil _ _, rfl⟩

/-- The text of a well-formed value or of a statement is not empty and stands
at a token start. -/
theorem document.Doc.text_starts (ucd : UnicodeData) (d : document.Doc)
    (hd : d.well_formed ucd = true) (hsize : 0 < d.size) (rest : List Char) :
    d.text ≠ [] ∧ document.starts_token ucd (d.text ++ rest) = true := by
  cases d with
  | string t =>
    obtain ⟨⟨c, u, hcu, -⟩, hs⟩ := document.Token.token_text_starts ucd t hd rest
    exact ⟨by simp [document.Doc.text, hcu], hs⟩
  | decimal digits =>
    simp only [document.Doc.well_formed, Bool.and_eq_true] at hd
    obtain ⟨c, t, hct, hc⟩ := literal.head_is_digit digits rest hd.1
    obtain ⟨hne, -⟩ := (literal.is_digits_iff digits).1 hd.1
    refine ⟨hne, ?_⟩
    simp only [document.Doc.text, hct]
    exact document.starts_token_digit ucd c t hc
  | hex digits => exact ⟨List.cons_ne_nil _ _, rfl⟩
  | float f =>
    simp only [document.Doc.well_formed, Bool.and_eq_true] at hd
    exact literal.Float.float_text_starts ucd f hd.1 rest
  | object ws body => exact ⟨List.cons_ne_nil _ _, rfl⟩
  | nil => simp [document.Doc.size] at hsize
  | cons key ws₁ value ws₂ tail =>
    simp only [document.Doc.well_formed, Bool.and_eq_true] at hd
    obtain ⟨⟨c, u, hcu, -⟩, hs⟩ := document.Token.token_text_starts ucd key hd.1.1.1.1.1.1.1.1.1
      (ws₁ ++ (value.text ++ (ws₂ ++ tail.text)) ++ rest)
    refine ⟨by simp [document.Doc.text, hcu], ?_⟩
    simpa [document.Doc.text, List.append_assoc] using hs

/-- The entries of a sequence: as many as its keys, at most its size. -/
theorem document.Doc.entries_keys (d : document.Doc) :
    d.entries.map Prod.fst = d.keys ∧ d.entries.length ≤ d.size := by
  induction d with
  | cons key ws₁ value ws₂ tail _ iht =>
    simp only [document.Doc.entries, document.Doc.keys, document.Doc.size, List.map_cons,
      List.length_cons, iht.1, true_and]
    omega
  | _ => simp [document.Doc.entries, document.Doc.keys]

/-- What a value stands for is not the empty alternative. -/
theorem document.Doc.denote_index (d : document.Doc) (hd : d.is_value = true) :
    d.denote.index ≠ 0 := by
  cases d <;> simp [document.Doc.is_value] at hd <;>
    simp [document.Doc.denote, ValueType.index]

/-! ## The fold over statements with distinct keys -/

theorem KeyValues.find_eq_none (self : KeyValues) (key : String)
    (h : key ∉ self.map Prod.fst) : self.find key = none := by
  induction self with
  | nil => rfl
  | cons hd tl ih =>
    obtain ⟨k, v⟩ := hd
    simp only [List.map_cons, List.mem_cons, not_or] at h
    simp only [KeyValues.find]
    rw [if_neg (fun hk => h.1 hk.symm)]
    exact ih h.2

/-- Folding pairs with pairwise distinct keys, none of them in the tree and
none with the empty alternative, appends them to the tree. -/
theorem grammar.ListValue.foldl_distinct (kvs : List KeyValues.copy_pair_type)
    (values : KeyValues) (hindex : ∀ kv ∈ kvs, kv.2.index ≠ 0)
    (hnew : ∀ kv ∈ kvs, kv.1 ∉ values.map Prod.fst)
    (hdistinct : (kvs.map Prod.fst).Nodup) :
    kvs.foldl grammar.ListValue.value_pair values = values ++ kvs := by
  induction kvs generalizing values with
  | nil => simp
  | cons kv tl ih =>
    obtain ⟨k, v⟩ := kv
    simp only [List.map_cons, List.nodup_cons] at hdistinct
    have hk : k ∉ values.map Prod.fst := hnew (k, v) (List.mem_cons_self _ _)
    have hstep : grammar.ListValue.value_pair values (k, v) = values ++ [(k, v)] := by
      simp only [grammar.ListValue.value_pair,
        if_neg (hindex (k, v) (List.mem_cons_self _ _)), KeyValues.emplace,
        KeyValues.find_eq_none values k hk]
    rw [List.foldl_cons, hstep,
      ih (values ++ [(k, v)]) (fun kv hkv => hindex kv (List.mem_cons_of_mem _ hkv)) ?_
        hdistinct.2]
    · simp
    · intro kv hkv
      simp only [List.map_append, List.map_cons, List.map_nil, List.mem_append,
        List.mem_singleton, not_or]
      refine ⟨hnew kv (List.mem_cons_of_mem _ hkv), ?_⟩
      intro hkk
      exact hdistinct.1 (hkk ▸ List.mem_map_of_mem Prod.fst hkv)

/-- The keys of a well-formed sequence are pairwise distinct, and its entries
hold no empty alternative at the top. -/
theorem document.Doc.entries_distinct (ucd : UnicodeData) (d : document.Doc)
    (hd : d.well_formed ucd = true) :
    (d.entries.map Prod.fst).Nodup ∧ ∀ kv ∈ d.entries, kv.2.index ≠ 0 := by
  induction d with
  | cons key ws₁ value ws₂ tail _ iht =>
    simp only [document.Doc.well_formed, Bool.and_eq_true, decide_eq_true_eq] at hd
    obtain ⟨h1, h2⟩ := iht hd.1.1.1.2
    simp only [document.Doc.entries, List.map_cons, List.nodup_cons, List.mem_cons]
    refine ⟨⟨?_, h1⟩, ?_⟩
    · rw [(document.Doc.entries_keys tail).1]; exact hd.2
    · rintro kv (rfl | hkv)
      · exact document.Doc.denote_index value hd.1.1.1.1.1.1.1.2
      · exact h2 kv hkv
  | _ => simp [document.Doc.entries]

/-- The fold of the entries of a well-formed sequence is the sequence of the entries. -/
theorem document.Doc.foldl_entries (ucd : UnicodeData) (d : document.Doc)
    (hd : d.well_formed ucd = true) :
    d.entries.foldl grammar.ListValue.value_pair [] = d.entries := by
  obtain ⟨h1, h2⟩ := document.Doc.entries_distinct ucd d hd
  rw [grammar.ListValue.foldl_distinct d.entries [] h2 (fun _ _ => by simp) h1]
  simp

/-! ## Values of a document in value position -/

/-- A plain name in value position is a string. -/
theorem grammar.ValueExpression.rule_name (ucd : UnicodeData) (merge : grammar.Merge)
    (statement : grammar.Run KeyValues.copy_pair_type) (k : Nat) (state : Parser.State)
    (n rest : List Char) (hn : condition.is_identifier ucd n = true)
    (hrest : document.ends_token ucd rest = true) :
    grammar.ValueExpression.rule ucd merge statement k state (n ++ rest)
      = some (.value (ValueType.string (String.mk n), state) (grammar.skip ucd rest)) := by
  have htoken := grammar.PlainValue.token_name ucd n rest hn hrest
  cases n with
  | nil => simp [condition.is_identifier] at hn
  | cons c t =>
    simp only [condition.is_identifier, Bool.and_eq_true] at hn
    obtain ⟨hd, hp, hm, hb, -, -⟩ := document.name_head ucd c hn.1
    have h1 := grammar.ListValue.rule_none ucd merge statement k state (c :: t ++ rest)
      (by simp only [List.cons_append, List.head?_cons, ne_eq, Option.some.injEq]; exact hb)
    have h2 := grammar.numeral_none ucd c (t ++ rest) hd hp hm
    simp only [List.cons_append] at h1 h2 htoken ⊢
    conv_lhs => unfold grammar.ValueExpression.rule
    simp [h1, h2.1, h2.2, grammar.PlainValue.rule, htoken]

/-! ## Parsing the text of a document -/

/-- What the rules compute on the text of a value and of a sequence of
statements: a value in value position yields what it stands for, a sequence
is a run of statements that yields its entries. -/
theorem document.Doc.parses (ucd : UnicodeData) (merge : grammar.Merge) (d : document.Doc)
    (hd : d.well_formed ucd = true) :
    (d.is_value = true → ∀ (n : Nat) (state : Parser.State) (rest : List Char), d.size ≤ n →
      (d.closed = true ∨ document.ends_token ucd rest = true) →
      grammar.ValueExpression.rule ucd merge (grammar.KeyValueStatement.rule ucd merge n) n state
          (d.text ++ rest)
        = some (.value (d.denote, state) (grammar.skip ucd rest)))
    ∧ (d.is_list = true → ∀ (n : Nat) (state : Parser.State) (rest : List Char), d.size ≤ n →
      document.closes rest = true →
      grammar.Statements (grammar.KeyValueStatement.rule ucd merge n) state (d.text ++ rest)
        d.entries state rest) := by
  induction d with
  | string t =>
    refine ⟨fun _ n state rest _ hrest => ?_, fun h => by simp [document.Doc.is_list] at h⟩
    cases t with
    | quoted body =>
      simp only [document.Doc.well_formed, document.Token.well_formed, List.all_eq_true] at hd
      have htext : (document.Doc.string (document.Token.quoted body)).text ++ rest
          = '"' :: (quoted.text body ++ '"' :: rest) := by
        simp [document.Doc.text, document.Token.text]
      rw [htext, grammar.ValueExpression.rule_quote]
      simp only [grammar.StringValue.rule, if_true,
        (grammar.StringValue.body_text ucd body hd rest).1]
      rfl
    | plain name =>
      simp only [document.Doc.well_formed, document.Token.well_formed, Bool.and_eq_true] at hd
      have hr : document.ends_token ucd rest = true := by
        rcases hrest with h | h
        · simp [document.Doc.closed, document.Token.closed] at h
        · exact h
      exact grammar.ValueExpression.rule_name ucd merge _ n state name rest hd.1 hr
  | decimal digits =>
    refine ⟨fun _ n state rest _ hrest => ?_, fun h => by simp [document.Doc.is_list] at h⟩
    simp only [document.Doc.well_formed, Bool.and_eq_true, decide_eq_true_eq] at hd
    have hr : document.ends_token ucd rest = true := by
      rcases hrest with h | h
      · simp [document.Doc.closed] at h
      · exact h
    exact grammar.ValueExpression.rule_of_decimal ucd merge _ n state digits rest hd.1 hd.2
      (document.ends_numeral_of_ends_token ucd rest hr)
  | hex digits =>
    refine ⟨fun _ n state rest _ hrest => ?_, fun h => by simp [document.Doc.is_list] at h⟩
    simp only [document.Doc.well_formed, Bool.and_eq_true, decide_eq_true_eq] at hd
    have hr : document.ends_token ucd rest = true := by
      rcases hrest with h | h
      · simp [document.Doc.closed] at h
      · exact h
    exact grammar.ValueExpression.rule_hex ucd merge _ n state digits rest hd.1 hd.2
      (document.ends_numeral_of_ends_token ucd rest hr)
  | float f =>
    refine ⟨fun _ n state rest _ hrest => ?_, fun h => by simp [document.Doc.is_list] at h⟩
    have hr : document.ends_token ucd rest = true := by
      rcases hrest with h | h
      · simp [document.Doc.closed] at h
      · exact h
    simp only [document.Doc.well_formed, Bool.and_eq_true] at hd
    have hrule := grammar.ValueExpression.rule_float ucd merge
      (grammar.KeyValueStatement.rule ucd merge n) n state f rest hd.1
      (document.ends_numeral_of_ends_token ucd rest hr)
    cases hvalue : grammar.FloatValue.value (String.mk f.text) with
    | none => rw [hvalue] at hd; exact absurd hd.2 (by simp)
    | some x =>
      rw [hvalue] at hrule
      simp only [document.Doc.text, document.Doc.denote, hvalue, Option.getD_some]
      exact hrule
  | object ws body ih =>
    refine ⟨fun _ n state rest hn _ => ?_, fun h => by simp [document.Doc.is_list] at h⟩
    simp only [document.Doc.well_formed, Bool.and_eq_true, decide_eq_true_eq] at hd
    obtain ⟨⟨⟨hws, hlist⟩, hpos⟩, hbody⟩ := hd
    simp only [document.Doc.size] at hn
    have hstarts := (document.Doc.text_starts ucd body hbody hpos (Char.ofNat 125 :: rest)).2
    have hrun := (ih hbody).2 hlist n state (Char.ofNat 125 :: rest) (by omega) rfl
    have hskip : grammar.skip ucd (ws ++ (body.text ++ Char.ofNat 125 :: rest))
        = body.text ++ Char.ofNat 125 :: rest :=
      grammar.skip_to_token ucd ws _ hws hstarts
    rw [← hskip] at hrun
    have hne : body.entries ≠ [] := by
      intro hnil
      have hlen := (document.Doc.entries_keys body).1
      cases hb : body with
      | cons key ws₁ value ws₂ tail => rw [hb] at hnil; simp [document.Doc.entries] at hnil
      | nil => rw [hb] at hpos; simp [document.Doc.size] at hpos
      | string t => rw [hb] at hlist; simp [document.Doc.is_list] at hlist
      | decimal digits => rw [hb] at hlist; simp [document.Doc.is_list] at hlist
      | hex digits => rw [hb] at hlist; simp [document.Doc.is_list] at hlist
      | float f => rw [hb] at hlist; simp [document.Doc.is_list] at hlist
      | object ws' body' => rw [hb] at hlist; simp [document.Doc.is_list] at hlist
    have hobject := grammar.ListValue.object_of_statements ucd merge n n state state
      (ws ++ (body.text ++ Char.ofNat 125 :: rest)) rest body.entries hne
      (by have := (document.Doc.entries_keys body).2; omega) hrun
    have htext : (document.Doc.object ws body).text ++ rest
        = Char.ofNat 123 :: (ws ++ (body.text ++ Char.ofNat 125 :: rest)) := by
      simp [document.Doc.text]
    rw [htext]
    conv_lhs => unfold grammar.ValueExpression.rule
    simp only [hobject, document.Doc.foldl_entries ucd body hbody, document.Doc.denote]
  | nil =>
    refine ⟨fun h => by simp [document.Doc.is_value] at h, fun _ n state rest _ _ => ?_⟩
    exact grammar.Statements.nil state rest
  | cons key ws₁ value ws₂ tail ihv iht =>
    refine ⟨fun h => by simp [document.Doc.is_value] at h, fun _ n state rest hn hrest => ?_⟩
    simp only [document.Doc.well_formed, Bool.and_eq_true, decide_eq_true_eq,
      Bool.or_eq_true] at hd
    obtain ⟨⟨⟨⟨⟨⟨⟨⟨⟨hkey, hws₁⟩, hvalue⟩, hvwf⟩, hws₂⟩, htlist⟩, htwf⟩, hkend⟩, hvend⟩, hnew⟩ := hd
    simp only [document.Doc.size] at hn
    cases n with
    | zero => omega
    | succ m =>
      have hvpos : 0 < value.size := by
        cases hv : value with
        | nil => rw [hv] at hvalue; simp [document.Doc.is_value] at hvalue
        | cons key' ws₁' value' ws₂' tail' =>
          rw [hv] at hvalue; simp [document.Doc.is_value] at hvalue
        | _ => simp [document.Doc.size]
      -- the input after the statement
      have hT : document.starts_token ucd (tail.text ++ rest) = true := by
        by_cases htpos : 0 < tail.size
        · exact (document.Doc.text_starts ucd tail htwf htpos rest).2
        · have : tail.text = [] := by
            cases ht : tail with
            | nil => rfl
            | cons key' ws₁' value' ws₂' tail' =>
              rw [ht] at htpos; simp [document.Doc.size] at htpos
            | string t => rw [ht] at htlist; simp [document.Doc.is_list] at htlist
            | decimal digits => rw [ht] at htlist; simp [document.Doc.is_list] at htlist
            | hex digits => rw [ht] at htlist; simp [document.Doc.is_list] at htlist
            | float f => rw [ht] at htlist; simp [document.Doc.is_list] at htlist
            | object ws' body' => rw [ht] at htlist; simp [document.Doc.is_list] at htlist
          rw [this]
          exact document.starts_token_of_closes ucd rest hrest
      have hR₂ : value.closed = true
          ∨ document.ends_token ucd (ws₂ ++ (tail.text ++ rest)) = true := by
        rcases hvend with h | h
        · exact Or.inl h
        · right
          rw [← List.append_assoc]
          exact document.ends_token_append ucd _ rest h
            (fun _ => document.ends_token_of_closes ucd rest hrest)
      have hR₁ : key.closed = true ∨ document.ends_token ucd
          (ws₁ ++ (value.text ++ (ws₂ ++ (tail.text ++ rest)))) = true := by
        rcases hkend with h | h
        · exact Or.inl h
        · right
          rw [← List.append_assoc]
          refine document.ends_token_append ucd _ _ h (fun hnil => ?_)
          have := (document.Doc.text_starts ucd value hvwf hvpos []).1
          simp only [List.append_eq_nil] at hnil
          exact absurd hnil.2 this
      have hkeyrule := grammar.KeyExpression.rule_token ucd key
        (ws₁ ++ (value.text ++ (ws₂ ++ (tail.text ++ rest)))) hkey hR₁
      have hskip₁ : grammar.skip ucd (ws₁ ++ (value.text ++ (ws₂ ++ (tail.text ++ rest))))
          = value.text ++ (ws₂ ++ (tail.text ++ rest)) :=
        grammar.skip_to_token ucd ws₁ _ hws₁
          (document.Doc.text_starts ucd value hvwf hvpos _).2
      have hvaluerule := (ihv hvwf).1 hvalue m state (ws₂ ++ (tail.text ++ rest)) (by omega) hR₂
      have hskip₂ : grammar.skip ucd (ws₂ ++ (tail.text ++ rest)) = tail.text ++ rest :=
        grammar.skip_to_token ucd ws₂ _ hws₂ hT
      have hattribute := grammar.ConditionalAttribute.attribute_none ucd state (tail.text ++ rest) hT
      have htext : (document.Doc.cons key ws₁ value ws₂ tail).text ++ rest
          = key.text ++ (ws₁ ++ (value.text ++ (ws₂ ++ (tail.text ++ rest)))) := by
        simp [document.Doc.text]
      have hstatement : grammar.KeyValueStatement.rule ucd merge (m + 1) state
          ((document.Doc.cons key ws₁ value ws₂ tail).text ++ rest)
          = some (.value ((key.string, value.denote), state) (tail.text ++ rest)) := by
        rw [htext]
        conv_lhs => unfold grammar.KeyValueStatement.rule
        simp only [hkeyrule, hskip₁, hvaluerule, hskip₂, hattribute,
          grammar.KeyValueStatement.value_nullopt]
      have hconsumed : (tail.text ++ rest).length
          < ((document.Doc.cons key ws₁ value ws₂ tail).text ++ rest).length := by
        obtain ⟨⟨c, u, hcu, -⟩, -⟩ := document.Token.token_text_starts ucd key hkey []
        rw [htext]
        simp only [List.length_append, hcu, List.length_cons]
        omega
      exact grammar.Statements.cons hstatement hconsumed
        ((iht htwf).2 htlist (m + 1) state rest (by omega) hrest)

end lexy_vdf
